import Mathlib

/-!
# tfh: the Terraform documentation scraper (`scraping/scraping.go`)

A shallow embedding of package `scraping` and a verification of its
specification.

Modelling conventions.

* A Go string is a sequence of bytes.  It is modelled as a Lean `String` with
  one character for each byte: the character with the code `b` stands for the
  byte `b`, so that `"\xC3\xA9"` is the Go string `é`.  A text in ASCII is
  modelled by itself; `utf8.bytes u` is the string that models the text `u`,
  its UTF-8 encoding.  A string need not be the encoding of a text.  `Index`,
  `Contains`, `SplitN` and `Replace` with a non-empty argument work on the
  bytes; `TrimSpace` decodes runes with the functions of Go's package `utf8`,
  which are written out in the namespace `utf8` below.  A character above
  U+00FF stands for no byte: no input of the program holds one, and the
  decoder takes it for a byte that is part of no encoding.
* A Go function returning `(T, error)` returns `Except Failure T`: a returned
  `error` value is `Failure.error msg` with the message that `fmt.Errorf`
  builds, a run-time panic (slice index out of range) is
  `Failure.indexOutOfRange`.
* `http.Get` is a parameter `get`: a function from the URL to either a
  transport error (its message) or a response.  Functions that call it also
  return the list of the URLs they requested, in order.
* `goquery.NewDocumentFromReader` is a parameter `parse`; the parsed document
  is a tree of `Node`s shaped like `golang.org/x/net/html`'s `html.Node`.
-/

namespace utf8

/-- The constant `RuneError`: the rune U+FFFD, the result of decoding a byte
that is part of no encoding. -/
def RuneError : Nat := 0xFFFD

/-- The constant `RuneSelf`: the bytes below it are runes of one byte. -/
def RuneSelf : Nat := 0x80

/-- The tables `first` and `acceptRanges`: for the leading byte of an encoding
of several bytes, the number of its bytes and the least and the greatest second
byte that it accepts; `none` for every other byte. -/
def first (b : Nat) : Option (Nat × Nat × Nat) :=
  if 0xC2 ≤ b ∧ b ≤ 0xDF then some (2, 0x80, 0xBF)
  else if b = 0xE0 then some (3, 0xA0, 0xBF)
  else if 0xE1 ≤ b ∧ b ≤ 0xEC then some (3, 0x80, 0xBF)
  else if b = 0xED then some (3, 0x80, 0x9F)
  else if 0xEE ≤ b ∧ b ≤ 0xEF then some (3, 0x80, 0xBF)
  else if b = 0xF0 then some (4, 0x90, 0xBF)
  else if 0xF1 ≤ b ∧ b ≤ 0xF3 then some (4, 0x80, 0xBF)
  else if b = 0xF4 then some (4, 0x80, 0x8F)
  else none

/-- A continuation byte: one between `locb` and `hicb`. -/
def isCont (b : Nat) : Bool := 0x80 ≤ b && b ≤ 0xBF

/-- Go's `utf8.RuneStart`: the byte is no continuation byte. -/
def RuneStart (b : Nat) : Bool := !isCont b

/-- Go's `utf8.DecodeRuneInString`: the first rune of `s` and the number of
its bytes; `(RuneError, 0)` for the empty string and `(RuneError, 1)` where
the bytes at the start of `s` are no encoding. -/
def DecodeRuneInString : List Char → Nat × Nat
  | [] => (RuneError, 0)
  | c0 :: rest =>
    if c0.toNat < RuneSelf then (c0.toNat, 1)
    else
      match first c0.toNat, rest with
      | some (2, lo, hi), c1 :: _ =>
        if lo ≤ c1.toNat ∧ c1.toNat ≤ hi then (c0.toNat % 32 * 64 + c1.toNat % 64, 2)
        else (RuneError, 1)
      | some (3, lo, hi), c1 :: c2 :: _ =>
        if lo ≤ c1.toNat ∧ c1.toNat ≤ hi ∧ isCont c2.toNat = true then
          (c0.toNat % 16 * 4096 + c1.toNat % 64 * 64 + c2.toNat % 64, 3)
        else (RuneError, 1)
      | some (4, lo, hi), c1 :: c2 :: c3 :: _ =>
        if lo ≤ c1.toNat ∧ c1.toNat ≤ hi ∧ isCont c2.toNat = true ∧ isCont c3.toNat = true then
          (c0.toNat % 8 * 262144 + c1.toNat % 64 * 4096 + c2.toNat % 64 * 64 + c3.toNat % 64, 4)
        else (RuneError, 1)
      | _, _ => (RuneError, 1)

/-- The loop of `DecodeLastRuneInString` that looks for the start of the last
rune: `n` bytes may still be inspected, the list holds the bytes before the
last one, nearest first.  The result is the number of these bytes that the
slice `s[start:end]` takes in. -/
def lastStart : Nat → List Char → Nat
  | _, [] => 0
  | 0, _ :: _ => 1
  | n + 1, b :: bs => if RuneStart b.toNat then 1 else 1 + lastStart n bs

/-- Go's `utf8.DecodeLastRuneInString`: the last rune of `s` and the number of
its bytes.  With `UTFMax = 4`, the three bytes before the last one are
inspected for the start of the rune. -/
def DecodeLastRuneInString (s : List Char) : Nat × Nat :=
  match s.reverse with
  | [] => (RuneError, 0)
  | c :: back =>
    if c.toNat < RuneSelf then (c.toNat, 1)
    else
      let k := lastStart 3 back
      let d := DecodeRuneInString (c :: back.take k).reverse
      if d.2 ≠ k + 1 then (RuneError, 1) else d

/-- The loop of `RuneCountInString`: `skip` is the number of bytes of the
current rune still to be passed over. -/
def runeCountLoop : Nat → List Char → Nat
  | _, [] => 0
  | skip + 1, _ :: cs => runeCountLoop skip cs
  | 0, c :: cs => 1 + runeCountLoop ((DecodeRuneInString (c :: cs)).2 - 1) cs

/-- Go's `utf8.RuneCountInString`: a byte that is part of no encoding counts
as one rune. -/
def RuneCountInString (s : List Char) : Nat := runeCountLoop 0 s

/-- Go's `utf8.ValidString`: the string is a sequence of encodings. -/
def ValidString : List Char → Bool
  | [] => true
  | c0 :: rest =>
    if c0.toNat < RuneSelf then ValidString rest
    else
      match first c0.toNat, rest with
      | some (2, lo, hi), c1 :: r =>
        decide (lo ≤ c1.toNat ∧ c1.toNat ≤ hi) && ValidString r
      | some (3, lo, hi), c1 :: c2 :: r =>
        decide (lo ≤ c1.toNat ∧ c1.toNat ≤ hi) && isCont c2.toNat && ValidString r
      | some (4, lo, hi), c1 :: c2 :: c3 :: r =>
        decide (lo ≤ c1.toNat ∧ c1.toNat ≤ hi) && isCont c2.toNat && isCont c3.toNat &&
          ValidString r
      | _, _ => false

end utf8

namespace unicode

/-- Go's `unicode.IsSpace`: the runes with the Unicode property
White_Space. -/
def IsSpace (r : Nat) : Bool :=
  (9 ≤ r && r ≤ 13) || r == 0x20 || r == 0x85 || r == 0xA0 || r == 0x1680 ||
  (0x2000 ≤ r && r ≤ 0x200A) || r == 0x2028 || r == 0x2029 || r == 0x202F ||
  r == 0x205F || r == 0x3000

end unicode

namespace strings

/-- Position of the first occurrence of `substr` in `s`, counted in bytes;
`none` stands for Go's `-1`. -/
def indexChars (substr : List Char) : List Char → Option Nat
  | [] => if substr.isEmpty then some 0 else none
  | c :: cs =>
    if substr.isPrefixOf (c :: cs) then some 0
    else (indexChars substr cs).map (· + 1)

/-- Go's `strings.Index`: the byte offset of the first occurrence of `substr`
in `s`. -/
def Index (s substr : String) : Option Nat := indexChars substr.data s.data

/-- Go's `strings.Contains(s, substr)`, which is `Index(s, substr) >= 0`. -/
def Contains (s substr : String) : Bool := (Index s substr).isSome

/-- The loop of Go's `explode`: `k` pieces of one rune each are cut off, what
is left is the last piece. -/
def explodeLoop : Nat → List Char → List (List Char)
  | 0, s => [s]
  | k + 1, s =>
    s.take (utf8.DecodeRuneInString s).2 ::
      explodeLoop k (s.drop (utf8.DecodeRuneInString s).2)

/-- Go's `explode`: the case `sep == ""` of `SplitN`, for `n > 0`. -/
def explode (s : List Char) (n : Nat) : List (List Char) :=
  let l := utf8.RuneCountInString s
  let m := if n > l then l else n
  if m = 0 then [] else explodeLoop (m - 1) s

/-- The loop of Go's `genSplit` for a non-empty separator: `k` is the number
of cuts still allowed (`n - 1 - i` in the source). -/
def genSplit (sep : List Char) : Nat → List Char → List (List Char)
  | 0, s => [s]
  | k + 1, s =>
    match indexChars sep s with
    | none => [s]
    | some m => s.take m :: genSplit sep k (s.drop (m + sep.length))

/-- Go's `strings.SplitN(s, sep, n)` for `n ≥ 0` (the source calls it with
`n = 2` and `n = 4`). -/
def SplitN (s sep : String) (n : Nat) : List String :=
  if n = 0 then []
  else if sep.data.isEmpty then (explode s.data n).map String.mk
  else (genSplit sep.data (n - 1) s.data).map String.mk

/-- The loop of `indexFunc(s, f, false)` in `TrimLeftFunc`, with the slice
`s[i:]` as its result: `skip` is the number of bytes of the current rune still
to be passed over. -/
def trimLeftLoop (f : Nat → Bool) : Nat → List Char → List Char
  | _, [] => []
  | skip + 1, _ :: cs => trimLeftLoop f skip cs
  | 0, c :: cs =>
    if f (utf8.DecodeRuneInString (c :: cs)).1 = false then c :: cs
    else trimLeftLoop f ((utf8.DecodeRuneInString (c :: cs)).2 - 1) cs

/-- Go's `strings.TrimLeftFunc`: the leading runes that `f` accepts are
removed. -/
def TrimLeftFunc (f : Nat → Bool) (s : List Char) : List Char := trimLeftLoop f 0 s

/-- The loop of `lastIndexFunc(s, f, false)`: the list holds the bytes of
`s[0:i]`, last first, and `skip` is the number of bytes of the current rune
still to be passed over. -/
def lastIndexLoop (f : Nat → Bool) : Nat → List Char → Option Nat
  | _, [] => none
  | skip + 1, _ :: bs => lastIndexLoop f skip bs
  | 0, b :: bs =>
    if f (utf8.DecodeLastRuneInString (b :: bs).reverse).1 = false then
      some ((b :: bs).length - (utf8.DecodeLastRuneInString (b :: bs).reverse).2)
    else lastIndexLoop f ((utf8.DecodeLastRuneInString (b :: bs).reverse).2 - 1) bs

/-- Go's `lastIndexFunc(s, f, false)`: the byte offset of the last rune that
`f` rejects; `none` stands for `-1`. -/
def lastIndexFunc (f : Nat → Bool) (s : List Char) : Option Nat := lastIndexLoop f 0 s.reverse

/-- Go's `strings.TrimRightFunc`: the trailing runes that `f` accepts are
removed. -/
def TrimRightFunc (f : Nat → Bool) (s : List Char) : List Char :=
  match lastIndexFunc f s with
  | none => s.take 0
  | some i =>
    match s.drop i with
    | [] => s.take (i + 1)
    | c :: cs =>
      if utf8.RuneSelf ≤ c.toNat then s.take (i + (utf8.DecodeRuneInString (c :: cs)).2)
      else s.take (i + 1)

/-- Go's `strings.TrimFunc`. -/
def TrimFunc (f : Nat → Bool) (s : List Char) : List Char := TrimRightFunc f (TrimLeftFunc f s)

/-- Go's `strings.TrimSpace`: `TrimFunc(s, unicode.IsSpace)`, the leading and
the trailing white space removed. -/
def TrimSpace (s : String) : String := String.mk (TrimFunc unicode.IsSpace s.data)

/-- The loop of Go's `strings.Replace` for a non-empty `old`: `k` is the number
of replacements still allowed, `skip` the number of bytes of a matched
occurrence of `old` still to be passed over. -/
def replaceChars (old new : List Char) : Nat → Nat → List Char → List Char
  | _, _, [] => []
  | k, skip + 1, _ :: cs => replaceChars old new k skip cs
  | 0, 0, c :: cs => c :: cs
  | k + 1, 0, c :: cs =>
    if old.isPrefixOf (c :: cs) then new ++ replaceChars old new k (old.length - 1) cs
    else c :: replaceChars old new (k + 1) 0 cs

/-- The loop of Go's `strings.Replace` for an empty `old`, after the first
insertion: `new` is inserted after each rune, `k` times at most. -/
def insertChars (new : List Char) : Nat → List Char → List Char
  | 0, s => s
  | k + 1, s =>
    if s.isEmpty then []
    else
      s.take (utf8.DecodeRuneInString s).2 ++
        (new ++ insertChars new k (s.drop (utf8.DecodeRuneInString s).2))

/-- Go's `strings.Replace(s, old, new, n)`; `n < 0` puts no limit on the
number of replacements. -/
def Replace (s old new : String) (n : Int) : String :=
  if old = new ∨ n = 0 then s
  else
    let k : Nat := if n < 0 then s.data.length + 1 else n.toNat
    if old.data.isEmpty then String.mk (new.data ++ insertChars new.data (k - 1) s.data)
    else String.mk (replaceChars old.data new.data k 0 s.data)

end strings

namespace html

/-- The node types of `golang.org/x/net/html`. -/
inductive NodeType where
  | ErrorNode
  | TextNode
  | DocumentNode
  | ElementNode
  | CommentNode
  | DoctypeNode
deriving DecidableEq, Repr

/-- An attribute of an element: `html.Attribute`. -/
structure Attribute where
  Key : String
  Val : String
deriving DecidableEq, Repr

/-- A node of a parsed document: `html.Node` with its `Type`, `Data` (the tag
of an element, the content of a text node) and `Attr`; the chain
`FirstChild`, `NextSibling`, ... is the list `children`.  The pointers
`Parent` and `PrevSibling` are kept by the traversals below. -/
inductive Node where
  | mk (type : NodeType) (data : String) (attr : List Attribute) (children : List Node)

/-- The field `Type`. -/
def Node.type : Node → NodeType
  | .mk t _ _ _ => t

/-- The field `Data`. -/
def Node.data : Node → String
  | .mk _ d _ _ => d

/-- The field `Attr`. -/
def Node.attr : Node → List Attribute
  | .mk _ _ a _ => a

/-- The children, from `FirstChild` along `NextSibling`. -/
def Node.children : Node → List Node
  | .mk _ _ _ cs => cs

end html

namespace cascadia

open html

/-- The selectors the source uses: a tag (`p`), an id (`#inner`), a class
(`.nav-visible`), the child combinator `first > second` and the group
`a,b`. -/
inductive Selector where
  | tag (name : String)
  | id (id : String)
  | cls (name : String)
  | child (first second : Selector)
  | group (a b : Selector)

/-- The function `matchAttribute`: an element with an attribute `key` whose
value satisfies `f`. -/
def matchAttribute (n : Node) (key : String) (f : String → Bool) : Bool :=
  n.type = NodeType.ElementNode && n.attr.any (fun a => a.Key = key && f a.Val)

/-- The loop of `matchInclude`: `tok` holds, reversed, the bytes of the
current token read so far. -/
def matchIncludeChars (val : List Char) : List Char → List Char → Bool
  | tok, [] => !tok.isEmpty && tok.reverse == val
  | tok, c :: cs =>
    if c = ' ' ∨ c = '\t' ∨ c = '\r' ∨ c = '\n' ∨ c = '\x0c' then
      tok.reverse == val || matchIncludeChars val [] cs
    else matchIncludeChars val (c :: tok) cs

/-- The function `matchInclude`: `val` is one of the white-space separated
tokens of `s`. -/
def matchInclude (val s : String) : Bool := matchIncludeChars val.data [] s.data

/-- The method `Match`: whether the selector matches node `n`, whose `Parent`
chain is `anc` (nearest first). -/
def Selector.Match : Selector → List Node → Node → Bool
  | .tag name, _, n => n.type = NodeType.ElementNode && n.data = name
  | .id v, _, n => matchAttribute n "id" (fun s => s = v)
  | .cls v, _, n => matchAttribute n "class" (matchInclude v)
  | .child first second, anc, n =>
    second.Match anc n &&
      match anc with
      | [] => false
      | p :: rest => first.Match rest p
  | .group a b, anc, n => a.Match anc n || b.Match anc n

end cascadia

namespace goquery

open html cascadia

/-- One node of a `Selection` together with what its pointers reach: the
`Parent` chain `anc` and the `PrevSibling` chain `before`, both nearest
first. -/
structure Loc where
  anc : List Node
  before : List Node
  node : Node

/-- A `goquery.Selection`: its slice `Nodes`. -/
abbrev Selection := List Loc

mutual
/-- The method `MatchAll` of a selector: the matching nodes among `n` and its
descendants, in document order. -/
def matchAll (sel : Selector) (anc before : List Node) : Node → List Loc
  | .mk t d a cs =>
    (if sel.Match anc (.mk t d a cs) then [⟨anc, before, .mk t d a cs⟩] else []) ++
      matchAllList sel (.mk t d a cs :: anc) [] cs
/-- The loop of `MatchAll` over the children of a node. -/
def matchAllList (sel : Selector) (anc before : List Node) : List Node → List Loc
  | [] => []
  | c :: cs => matchAll sel anc before c ++ matchAllList sel anc (c :: before) cs
end

/-- The function `findWithMatcher` for one node: `MatchAll` on each child that
is an element. -/
def findChildren (sel : Selector) (anc before : List Node) : List Node → List Loc
  | [] => []
  | c :: cs =>
    (if c.type = NodeType.ElementNode then matchAll sel anc before c else []) ++
      findChildren sel anc (c :: before) cs

/-- The method `Find`: the descendants of the nodes of the selection that
match the selector.  The source calls it on selections of at most one node, so
that the removal of duplicates has nothing to remove. -/
def Selection.Find (s : Selection) (sel : Selector) : Selection :=
  s.flatMap (fun l => findChildren sel (l.node :: l.anc) [] l.node.children)

/-- The method `First`. -/
def Selection.First (s : Selection) : Selection := s.take 1

mutual
/-- The text of a node: the `Data` of the text nodes among the node and its
descendants, concatenated. -/
def nodeText : Node → String
  | .mk t d _ cs => (if t = NodeType.TextNode then d else "") ++ nodeTextList cs
/-- The text of a list of sibling nodes. -/
def nodeTextList : List Node → String
  | [] => ""
  | c :: cs => nodeText c ++ nodeTextList cs
end

/-- The method `Text`: the combined text of the nodes of the selection. -/
def Selection.Text : Selection → String
  | [] => ""
  | l :: ls => nodeText l.node ++ Selection.Text ls

/-- The children of a node that are elements, each with its pointers. -/
def childElements (anc before : List Node) : List Node → List Loc
  | [] => []
  | c :: cs =>
    (if c.type = NodeType.ElementNode then [⟨anc, before, c⟩] else []) ++
      childElements anc (c :: before) cs

/-- The method `Children`: the child elements of each node of the
selection. -/
def Selection.Children (s : Selection) : Selection :=
  s.flatMap (fun l => childElements (l.node :: l.anc) [] l.node.children)

/-- The nearest element along a `PrevSibling` chain. -/
def prevElement (anc : List Node) : List Node → List Loc
  | [] => []
  | c :: cs => if c.type = NodeType.ElementNode then [⟨anc, cs, c⟩] else prevElement anc cs

/-- The method `Prev`: the immediately preceding sibling element of each node
of the selection. -/
def Selection.Prev (s : Selection) : Selection :=
  s.flatMap (fun l => prevElement l.anc l.before)

end goquery

namespace scraping

open html cascadia goquery

/-- How a call can fail: with a returned `error` value (its message), or with
the run-time panic `index out of range [index] with length length`. -/
inductive Failure where
  | error (msg : String)
  | indexOutOfRange (index length : Nat)
deriving DecidableEq, Repr

/-- The fields of `http.Response` that the source reads. -/
structure Response (β : Type) where
  StatusCode : Int
  Status : String
  Body : β

/-- The fetch capability `http.Get`: a transport error (its message) or a
response. -/
abbrev Fetch (β : Type) := String → Except String (Response β)

/-- TfScraper scrape terraform document. -/
structure TfScraper where
  Name : String
  DocType : String
  URL : String
deriving DecidableEq, Repr

/-- The method `convertDocURL`: convert resource or provider name to document
url.  The result `.ok s'` is the receiver after a `nil` return; on a returned
error the receiver is left as it was.  The second component lists the URLs
requested with `http.Get`. -/
def TfScraper.convertDocURL {β : Type} (get : Fetch β) (s : TfScraper) :
    Except Failure TfScraper × List String :=
  let built : Except Failure String :=
    if s.DocType = "provider" then
      .ok ("https://www.terraform.io/docs/providers/" ++ s.Name ++ "/index.html")
    else if s.DocType = "resource" then
      if !strings.Contains s.Name "_" then
        .error (.error ("resource \"" ++ s.Name ++ "\" is invalid"))
      else
        let splited := strings.SplitN s.Name "_" 2
        match splited[0]?, splited[1]? with
        | some p, some r =>
          .ok ("https://www.terraform.io/docs/providers/" ++ p ++ "/r/" ++ r ++ ".html")
        | none, _ => .error (.indexOutOfRange 0 splited.length)
        | some _, none => .error (.indexOutOfRange 1 splited.length)
    else .error (.error "DocType must be provider or resource")
  match built with
  | .error e => (.error e, [])
  | .ok url =>
    match get url with
    | .error _ => (.error (.error (s.DocType ++ " \"" ++ s.Name ++ "\" is not found")), [url])
    | .ok resp =>
      if resp.StatusCode ≠ 200 then
        (.error (.error (s.DocType ++ " \"" ++ s.Name ++ "\" is not found")), [url])
      else (.ok { s with URL := url }, [url])

/-- NewScraper return new TfScraper from resource or provider name and that
type. -/
def NewScraper {β : Type} (get : Fetch β) (docType : String) (name : String) :
    Except Failure TfScraper × List String :=
  let s : TfScraper := { Name := name, DocType := docType, URL := "" }
  match s.convertDocURL get with
  | (.error err, reqs) => (.error err, reqs)
  | (.ok s', reqs) => (.ok s', reqs)

/-- Modelled from the spec: the declaration of the type `tfResourceArg` (the
spec's `ArgumentRecord`) is not among the sources; its fields are the ones the
source assigns. -/
structure tfResourceArg where
  Name : String
  Description : String
  Required : Bool
  NestedField : List tfResourceArg

/-- Modelled from the spec: the declaration of the type `TfResource` (the
spec's `ResourceRecord`) is not among the sources; its fields are the ones the
source assigns. -/
structure TfResource where
  Name : String
  Description : String
  Args : List tfResourceArg

/-- Modelled from the spec: the declaration of the type `TfProvider` (the
spec's `ProviderRecord`) is not among the sources; its fields are the ones the
source assigns. -/
structure TfProvider where
  Name : String
  ResourceList : List String

/-- TfObject is terraform provider or resource interface: the two types the
source returns as a `TfObject`. -/
inductive TfObject where
  | resource (r : TfResource)
  | provider (p : TfProvider)

/-- The selector `#inner > p`. -/
def innerP : Selector := .child (.id "inner") (.tag "p")

/-- The selector `#inner > ul`. -/
def innerUl : Selector := .child (.id "inner") (.tag "ul")

/-- The selector `code,strong`. -/
def codeStrong : Selector := .group (.tag "code") (.tag "strong")

/-- The selector `a > code`. -/
def aCode : Selector := .child (.tag "a") (.tag "code")

/-- The selector `.docs-sidenav`. -/
def docsSidenav : Selector := .cls "docs-sidenav"

/-- The selector `.nav-visible > li`. -/
def navVisibleLi : Selector := .child (.cls "nav-visible") (.tag "li")

/-- The function `scrapingResourceList`: one list item to one argument.  The
two slice indexings panic when the split is too short. -/
def scrapingResourceList (li : Loc) : Except Failure tfResourceArg :=
  let name := (Selection.Find [li] aCode).Text
  let dashed := strings.SplitN (Selection.Text [li]) "-" 2
  match dashed[1]? with
  | none => .error (.indexOutOfRange 1 dashed.length)
  | some d =>
    let description := strings.Replace (strings.TrimSpace d) "\n" "" (-1)
    let spaced := strings.SplitN (Selection.Text [li]) " " 4
    match spaced[2]? with
    | none => .error (.indexOutOfRange 2 spaced.length)
    | some t =>
      .ok { Name := name, Description := description,
            Required := strings.Contains t "Required", NestedField := [] }

/-- The callback of the first list (`i == 0`): each child is parsed and
appended to `ret.Args`. -/
def appendArgs (ret : TfResource) : Selection → Except Failure TfResource
  | [] => .ok ret
  | li :: lis =>
    match scrapingResourceList li with
    | .error e => .error e
    | .ok arg => appendArgs { ret with Args := ret.Args ++ [arg] } lis

/-- The callback of a later list for one matching argument: each child is
parsed and appended to the argument's `NestedField`. -/
def appendNested (arg : tfResourceArg) : Selection → Except Failure tfResourceArg
  | [] => .ok arg
  | li :: lis =>
    match scrapingResourceList li with
    | .error e => .error e
    | .ok a => appendNested { arg with NestedField := arg.NestedField ++ [a] } lis

/-- The loop `for i, arg := range ret.Args` of a later list: every argument
named `fieldName` receives the parsed children `items` of the list. -/
def rangeArgs (fieldName : String) (items : Selection) :
    List tfResourceArg → Except Failure (List tfResourceArg)
  | [] => .ok []
  | arg :: rest =>
    if arg.Name = fieldName then
      match appendNested arg items with
      | .error e => .error e
      | .ok arg' =>
        match rangeArgs fieldName items rest with
        | .error e => .error e
        | .ok rest' => .ok (arg' :: rest')
    else
      match rangeArgs fieldName items rest with
      | .error e => .error e
      | .ok rest' => .ok (arg :: rest')

/-- The callback of `doc.Find("#inner > ul").Each` in `scrapeTfResource`, for
the list `selection` with index `i`. -/
def eachUl (ret : TfResource) (i : Nat) (selection : Loc) : Except Failure TfResource :=
  if i = 0 then
    appendArgs ret (Selection.Children [selection])
  else
    let fieldName := ((Selection.Prev [selection]).Find codeStrong).Text
    match rangeArgs fieldName (Selection.Children [selection]) ret.Args with
    | .error e => .error e
    | .ok args => .ok { ret with Args := args }

/-- The method `Each` with the callback `eachUl`: the lists are visited in
order, `i` is the index of the first of them. -/
def eachUls (ret : TfResource) (i : Nat) : Selection → Except Failure TfResource
  | [] => .ok ret
  | selection :: rest =>
    match eachUl ret i selection with
    | .error e => .error e
    | .ok ret' => eachUls ret' (i + 1) rest

/-- The function `scrapeTfResource`, with the parser of
`goquery.NewDocumentFromReader` as the parameter `parse`. -/
def scrapeTfResource {β : Type} (parse : β → Except String Node) (name : String)
    (res : Response β) : Except Failure TfResource :=
  match parse res.Body with
  | .error err => .error (.error ("HTML Read error: " ++ err))
  | .ok root =>
    let doc : Selection := [⟨[], [], root⟩]
    let ret : TfResource :=
      { Name := name,
        Description :=
          strings.Replace (strings.TrimSpace ((doc.Find innerP).First.Text)) "\n" "" (-1),
        Args := [] }
    eachUls ret 0 (doc.Find innerUl)

/-- The inner callback of `scrapeTfProvider`: the trimmed text of each item is
appended to `ret.ResourceList`. -/
def appendResources (ret : TfProvider) : Selection → TfProvider
  | [] => ret
  | li :: lis =>
    appendResources
      { ret with ResourceList := ret.ResourceList ++ [strings.TrimSpace (Selection.Text [li])] }
      lis

/-- The callback of `doc.Find(".docs-sidenav").Children().Each` in
`scrapeTfProvider`. -/
def eachSection (ret : TfProvider) (selection : Loc) : TfProvider :=
  if !(strings.Contains (Selection.Text [selection]) "Guides" ||
      strings.Contains (Selection.Text [selection]) "Data Sources" ||
      strings.Contains (Selection.Text [selection]) "Provider") then
    appendResources ret (Selection.Find [selection] navVisibleLi)
  else ret

/-- The function `scrapeTfProvider`, with the parser of
`goquery.NewDocumentFromReader` as the parameter `parse`. -/
def scrapeTfProvider {β : Type} (parse : β → Except String Node) (name : String)
    (res : Response β) : Except Failure TfProvider :=
  match parse res.Body with
  | .error err => .error (.error ("HTML Read error: " ++ err))
  | .ok root =>
    let doc : Selection := [⟨[], [], root⟩]
    let ret : TfProvider := { Name := name, ResourceList := [] }
    .ok (((doc.Find docsSidenav).Children).foldl eachSection ret)

/-- The method `Scrape`: scrape terraform document from web.  The value `none`
is the nil `TfObject`; the second component lists the URLs requested with
`http.Get`. -/
def TfScraper.Scrape {β : Type} (get : Fetch β) (parse : β → Except String Node)
    (s : TfScraper) : Except Failure (Option TfObject) × List String :=
  match get s.URL with
  | .error err => (.error (.error ("URL Query error : " ++ err)), [s.URL])
  | .ok res =>
    if res.StatusCode ≠ 200 then
      (.error (.error ("Status code error : " ++ toString res.StatusCode ++ " " ++ res.Status)),
        [s.URL])
    else if s.DocType = "resource" then
      match scrapeTfResource parse s.Name res with
      | .error (.error err) => (.error (.error ("Scraping error : " ++ err)), [s.URL])
      | .error e => (.error e, [s.URL])
      | .ok tfo => (.ok (some (.resource tfo)), [s.URL])
    else if s.DocType = "provider" then
      match scrapeTfProvider parse s.Name res with
      | .error (.error err) => (.error (.error ("Scraping error : " ++ err)), [s.URL])
      | .error e => (.error e, [s.URL])
      | .ok tfo => (.ok (some (.provider tfo)), [s.URL])
    else (.ok none, [s.URL])

end scraping

/-! ## Auxiliary definitions of the verification -/

namespace utf8

/-- The encodings of one rune: the byte sequences that `DecodeRuneInString`
accepts as a whole. -/
inductive Encoding : List Char → Prop
  | one (c : Char) (h : c.toNat < RuneSelf) : Encoding [c]
  | two (c0 c1 : Char) (lo hi : Nat) (hf : first c0.toNat = some (2, lo, hi))
      (h1 : lo ≤ c1.toNat ∧ c1.toNat ≤ hi) : Encoding [c0, c1]
  | three (c0 c1 c2 : Char) (lo hi : Nat) (hf : first c0.toNat = some (3, lo, hi))
      (h1 : lo ≤ c1.toNat ∧ c1.toNat ≤ hi) (h2 : isCont c2.toNat = true) :
      Encoding [c0, c1, c2]
  | four (c0 c1 c2 c3 : Char) (lo hi : Nat) (hf : first c0.toNat = some (4, lo, hi))
      (h1 : lo ≤ c1.toNat ∧ c1.toNat ≤ hi) (h2 : isCont c2.toNat = true)
      (h3 : isCont c3.toNat = true) : Encoding [c0, c1, c2, c3]

/-- Go's `utf8.EncodeRune`: the bytes of the encoding of the rune `r`. -/
def EncodeRune (r : Nat) : List Char :=
  if r ≤ 0x7F then [Char.ofNat r]
  else if r ≤ 0x7FF then [Char.ofNat (0xC0 + r / 64), Char.ofNat (0x80 + r % 64)]
  else if 0x10FFFF < r ∨ (0xD800 ≤ r ∧ r ≤ 0xDFFF) then
    [Char.ofNat 0xEF, Char.ofNat 0xBF, Char.ofNat 0xBD]
  else if r ≤ 0xFFFF then
    [Char.ofNat (0xE0 + r / 4096), Char.ofNat (0x80 + r / 64 % 64), Char.ofNat (0x80 + r % 64)]
  else
    [Char.ofNat (0xF0 + r / 262144), Char.ofNat (0x80 + r / 4096 % 64),
      Char.ofNat (0x80 + r / 64 % 64), Char.ofNat (0x80 + r % 64)]

/-- The Go string with the text `u`: the bytes of the encodings of its
characters, one character for each byte. -/
def bytes (u : String) : String := String.mk (u.data.flatMap (fun c => EncodeRune c.toNat))

end utf8

namespace scraping

open html cascadia goquery


/-- What `convertDocURL` does once the URL `url` is built. -/
def afterBuild {β : Type} (get : Fetch β) (docType name url : String) :
    Except Failure TfScraper × List String :=
  match get url with
  | .error _ => (.error (.error (docType ++ " \"" ++ name ++ "\" is not found")), [url])
  | .ok resp =>
    if resp.StatusCode ≠ 200 then
      (.error (.error (docType ++ " \"" ++ name ++ "\" is not found")), [url])
    else (.ok { Name := name, DocType := docType, URL := url }, [url])

/-- The emphasized or code-styled text before a list: the `fieldName` that the
callback of a later list computes. -/
def ownerText (selection : Loc) : String :=
  ((Selection.Prev [selection]).Find codeStrong).Text

/-- The item rule applied to every item of a selection, in order; the first
failure is the result. -/
def parseItems : Selection → Except Failure (List tfResourceArg)
  | [] => .ok []
  | li :: lis =>
    match scrapingResourceList li with
    | .error e => .error e
    | .ok a =>
      match parseItems lis with
      | .error e => .error e
      | .ok as => .ok (a :: as)

/-- How an argument `a'` after the later lists `later` comes from the argument
`a` before them. -/
def Nested (later : Selection) (a' a : tfResourceArg) : Prop :=
  a'.Name = a.Name ∧ a'.Description = a.Description ∧ a'.Required = a.Required ∧
    ∃ ns, parseItems (Selection.Children (later.filter (fun l => ownerText l = a.Name))) = .ok ns ∧
      a'.NestedField = a.NestedField ++ ns

/-- How the loop of a later list with owner text `f` and items `items` turns
the argument `a` into `a'`. -/
def Ranged (f : String) (items : Selection) (a' a : tfResourceArg) : Prop :=
  if a.Name = f then
    ∃ as, parseItems items = .ok as ∧ a' = { a with NestedField := a.NestedField ++ as }
  else a' = a

/-- A fetch capability that answers every request with status 200. -/
def fetchOk : Fetch Unit := fun _ => .ok ⟨200, "200 OK", ()⟩

/-- A fetch capability that answers every request with status 404. -/
def fetchNotFound : Fetch Unit := fun _ => .ok ⟨404, "404 Not Found", ()⟩

/-- An element node. -/
def elem (tag : String) (attr : List Attribute) (children : List Node) : Node :=
  .mk .ElementNode tag attr children

/-- A text node. -/
def text (s : String) : Node := .mk .TextNode s [] []

/-- The content region `div#inner` with the children `inner`. -/
def region (inner : List Node) : Node := elem "div" [⟨"id", "inner"⟩] inner

/-- The body of a page with the content region. -/
def pageBody (inner : List Node) : Node := elem "body" [] [region inner]

/-- The root element of a page with the content region. -/
def pageHtml (inner : List Node) : Node := elem "html" [] [elem "head" [] [], pageBody inner]

/-- A parsed page whose body holds the content region `div#inner` with the
children `inner`. -/
def page (inner : List Node) : Node := .mk .DocumentNode "" [] [pageHtml inner]

/-- The child number `k` of the content region of `page inner`, with its
pointers. -/
def regionChild (inner : List Node) (k : Nat) : Loc :=
  { anc := [region inner, pageBody inner, pageHtml inner, page inner],
    before := (inner.take k).reverse,
    node := inner.getD k (text "") }

/-- The list item `<li><a><code>name</code></a>rest</li>`. -/
def item (name rest : String) : Node :=
  elem "li" [] [elem "a" [] [elem "code" [] [text name]], text rest]

/-- The paragraph `<p>The <code>name</code> block supports:</p>`. -/
def blockIntro (name : String) : Node :=
  elem "p" [] [text "The ", elem "code" [] [text name], text " block supports:"]

/-- The content region of `samplePage`: a description, the argument list, the
nested list of `ebs`, and a list that no argument owns. -/
def sampleInner : List Node :=
  [elem "p" [] [text "Provides an instance."],
    elem "ul" [] [item "ami" " - (Required) The AMI", item "ebs" " - (Optional) Block devices"],
    blockIntro "ebs",
    elem "ul" [] [item "size" " - (Optional) The size", item "kind" " - (Optional) The kind"],
    blockIntro "timeouts",
    elem "ul" [] [item "create" " - (Optional) How long"]]

/-- A resource page. -/
def samplePage : Node := page sampleInner

/-- The document selection of a parsed page: the receiver `doc` of
`doc.Find`. -/
def document (root : Node) : Selection := [⟨[], [], root⟩]

/-- The argument `ami` of `samplePage`. -/
def sampleAmi : tfResourceArg :=
  { Name := "ami", Description := "(Required) The AMI", Required := true, NestedField := [] }

/-- The argument `ebs` of `samplePage`. -/
def sampleEbs : tfResourceArg :=
  { Name := "ebs", Description := "(Optional) Block devices", Required := false,
    NestedField := [
      { Name := "size", Description := "(Optional) The size", Required := false,
        NestedField := [] },
      { Name := "kind", Description := "(Optional) The kind", Required := false,
        NestedField := [] }] }

/-- The record that `scrapeTfResource` extracts from `samplePage`. -/
def sampleRecord : TfResource :=
  { Name := "aws_instance", Description := "Provides an instance.",
    Args := [sampleAmi, sampleEbs] }

/-- A parser that yields `root` for every body. -/
def parseTo (root : Node) : Unit → Except String Node := fun _ => .ok root

/-- A response with status 200. -/
def response200 : Response Unit := ⟨200, "200 OK", ()⟩

/-- Whether a node is a content region: what the selector `#inner` matches. -/
def isRegion (n : Node) : Bool := matchAttribute n "id" (fun s => s = "inner")

/-- Whether a node is an element with the tag `tg`: what the selector `tg`
matches. -/
def isTag (tg : String) (n : Node) : Bool := n.type = NodeType.ElementNode && n.data = tg

mutual
/-- Whether a content region lies in the subtree of a node, the node
included. -/
def hasRegion : Node → Bool
  | .mk t d a cs => isRegion (.mk t d a cs) || hasRegionList cs
/-- Whether a content region lies in the subtrees of a list of nodes. -/
def hasRegionList : List Node → Bool
  | [] => false
  | c :: cs => hasRegion c || hasRegionList cs
end

/-- The nodes of a selection. -/
def nodes (s : Selection) : List Node := s.map Loc.node

/-- The nearest element along a `PrevSibling` chain, as a node. -/
def prevNode : List Node → Option Node
  | [] => none
  | c :: cs => if c.type = NodeType.ElementNode then some c else prevNode cs

/-- What the scraper reads of a list found by `#inner > ul`: the element before
it and the list itself. -/
def view (l : Loc) : Option Node × Node := (prevNode l.before, l.node)

/-- Whether the parent, the head of a `Parent` chain, is a content region. -/
def insideOf : List Node → Bool
  | [] => false
  | p :: _ => isRegion p

/-- Whether the scan of a list of siblings visits the sibling `c`: with `top`,
only if it is an element. -/
def visited (top : Bool) (c : Node) : Bool := !top || c.type = NodeType.ElementNode

mutual
/-- The views of the matches of `#inner > tg` among a node and its
descendants: `g` recognises the tag, `inside` tells whether the parent is a
content region, `prev` is the element before the node. -/
def scan (g : Node → Bool) (inside : Bool) (prev : Option Node) :
    Node → List (Option Node × Node)
  | .mk t d a cs =>
    (if g (.mk t d a cs) && inside then [(prev, .mk t d a cs)] else []) ++
      scanList g false (isRegion (.mk t d a cs)) none cs
/-- The views of the matches among a list of siblings; with `top`, the
siblings that are not elements are passed over, as `Find` does with the
children of its receiver. -/
def scanList (g : Node → Bool) (top : Bool) (inside : Bool) (prev : Option Node) :
    List Node → List (Option Node × Node)
  | [] => []
  | c :: cs =>
    (if visited top c then scan g inside prev c else []) ++
      scanList g top inside (if c.type = NodeType.ElementNode then some c else prev) cs
end

/-- The node reached from `n` along the child numbers `path`, with its
pointers; `anc` is the `Parent` chain of `n`. -/
def locAt : List Nat → List Node → Node → Option Loc
  | [], _, _ => none
  | j :: rest, anc, n =>
    match n.children.drop j with
    | [] => none
    | c :: _ =>
      match rest with
      | [] => some ⟨n :: anc, (n.children.take j).reverse, c⟩
      | _ :: _ => locAt rest (n :: anc) c

/-- The tree `n` without the subtree reached along the child numbers
`path`. -/
def dropAt : List Nat → Node → Node
  | [], n => n
  | j :: rest, .mk t d a cs =>
    match cs.drop j with
    | [] => .mk t d a cs
    | c :: post =>
      match rest with
      | [] => .mk t d a (cs.take j ++ post)
      | _ :: _ => .mk t d a (cs.take j ++ dropAt rest c :: post)

/-- The element before the sibling that follows the siblings `cs`, when `p` is
the element before the first of them. -/
def prevAfter (p : Option Node) : List Node → Option Node
  | [] => p
  | c :: cs => prevAfter (if c.type = NodeType.ElementNode then some c else p) cs

/-- The tree `n` cut off before the node reached along the child numbers
`path`: without that node and without what follows it in document order, the
later siblings of the node and of its ancestors. -/
def takeAt : List Nat → Node → Node
  | [], n => n
  | j :: rest, .mk t d a cs =>
    match cs.drop j with
    | [] => .mk t d a cs
    | c :: _ =>
      match rest with
      | [] => .mk t d a (cs.take j)
      | _ :: _ => .mk t d a (cs.take j ++ [takeAt rest c])

/-- The siblings after the node reached from `n` along the child numbers
`path`: its `NextSibling` chain. -/
def afterAt : List Nat → Node → List Node
  | [], _ => []
  | j :: rest, n =>
    match n.children.drop j with
    | [] => []
    | c :: post =>
      match rest with
      | [] => post
      | _ :: _ => afterAt rest c

/-- The nearest element along a `NextSibling` chain, as a node. -/
def nextNode : List Node → Option Node
  | [] => none
  | c :: cs => if c.type = NodeType.ElementNode then some c else nextNode cs

/-- How the views `V'` of a page without the node `L` come from the views `V`
of the page with it, `X` being the views of the page cut off before `L` and
`next` the element after `L`: the view of `L`, if it is one of `V`, is left
out; the elements before the other nodes are the same when `next` is no node
with the tag `tg`. -/
def Dropped (tg : String) (L : Loc) (next : Option Node)
    (X V V' : List (Option Node × Node)) : Prop :=
  ∃ m ys, V = X ++ m ++ ys ∧ (m = [] ∨ (m = [view L] ∧ isTag tg L.node = true)) ∧
    V'.map Prod.snd = (X ++ ys).map Prod.snd ∧
    ((∀ n ∈ next, isTag tg n = false) → V' = X ++ ys)

/-- A parser whose bodies are the parsed pages themselves. -/
def parseId : Node → Except String Node := fun root => .ok root

/-- The content region of `adjacentPage`: the list of `timeouts`, which no
argument owns, is directly followed by another list. -/
def adjacentInner : List Node :=
  [elem "p" [] [text "Provides an instance."],
    elem "ul" [] [item "ami" " - (Required) The AMI", item "ebs" " - (Optional) Block devices"],
    blockIntro "timeouts",
    elem "ul" [] [item "ebs" " - (Optional) How long to wait"],
    elem "ul" [] [item "size" " - (Optional) The size"]]

/-- A resource page with two lists that follow one another directly. -/
def adjacentPage : Node := page adjacentInner

/-- The content region of `repeatedPage`: the list of `timeouts`, which no
argument owns, is equal to the first list node for node. -/
def repeatedInner : List Node :=
  [elem "p" [] [text "Provides an instance."],
    elem "ul" [] [item "ami" " - (Required) The AMI"],
    blockIntro "timeouts",
    elem "ul" [] [item "ami" " - (Required) The AMI"]]

/-- A resource page with two equal lists. -/
def repeatedPage : Node := page repeatedInner

/-- The number of nested fields of each argument of an extracted record. -/
def nestedCounts : Except Failure TfResource → List Nat
  | .ok r => r.Args.map (fun a => a.NestedField.length)
  | .error _ => []

/-- The content region of `innerRegionPage`: the list of `timeouts`, which no
argument owns, holds a content region of its own with the list of `ebs`. -/
def innerRegionInner : List Node :=
  [elem "p" [] [text "Provides an instance."],
    elem "ul" [] [item "ami" " - (Required) The AMI", item "ebs" " - (Optional) Block devices"],
    blockIntro "timeouts",
    elem "ul" []
      [elem "li" []
        [elem "a" [] [elem "code" [] [text "create"]], text " - (Optional) How long",
          region [blockIntro "ebs", elem "ul" [] [item "size" " - (Optional) The size"]]]]]

/-- A resource page with a content region inside a list that no argument
owns. -/
def innerRegionPage : Node := page innerRegionInner

/-- The children of the content region that `outerRegionPage` holds inside the
item `ebs` of its first list; the last of them is the list of `timeouts`. -/
def outerRegionNested : List Node :=
  [elem "ul" [] [item "kind" " - (Optional) The kind"],
    blockIntro "timeouts",
    elem "ul" [] [item "create" " - (Optional) How long"]]

/-- The item `ebs` of the first list of `outerRegionPage`. -/
def outerRegionItem : Node :=
  elem "li" []
    [elem "a" [] [elem "code" [] [text "ebs"]], text " - (Optional) Block devices",
      region outerRegionNested]

/-- The content region of `outerRegionPage`. -/
def outerRegionInner : List Node :=
  [elem "p" [] [text "Provides an instance."],
    elem "ul" [] [item "ami" " - (Required) The AMI", outerRegionItem]]

/-- A resource page with a content region inside an item of the first
list. -/
def outerRegionPage : Node := page outerRegionInner

/-- The names of the arguments of an extracted record. -/
def argNames : Except Failure TfResource → List String
  | .ok r => r.Args.map (fun a => a.Name)
  | .error _ => []

/-- A normalised description: no newline, and neither the first nor the last
rune is white space. -/
def Normalised (d : String) : Prop :=
  '\n' ∉ d.data ∧ unicode.IsSpace (utf8.DecodeRuneInString d.data).1 = false ∧
    unicode.IsSpace (utf8.DecodeLastRuneInString d.data).1 = false

/-- A list item whose text is no valid UTF-8: at either end of the description
stand the byte C2, a newline and the byte A0. -/
def splitRuneItem : Node := item "name" " - \xC2\n\xA0(Optional) Name\xC2\n\xA0"

/-- A resource page whose only list holds `splitRuneItem`. -/
def splitRunePage : Node :=
  page [elem "p" [] [text "Provides an instance."], elem "ul" [] [splitRuneItem]]

/-- The content region of `accentsPage`: texts with characters outside ASCII,
with white space of several bytes around them and newlines in them. -/
def accentsInner : List Node :=
  [elem "p" [] [text (utf8.bytes "\u00A0\n Crée une\ninstance.\u3000")],
    elem "ul" [] [item "nom" (utf8.bytes " - (Optional)\u2003Le nom\n affiché \u00A0")],
    blockIntro "nom",
    elem "ul" [] [item (utf8.bytes "clé") (utf8.bytes " - \u2028(Required) La clé\u2029")]]

/-- A resource page whose texts are valid UTF-8 and not all ASCII. -/
def accentsPage : Node := page accentsInner

/-- An error that is the run-time panic of a slice index out of range. -/
def IsPanic (e : Failure) : Prop := ∃ i n, e = .indexOutOfRange i n

/-- A node on its own, without parent and siblings. -/
def loose (n : Node) : Loc := ⟨[], [], n⟩

/-- A list item whose text `id -Identifier` has a dash and two pieces only
when split on spaces. -/
def shortItem : Node := item "id" " -Identifier"

/-- A resource page whose first list holds `shortItem`. -/
def shortPage : Node :=
  page [elem "p" [] [text "Provides an instance."],
    elem "ul" [] [item "ami" " - (Required) The AMI", shortItem]]

/-- A list item with dashes in the argument name and in the description. -/
def dashedItem : Node := item "instance-type" " - (Optional) The type - see the list"

/-- A list item whose name is code-styled and not wrapped in a link, as the
items of nested lists are: `<li><code>device_name</code> - ...</li>`. -/
def plainCodeItem : Node :=
  elem "li" [] [elem "code" [] [text "device_name"], text " - (Optional) The name"]

/-- A list item with two linked code elements. -/
def twoCodesItem : Node :=
  elem "li" []
    [elem "a" [] [elem "code" [] [text "ami"]], text " - (Required) The AMI, see ",
      elem "a" [] [elem "code" [] [text "image_id"]]]

/-- A resource page whose only list holds `plainCodeItem`. -/
def plainCodePage : Node :=
  page [elem "p" [] [text "Provides an instance."], elem "ul" [] [plainCodeItem]]

/-- The section `<li><a>title</a><ul class="nav nav-visible">items</ul></li>`
of a sidebar, each item being `<li><a>name</a></li>`. -/
def navSection (title : String) (names : List String) : Node :=
  elem "li" []
    [elem "a" [] [text title],
      elem "ul" [⟨"class", "nav nav-visible"⟩]
        (names.map (fun n => elem "li" [] [elem "a" [] [text n]]))]

/-- A provider page: the sidebar `ul.nav.docs-sidenav` has the sections
`Guides`, `AWS Provider`, `Data Sources` and `Resources`. -/
def providerPage : Node :=
  .mk .DocumentNode "" []
    [elem "html" []
      [elem "head" [] [],
        elem "body" []
          [elem "ul" [⟨"class", "nav docs-sidenav"⟩]
            [navSection "Guides" ["Upgrade Guide"],
              elem "li" [] [elem "a" [] [text "AWS Provider"]],
              navSection "Data Sources" ["aws_ami"],
              navSection "Resources" [" aws_instance\n", "aws_vpc", "aws_vpc"]]]]]

/-- The parsed empty body: a document with an empty `head` and an empty
`body`. -/
def emptyPage : Node :=
  .mk .DocumentNode "" [] [elem "html" [] [elem "head" [] [], elem "body" [] []]]

/-- Whether a node is a sidebar region: what the selector `.docs-sidenav`
matches. -/
def isSidenav (n : Node) : Bool := matchAttribute n "class" (matchInclude "docs-sidenav")

mutual
/-- Whether a sidebar region lies in the subtree of a node, the node
included. -/
def hasSidenav : Node → Bool
  | .mk t d a cs => isSidenav (.mk t d a cs) || hasSidenavList cs
/-- Whether a sidebar region lies in the subtrees of a list of nodes. -/
def hasSidenavList : List Node → Bool
  | [] => false
  | c :: cs => hasSidenav c || hasSidenavList cs
end

/-- The child number `j` of the child number `k` of the content region of
`page inner`, with its pointers: an item of a list of the region. -/
def listItem (inner : List Node) (k j : Nat) : Loc :=
  { anc := (regionChild inner k).node :: (regionChild inner k).anc,
    before := ((regionChild inner k).node.children.take j).reverse,
    node := (regionChild inner k).node.children.getD j (text "") }

/-- The content region of `paragraphsPage`: a paragraph nested deeper comes
first, then the first paragraph of the region, with white space around it and
a newline in it, then a second paragraph. -/
def paragraphsInner : List Node :=
  [elem "div" [] [elem "p" [] [text "Deep paragraph."]],
    text "\n",
    elem "p" [] [text "\n  Provides an\ninstance.  "],
    elem "p" [] [text "Second paragraph."],
    elem "ul" [] [item "ami" " - (Required)\n  The AMI \n"],
    blockIntro "ami",
    elem "ul" [] [item "owner" " -  (Optional) The\nowner\t"]]

/-- A resource page with several paragraphs and with newlines and white space
in its texts. -/
def paragraphsPage : Node := page paragraphsInner

/-- The content region of `deepPage`: the list of `ebs` has the item `size`,
and a later list is preceded by the text `size`. -/
def deepInner : List Node :=
  [elem "p" [] [text "Provides an instance."],
    elem "ul" [] [item "ami" " - (Required) The AMI", item "ebs" " - (Optional) Block devices"],
    blockIntro "ebs",
    elem "ul" [] [item "size" " - (Optional) The size", item "kind" " - (Optional) The kind"],
    blockIntro "size",
    elem "ul" [] [item "unit" " - (Optional) The unit"]]

/-- A resource page with a list whose preceding text names a nested
argument. -/
def deepPage : Node := page deepInner

/-- The content region of `duplicatePage`: two items of the first list have
the name `ebs`. -/
def duplicateInner : List Node :=
  [elem "p" [] [text "Provides an instance."],
    elem "ul" []
      [item "ebs" " - (Optional) Block devices", item "ami" " - (Required) The AMI",
        item "ebs" " - (Optional) More block devices"],
    blockIntro "ebs",
    elem "ul" [] [item "size" " - (Optional) The size", item "kind" " - (Optional) The kind"]]

/-- A resource page with two top-level arguments of the same name. -/
def duplicatePage : Node := page duplicateInner

/-- The content region of `nestedShortPage`: the list of `ebs` holds
`shortItem`. -/
def nestedShortInner : List Node :=
  [elem "p" [] [text "Provides an instance."],
    elem "ul" [] [item "ami" " - (Required) The AMI", item "ebs" " - (Optional) Block devices"],
    blockIntro "ebs",
    elem "ul" [] [shortItem]]

/-- A resource page whose nested list holds an item that the rule cannot
parse. -/
def nestedShortPage : Node := page nestedShortInner

end scraping

/-! ## Lemmas on the string functions -/

namespace utf8

theorem first_some (b n lo hi : Nat) (h : first b = some (n, lo, hi)) :
    RuneSelf ≤ b ∧ isCont b = false ∧ 0x80 ≤ lo ∧ hi ≤ 0xBF := by
  unfold first at h
  simp only [RuneSelf, isCont]
  split_ifs at h <;> simp only [Option.some.injEq, Prod.mk.injEq, reduceCtorEq] at h <;>
    (obtain ⟨_, h2, h3⟩ := h; subst h2; subst h3; simp; omega)

theorem isCont_of_range (b lo hi : Nat) (hlo : 0x80 ≤ lo) (hhi : hi ≤ 0xBF)
    (h : lo ≤ b ∧ b ≤ hi) : isCont b = true := by
  simp only [isCont, Bool.and_eq_true, decide_eq_true_eq]
  omega

theorem isCont_ge (b : Nat) (h : isCont b = true) : RuneSelf ≤ b := by
  simp only [isCont, Bool.and_eq_true, decide_eq_true_eq] at h
  simp only [RuneSelf]
  omega

/-- Decoding reads the encoding at the start of a string, whatever follows. -/
theorem decode_append (ch : List Char) (h : Encoding ch) (rest : List Char) :
    DecodeRuneInString (ch ++ rest) = DecodeRuneInString ch ∧
      (DecodeRuneInString ch).2 = ch.length := by
  cases h with
  | one c h => simp [DecodeRuneInString, h]
  | two c0 c1 lo hi hf h1 =>
    have h0 := (first_some _ _ _ _ hf).1
    simp [DecodeRuneInString, Nat.not_lt.2 h0, hf, h1]
  | three c0 c1 c2 lo hi hf h1 h2 =>
    have h0 := (first_some _ _ _ _ hf).1
    simp [DecodeRuneInString, Nat.not_lt.2 h0, hf, h1, h2]
  | four c0 c1 c2 c3 lo hi hf h1 h2 h3 =>
    have h0 := (first_some _ _ _ _ hf).1
    simp [DecodeRuneInString, Nat.not_lt.2 h0, hf, h1, h2, h3]

/-- Decoding backwards reads the encoding at the end of a string, whatever
precedes it. -/
theorem decodeLast_append (ch : List Char) (h : Encoding ch) (pre : List Char) :
    DecodeLastRuneInString (pre ++ ch) = DecodeRuneInString ch := by
  cases h with
  | one c h => simp [DecodeLastRuneInString, DecodeRuneInString, h]
  | two c0 c1 lo hi hf h1 =>
    obtain ⟨h0, hc0, hlo, hhi⟩ := first_some _ _ _ _ hf
    have hc1 := isCont_ge _ (isCont_of_range _ _ _ hlo hhi h1)
    simp [DecodeLastRuneInString, DecodeRuneInString, Nat.not_lt.2 h0, Nat.not_lt.2 hc1, hf, h1,
      lastStart, RuneStart, hc0]
  | three c0 c1 c2 lo hi hf h1 h2 =>
    obtain ⟨h0, hc0, hlo, hhi⟩ := first_some _ _ _ _ hf
    have hc1 := isCont_of_range _ _ _ hlo hhi h1
    have hc2 := isCont_ge _ h2
    simp [DecodeLastRuneInString, DecodeRuneInString, Nat.not_lt.2 h0, Nat.not_lt.2 hc2, hf, h1,
      h2, lastStart, RuneStart, hc0, hc1]
  | four c0 c1 c2 c3 lo hi hf h1 h2 h3 =>
    obtain ⟨h0, hc0, hlo, hhi⟩ := first_some _ _ _ _ hf
    have hc1 := isCont_of_range _ _ _ hlo hhi h1
    have hc3 := isCont_ge _ h3
    simp [DecodeLastRuneInString, DecodeRuneInString, Nat.not_lt.2 h0, Nat.not_lt.2 hc3, hf, h1,
      h2, h3, lastStart, RuneStart, hc0, hc1]

theorem Encoding.ne_nil {ch : List Char} (h : Encoding ch) : ch ≠ [] := by
  cases h <;> simp

theorem Encoding.ascii_head {ch : List Char} (h : Encoding ch) (c : Char)
    (hh : ch.head? = some c) (hc : c.toNat < RuneSelf) : ch = [c] := by
  cases h with
  | one c0 h0 => simp at hh; rw [hh]
  | two c0 c1 lo hi hf h1 =>
    simp at hh; subst hh
    exact absurd hc (Nat.not_lt.2 (first_some _ _ _ _ hf).1)
  | three c0 c1 c2 lo hi hf h1 h2 =>
    simp at hh; subst hh
    exact absurd hc (Nat.not_lt.2 (first_some _ _ _ _ hf).1)
  | four c0 c1 c2 c3 lo hi hf h1 h2 h3 =>
    simp at hh; subst hh
    exact absurd hc (Nat.not_lt.2 (first_some _ _ _ _ hf).1)

theorem Encoding.tail_cont {ch : List Char} (h : Encoding ch) :
    ∀ x ∈ ch.tail, isCont x.toNat = true := by
  cases h with
  | one c0 h0 => intro x hx; simp at hx
  | two c0 c1 lo hi hf h1 =>
    obtain ⟨_, _, hlo, hhi⟩ := first_some _ _ _ _ hf
    intro x hx
    simp only [List.tail_cons, List.mem_singleton] at hx
    subst hx
    exact isCont_of_range _ _ _ hlo hhi h1
  | three c0 c1 c2 lo hi hf h1 h2 =>
    obtain ⟨_, _, hlo, hhi⟩ := first_some _ _ _ _ hf
    intro x hx
    simp only [List.tail_cons, List.mem_cons, List.mem_singleton, List.not_mem_nil,
      or_false] at hx
    rcases hx with hx | hx
    · subst hx; exact isCont_of_range _ _ _ hlo hhi h1
    · subst hx; exact h2
  | four c0 c1 c2 c3 lo hi hf h1 h2 h3 =>
    obtain ⟨_, _, hlo, hhi⟩ := first_some _ _ _ _ hf
    intro x hx
    simp only [List.tail_cons, List.mem_cons, List.mem_singleton, List.not_mem_nil,
      or_false] at hx
    rcases hx with hx | hx | hx
    · subst hx; exact isCont_of_range _ _ _ hlo hhi h1
    · subst hx; exact h2
    · subst hx; exact h3

theorem Encoding.head_start {ch : List Char} (h : Encoding ch) (c : Char)
    (hh : ch.head? = some c) : isCont c.toNat = false := by
  cases h with
  | one c0 h0 =>
    simp at hh; subst hh
    simp only [RuneSelf] at h0
    simp only [isCont, Bool.and_eq_false_imp, decide_eq_true_eq, decide_eq_false_iff_not]
    omega
  | two c0 c1 lo hi hf h1 => simp at hh; subst hh; exact (first_some _ _ _ _ hf).2.1
  | three c0 c1 c2 lo hi hf h1 h2 => simp at hh; subst hh; exact (first_some _ _ _ _ hf).2.1
  | four c0 c1 c2 c3 lo hi hf h1 h2 h3 =>
    simp at hh; subst hh; exact (first_some _ _ _ _ hf).2.1

/-- An encoding is one byte below `RuneSelf`, the rune itself, or has no byte
below `RuneSelf`. -/
theorem Encoding.bytes {ch : List Char} (h : Encoding ch) :
    (∃ c, ch = [c] ∧ c.toNat < RuneSelf ∧ DecodeRuneInString ch = (c.toNat, 1)) ∨
      ∀ x ∈ ch, RuneSelf ≤ x.toNat := by
  cases hch : ch with
  | nil => exact absurd hch h.ne_nil
  | cons c cs =>
    by_cases hc : c.toNat < RuneSelf
    · left
      have := Encoding.ascii_head h c (by rw [hch]; rfl) hc
      rw [hch] at this
      exact ⟨c, this, hc, by rw [this]; simp [DecodeRuneInString, hc]⟩
    · right
      intro x hx
      rcases List.mem_cons.1 hx with e | e
      · subst e; exact Nat.not_lt.1 hc
      · exact isCont_ge _ (Encoding.tail_cont h x (by rw [hch]; exact e))

/-- A string that `ValidString` accepts is a sequence of encodings. -/
theorem validString_encodings : ∀ (n : Nat) (s : List Char), s.length ≤ n →
    ValidString s = true → ∃ chs : List (List Char), (∀ ch ∈ chs, Encoding ch) ∧ s = chs.flatten := by
  intro n
  induction n with
  | zero =>
    intro s hs _
    have : s = [] := List.eq_nil_of_length_eq_zero (Nat.le_zero.1 hs)
    exact ⟨[], by simp, by simp [this]⟩
  | succ n ih =>
    intro s hs hv
    cases s with
    | nil => exact ⟨[], by simp, by simp⟩
    | cons c0 rest =>
      simp only [List.length_cons, Nat.add_le_add_iff_right] at hs
      unfold ValidString at hv
      split at hv
      · rename_i h0
        obtain ⟨chs, h1, h2⟩ := ih rest hs hv
        refine ⟨[c0] :: chs, ?_, by simp [h2]⟩
        intro ch hch
        rcases List.mem_cons.1 hch with e | e
        · rw [e]; exact Encoding.one c0 h0
        · exact h1 ch e
      · split at hv
        · rename_i lo hi c1 r hf
          simp only [Bool.and_eq_true, decide_eq_true_eq] at hv
          obtain ⟨chs, h1, h2⟩ := ih r (by simp at hs; omega) hv.2
          refine ⟨[c0, c1] :: chs, ?_, by simp [h2]⟩
          intro ch hch
          rcases List.mem_cons.1 hch with e | e
          · rw [e]; exact Encoding.two c0 c1 lo hi hf hv.1
          · exact h1 ch e
        · rename_i lo hi c1 c2 r hf
          simp only [Bool.and_eq_true, decide_eq_true_eq] at hv
          obtain ⟨chs, h1, h2⟩ := ih r (by simp at hs; omega) hv.2
          refine ⟨[c0, c1, c2] :: chs, ?_, by simp [h2]⟩
          intro ch hch
          rcases List.mem_cons.1 hch with e | e
          · rw [e]; exact Encoding.three c0 c1 c2 lo hi hf hv.1.1 hv.1.2
          · exact h1 ch e
        · rename_i lo hi c1 c2 c3 r hf
          simp only [Bool.and_eq_true, decide_eq_true_eq] at hv
          obtain ⟨chs, h1, h2⟩ := ih r (by simp at hs; omega) hv.2
          refine ⟨[c0, c1, c2, c3] :: chs, ?_, by simp [h2]⟩
          intro ch hch
          rcases List.mem_cons.1 hch with e | e
          · rw [e]; exact Encoding.four c0 c1 c2 c3 lo hi hf hv.1.1.1 hv.1.1.2 hv.1.2
          · exact h1 ch e
        · simp at hv

theorem toNat_ofNat (n : Nat) (h : n < 256) : (Char.ofNat n).toNat = n := by
  have hv : n.isValidChar := Or.inl (by omega)
  simp only [Char.ofNat, dif_pos hv, Char.ofNatAux, Char.toNat]
  rfl

theorem first_two (b : Nat) (h : 0xC2 ≤ b ∧ b ≤ 0xDF) : first b = some (2, 0x80, 0xBF) := by
  unfold first
  rw [if_pos h]

theorem first_three (b : Nat) (h : (0xE1 ≤ b ∧ b ≤ 0xEC) ∨ (0xEE ≤ b ∧ b ≤ 0xEF)) :
    first b = some (3, 0x80, 0xBF) := by
  unfold first
  rcases h with h | h
  · rw [if_neg (by omega), if_neg (by omega), if_pos h]
  · rw [if_neg (by omega), if_neg (by omega), if_neg (by omega), if_neg (by omega), if_pos h]

theorem first_four (b : Nat) (h : 0xF1 ≤ b ∧ b ≤ 0xF3) : first b = some (4, 0x80, 0xBF) := by
  unfold first
  rw [if_neg (by omega), if_neg (by omega), if_neg (by omega), if_neg (by omega),
    if_neg (by omega), if_neg (by omega), if_pos h]

/-- The bytes that `EncodeRune` gives for a character are an encoding. -/
theorem encodeRune_encoding (c : Char) : Encoding (EncodeRune c.toNat) := by
  have hv : c.toNat < 0xD800 ∨ (0xDFFF < c.toNat ∧ c.toNat < 0x110000) := c.valid
  generalize c.toNat = r at hv
  unfold EncodeRune
  split
  · rename_i h1
    exact Encoding.one _ (by rw [toNat_ofNat r (by omega)]; simp only [RuneSelf]; omega)
  · rename_i h1
    split
    · rename_i h2
      refine Encoding.two _ _ 0x80 0xBF ?_ ?_
      · rw [toNat_ofNat _ (by omega)]
        exact first_two _ (by omega)
      · rw [toNat_ofNat _ (by omega)]
        omega
    · rename_i h2
      rw [if_neg (by omega)]
      have hcont : ∀ n, n < 64 → isCont (Char.ofNat (0x80 + n)).toNat = true := by
        intro n hn
        rw [toNat_ofNat _ (by omega)]
        simp only [isCont, Bool.and_eq_true, decide_eq_true_eq]
        omega
      split
      · rename_i h3
        have h2' := hcont (r % 64) (by omega)
        by_cases q0 : r / 4096 = 0
        · refine Encoding.three _ _ _ 0xA0 0xBF ?_ ?_ h2'
          · rw [toNat_ofNat _ (by omega), q0]
            rfl
          · rw [toNat_ofNat _ (by omega)]
            omega
        · by_cases q13 : r / 4096 = 13
          · refine Encoding.three _ _ _ 0x80 0x9F ?_ ?_ h2'
            · rw [toNat_ofNat _ (by omega), q13]
              rfl
            · rw [toNat_ofNat _ (by omega)]
              omega
          · refine Encoding.three _ _ _ 0x80 0xBF ?_ ?_ h2'
            · rw [toNat_ofNat _ (by omega)]
              exact first_three _ (by omega)
            · rw [toNat_ofNat _ (by omega)]
              omega
      · rename_i h3
        have h2' := hcont (r / 64 % 64) (by omega)
        have h3' := hcont (r % 64) (by omega)
        by_cases q0 : r / 262144 = 0
        · refine Encoding.four _ _ _ _ 0x90 0xBF ?_ ?_ h2' h3'
          · rw [toNat_ofNat _ (by omega), q0]
            rfl
          · rw [toNat_ofNat _ (by omega)]
            omega
        · by_cases q4 : r / 262144 = 4
          · refine Encoding.four _ _ _ _ 0x80 0x8F ?_ ?_ h2' h3'
            · rw [toNat_ofNat _ (by omega), q4]
              rfl
            · rw [toNat_ofNat _ (by omega)]
              omega
          · refine Encoding.four _ _ _ _ 0x80 0xBF ?_ ?_ h2' h3'
            · rw [toNat_ofNat _ (by omega)]
              exact first_four _ (by omega)
            · rw [toNat_ofNat _ (by omega)]
              omega

/-- A sequence of encodings is a string that `ValidString` accepts. -/
theorem encodings_validString : ∀ chs : List (List Char), (∀ ch ∈ chs, Encoding ch) →
    ValidString chs.flatten = true := by
  intro chs
  induction chs with
  | nil => intro _; rfl
  | cons ch rest ih =>
    intro h
    have hr := ih (fun x hx => h x (List.mem_cons_of_mem _ hx))
    rw [List.flatten_cons]
    cases h ch (List.mem_cons_self _ _) with
    | one c h0 =>
      show ValidString (c :: rest.flatten) = true
      unfold ValidString
      simp [h0, hr]
    | two c0 c1 lo hi hf h1 =>
      have h0 := (first_some _ _ _ _ hf).1
      show ValidString (c0 :: c1 :: rest.flatten) = true
      unfold ValidString
      simp [Nat.not_lt.2 h0, hf, h1, hr]
    | three c0 c1 c2 lo hi hf h1 h2 =>
      have h0 := (first_some _ _ _ _ hf).1
      show ValidString (c0 :: c1 :: c2 :: rest.flatten) = true
      unfold ValidString
      simp [Nat.not_lt.2 h0, hf, h1, h2, hr]
    | four c0 c1 c2 c3 lo hi hf h1 h2 h3 =>
      have h0 := (first_some _ _ _ _ hf).1
      show ValidString (c0 :: c1 :: c2 :: c3 :: rest.flatten) = true
      unfold ValidString
      simp [Nat.not_lt.2 h0, hf, h1, h2, h3, hr]

/-- The string of a text is valid UTF-8. -/
theorem validString_bytes (u : String) : ValidString (bytes u).data = true := by
  have e : (bytes u).data = (u.data.map (fun c => EncodeRune c.toNat)).flatten := by
    simp only [bytes, List.flatMap]
  rw [e]
  apply encodings_validString
  intro ch hch
  obtain ⟨c, _, rfl⟩ := List.mem_map.1 hch
  exact encodeRune_encoding c

end utf8


namespace strings

theorem indexChars_single_none (c : Char) :
    ∀ s : List Char, c ∉ s → indexChars [c] s = none := by
  intro s
  induction s with
  | nil => intro _; rfl
  | cons d ds ih =>
    intro h
    have hd : c ≠ d := fun e => h (by simp [e])
    have hds : c ∉ ds := fun e => h (by simp [e])
    simp [indexChars, List.isPrefixOf, hd, ih hds]

theorem indexChars_single_some (c : Char) :
    ∀ s : List Char, c ∈ s →
      ∃ m, indexChars [c] s = some m ∧ c ∉ s.take m ∧ s.take m ++ c :: s.drop (m + 1) = s := by
  intro s
  induction s with
  | nil => intro h; simp at h
  | cons d ds ih =>
    intro h
    by_cases hd : c = d
    · exact ⟨0, by simp [indexChars, List.isPrefixOf, hd], by simp, by simp [hd]⟩
    · have hds : c ∈ ds := by
        rcases List.mem_cons.1 h with e | e
        · exact absurd e hd
        · exact e
      obtain ⟨m, h1, h2, h3⟩ := ih hds
      refine ⟨m + 1, by simp [indexChars, List.isPrefixOf, hd, h1], ?_, ?_⟩
      · simp only [List.take_succ_cons, List.mem_cons, not_or]
        exact ⟨hd, h2⟩
      · simp only [List.take_succ_cons, List.drop_succ_cons, List.cons_append, h3]

theorem contains_single (s : String) (c : Char) :
    Contains s (String.mk [c]) = true ↔ c ∈ s.data := by
  unfold Contains Index
  constructor
  · intro h
    by_contra hc
    rw [indexChars_single_none c s.data hc] at h
    simp at h
  · intro h
    obtain ⟨m, h1, _⟩ := indexChars_single_some c s.data h
    simp [h1]

theorem splitN_two_single (s : String) (c : Char) (h : c ∈ s.data) :
    ∃ p r : String, SplitN s (String.mk [c]) 2 = [p, r] ∧ c ∉ p.data ∧
      p ++ String.mk [c] ++ r = s := by
  obtain ⟨m, h1, h2, h3⟩ := indexChars_single_some c s.data h
  refine ⟨String.mk (s.data.take m), String.mk (s.data.drop (m + 1)), ?_, h2, ?_⟩
  · simp [SplitN, genSplit, h1]
  · apply String.ext
    simp [h3]

theorem indexChars_single_iff (c : Char) (s : List Char) :
    (indexChars [c] s).isSome = true ↔ c ∈ s := by
  constructor
  · intro h
    by_contra hc
    rw [indexChars_single_none c s hc] at h
    simp at h
  · intro h
    obtain ⟨m, h1, _⟩ := indexChars_single_some c s h
    simp [h1]

/-- Splitting on a single byte gives one piece more than the cuts made:
as many cuts as there are occurrences, `k` at most. -/
theorem genSplit_single_length (c : Char) : ∀ (k : Nat) (s : List Char),
    (genSplit [c] k s).length = min k (s.count c) + 1 := by
  intro k
  induction k with
  | zero => intro s; simp [genSplit]
  | succ k ih =>
    intro s
    by_cases hc : c ∈ s
    · obtain ⟨m, h1, h2, h3⟩ := indexChars_single_some c s hc
      have hcount : s.count c = (s.drop (m + 1)).count c + 1 := by
        conv => lhs; rw [← h3]
        rw [List.count_append, List.count_cons_self, List.count_eq_zero.2 h2]
        omega
      simp only [genSplit, h1, List.length_cons, List.length_singleton, List.length_nil,
        Nat.zero_add, ih, hcount]
      omega
    · simp [genSplit, indexChars_single_none c s hc, List.count_eq_zero.2 hc]

theorem splitN_single_length (s : String) (c : Char) (n : Nat) (hn : 0 < n) :
    (SplitN s (String.mk [c]) n).length = min (n - 1) (s.data.count c) + 1 := by
  have h0 : n ≠ 0 := by omega
  simp [SplitN, h0, genSplit_single_length]

theorem splitN_two_none (s : String) (c : Char) (h : c ∉ s.data) :
    SplitN s (String.mk [c]) 2 = [s] := by
  simp [SplitN, genSplit, indexChars_single_none c s.data h]

/-- With old `"\n"`, new `""` and no limit, `Replace` deletes every newline. -/
theorem replaceChars_newline : ∀ (s : List Char) (k : Nat), s.length < k →
    replaceChars ['\n'] [] k 0 s = s.filter (fun c => c != '\n') := by
  intro s
  induction s with
  | nil => intro k _; cases k <;> rfl
  | cons c cs ih =>
    intro k hk
    cases k with
    | zero => simp at hk
    | succ k =>
      have hk' : cs.length < k := by simpa using hk
      by_cases hc : c = '\n'
      · subst hc
        simp only [replaceChars, List.isPrefixOf, beq_self_eq_true, Bool.true_and, if_true,
          List.length_singleton, Nat.sub_self, List.nil_append, ih k hk']
        simp
      · have hb : ('\n' == c) = false := by
          simp only [beq_eq_false_iff_ne, ne_eq]
          exact fun e => hc e.symm
        simp only [replaceChars, List.isPrefixOf, hb, Bool.false_and, Bool.false_eq_true,
          if_false, ih (k + 1) (by omega)]
        simp [hc]

theorem replace_newline (s : String) :
    Replace s "\n" "" (-1) = String.mk (s.data.filter (fun c => c != '\n')) := by
  have h1 : ¬ ("\n" = "" ∨ (-1 : Int) = 0) := by decide
  have h2 : ("\n" : String).data.isEmpty = false := by decide
  unfold Replace
  rw [if_neg h1]
  simp only [h2, Bool.false_eq_true, if_false]
  congr 1
  exact replaceChars_newline s.data _ (by simp)

open utf8

theorem trimLeftLoop_skip (f : Nat → Bool) : ∀ pre rest : List Char,
    trimLeftLoop f pre.length (pre ++ rest) = trimLeftLoop f 0 rest := by
  intro pre
  induction pre with
  | nil => intro rest; rfl
  | cons x pre ih =>
    intro rest
    simp only [List.length_cons, List.cons_append, trimLeftLoop]
    exact ih rest

theorem lastIndexLoop_skip (f : Nat → Bool) : ∀ pre rest : List Char,
    lastIndexLoop f pre.length (pre ++ rest) = lastIndexLoop f 0 rest := by
  intro pre
  induction pre with
  | nil => intro rest; rfl
  | cons x pre ih =>
    intro rest
    simp only [List.length_cons, List.cons_append, lastIndexLoop]
    exact ih rest

/-- Trimming on the left drops the leading encodings whose rune `f` accepts. -/
theorem trimLeftFunc_flatten (f : Nat → Bool) : ∀ chs : List (List Char),
    (∀ ch ∈ chs, Encoding ch) →
    TrimLeftFunc f chs.flatten =
      (chs.dropWhile (fun ch => f (DecodeRuneInString ch).1)).flatten := by
  intro chs
  induction chs with
  | nil => intro _; rfl
  | cons ch rest ih =>
    intro h
    have hch := h ch (List.mem_cons_self _ _)
    have hrest : ∀ x ∈ rest, Encoding x := fun x hx => h x (List.mem_cons_of_mem _ hx)
    obtain ⟨hd, hl⟩ := decode_append ch hch rest.flatten
    cases hc : ch with
    | nil => exact absurd hc hch.ne_nil
    | cons c cs =>
      rw [hc] at hd hl
      have hd' : DecodeRuneInString (c :: (cs ++ rest.flatten)) =
          DecodeRuneInString (c :: cs) := hd
      show trimLeftLoop f 0 (c :: (cs ++ rest.flatten)) = _
      rw [trimLeftLoop, hd', List.dropWhile_cons]
      by_cases hf : f (DecodeRuneInString (c :: cs)).1 = false
      · rw [if_pos hf]
        simp [hf]
      · have hf' : f (DecodeRuneInString (c :: cs)).1 = true := by simpa using hf
        rw [if_neg hf, hl]
        simp only [List.length_cons, Nat.add_sub_cancel, hf', if_true]
        rw [trimLeftLoop_skip]
        exact ih hrest

/-- One step of `lastIndexFunc` on a string that ends with an encoding. -/
theorem lastIndexFunc_append (f : Nat → Bool) (pre ch : List Char) (hch : Encoding ch) :
    lastIndexFunc f (pre ++ ch) =
      if f (DecodeRuneInString ch).1 = false then some pre.length
      else lastIndexFunc f pre := by
  have hd := decodeLast_append ch hch pre
  have hl := (decode_append ch hch []).2
  have hne : ch.reverse ≠ [] := by simpa using hch.ne_nil
  cases hr : ch.reverse with
  | nil => exact absurd hr hne
  | cons b bs =>
    have hlen : ch.length = bs.length + 1 := by
      rw [← List.length_reverse, hr]; rfl
    have hrev : (b :: (bs ++ pre.reverse)).reverse = pre ++ ch := by
      rw [← List.cons_append, ← hr]; simp
    simp only [lastIndexFunc, List.reverse_append, hr, List.cons_append, lastIndexLoop]
    rw [hrev, hd, hl, hlen]
    by_cases hf : f (DecodeRuneInString ch).1 = false
    · rw [if_pos hf, if_pos hf]
      simp
    · rw [if_neg hf, if_neg hf]
      simp only [Nat.add_sub_cancel]
      exact lastIndexLoop_skip f bs pre.reverse

theorem lastIndexFunc_none (f : Nat → Bool) : ∀ chs : List (List Char),
    (∀ ch ∈ chs, Encoding ch) → (∀ ch ∈ chs, f (DecodeRuneInString ch).1 = true) →
    lastIndexFunc f chs.flatten = none := by
  intro chs
  induction chs using List.reverseRecOn with
  | nil => intro _ _; rfl
  | append_singleton chs ch ih =>
    intro h hp
    rw [List.flatten_append, List.flatten_cons, List.flatten_nil, List.append_nil,
      lastIndexFunc_append f _ ch (h ch (by simp))]
    rw [if_neg (by simp [hp ch (by simp)])]
    exact ih (fun x hx => h x (by simp [hx])) (fun x hx => hp x (by simp [hx]))

theorem lastIndexFunc_some (f : Nat → Bool) (A : List (List Char)) (x : List Char)
    (hx : Encoding x) (hfx : f (DecodeRuneInString x).1 = false) : ∀ B : List (List Char),
    (∀ ch ∈ B, Encoding ch) → (∀ ch ∈ B, f (DecodeRuneInString ch).1 = true) →
    lastIndexFunc f (A ++ x :: B).flatten = some A.flatten.length := by
  intro B
  induction B using List.reverseRecOn with
  | nil =>
    intro _ _
    rw [List.flatten_append, List.flatten_cons, List.flatten_nil, List.append_nil,
      lastIndexFunc_append f _ x hx, if_pos hfx]
  | append_singleton B ch ih =>
    intro h hp
    have e : A ++ x :: (B ++ [ch]) = (A ++ x :: B) ++ [ch] := by simp
    rw [e, List.flatten_append, List.flatten_cons, List.flatten_nil, List.append_nil,
      lastIndexFunc_append f _ ch (h ch (by simp))]
    rw [if_neg (by simp [hp ch (by simp)])]
    exact ih (fun y hy => h y (by simp [hy])) (fun y hy => hp y (by simp [hy]))

/-- Trimming on the right drops the trailing encodings whose rune `f`
accepts. -/
theorem trimRightFunc_some (f : Nat → Bool) (A : List (List Char)) (x : List Char)
    (hx : Encoding x) (hfx : f (DecodeRuneInString x).1 = false) (B : List (List Char))
    (hB : ∀ ch ∈ B, Encoding ch) (hp : ∀ ch ∈ B, f (DecodeRuneInString ch).1 = true) :
    TrimRightFunc f (A ++ x :: B).flatten = (A ++ [x]).flatten := by
  unfold TrimRightFunc
  rw [lastIndexFunc_some f A x hx hfx B hB hp]
  have e : (A ++ x :: B).flatten = A.flatten ++ (x ++ B.flatten) := by simp
  have e2 : (A ++ [x]).flatten = A.flatten ++ x := by simp
  obtain ⟨hd, hl⟩ := decode_append x hx B.flatten
  simp only [e, e2, List.drop_left]
  cases hc : x with
  | nil => exact absurd hc hx.ne_nil
  | cons c cs =>
    rw [hc] at hd hl
    simp only [List.cons_append]
    rw [← List.cons_append, hd, hl]
    have ht : List.take (A.flatten.length + (c :: cs).length)
        (A.flatten ++ (c :: cs ++ B.flatten)) = A.flatten ++ c :: cs := by
      rw [← List.append_assoc, ← List.length_append, List.take_left]
    by_cases hs : RuneSelf ≤ c.toNat
    · rw [if_pos hs]
      exact ht
    · rw [if_neg hs]
      have hone := Encoding.ascii_head hx c (by rw [hc]; rfl) (Nat.not_le.1 hs)
      rw [hc] at hone
      simp only [List.cons.injEq, true_and] at hone
      subst hone
      exact ht

theorem trimRightFunc_none (f : Nat → Bool) (chs : List (List Char))
    (h : ∀ ch ∈ chs, Encoding ch) (hp : ∀ ch ∈ chs, f (DecodeRuneInString ch).1 = true) :
    TrimRightFunc f chs.flatten = [] := by
  unfold TrimRightFunc
  rw [lastIndexFunc_none f chs h hp]
  simp

theorem split_last_not {α : Type} (p : α → Bool) : ∀ l : List α,
    (∀ x ∈ l, p x = true) ∨
      ∃ A x B, l = A ++ x :: B ∧ p x = false ∧ ∀ y ∈ B, p y = true := by
  intro l
  induction l with
  | nil => left; intro x hx; simp at hx
  | cons a l ih =>
    rcases ih with hall | ⟨A, x, B, e, hx, hB⟩
    · by_cases ha : p a = true
      · left
        intro y hy
        rcases List.mem_cons.1 hy with e | e
        · rw [e]; exact ha
        · exact hall y e
      · right
        exact ⟨[], a, l, rfl, by simpa using ha, hall⟩
    · right
      exact ⟨a :: A, x, B, by rw [e]; rfl, hx, hB⟩

/-- On a sequence of encodings, `TrimFunc` leaves a sequence of encodings
whose first and last rune `f` rejects. -/
theorem trimFunc_encodings (f : Nat → Bool) (chs : List (List Char))
    (h : ∀ ch ∈ chs, Encoding ch) :
    ∃ D : List (List Char), (∀ ch ∈ D, Encoding ch) ∧ TrimFunc f chs.flatten = D.flatten ∧
      (∀ x, D.head? = some x → f (DecodeRuneInString x).1 = false) ∧
      (∀ x, D.getLast? = some x → f (DecodeRuneInString x).1 = false) := by
  have hsub : ∀ ch ∈ chs.dropWhile (fun ch => f (DecodeRuneInString ch).1), Encoding ch :=
    fun ch hch => h ch ((List.dropWhile_sublist _).subset hch)
  have hhead := List.head?_dropWhile_not (fun ch => f (DecodeRuneInString ch).1) chs
  unfold TrimFunc
  rw [trimLeftFunc_flatten f chs h]
  generalize chs.dropWhile (fun ch => f (DecodeRuneInString ch).1) = C at hsub hhead
  rcases split_last_not (fun ch => f (DecodeRuneInString ch).1) C with
    hall | ⟨A, x, B, e, hx, hB⟩
  · refine ⟨[], by simp, ?_, by simp, by simp⟩
    rw [trimRightFunc_none f C hsub hall]
    rfl
  · subst e
    refine ⟨A ++ [x], ?_, ?_, ?_, ?_⟩
    · intro ch hch
      apply hsub
      simp only [List.mem_append, List.mem_singleton] at hch
      rcases hch with hch | hch
      · simp [hch]
      · simp [hch]
    · exact trimRightFunc_some f A x (hsub x (by simp)) hx B
        (fun ch hch => hsub ch (by simp [hch])) hB
    · intro y hy
      cases A with
      | nil =>
        simp only [List.nil_append, List.head?_cons, Option.some.injEq] at hy
        subst hy
        exact hx
      | cons a A =>
        simp only [List.cons_append, List.head?_cons, Option.some.injEq] at hy hhead
        subst hy
        exact hhead
    · intro y hy
      simp only [List.getLast?_concat, Option.some.injEq] at hy
      subst hy
      exact hx

/-- A sequence of encodings whose first and last rune `f` rejects is left as
it is by `TrimFunc`. -/
theorem trimFunc_of_ends (f : Nat → Bool) (D : List (List Char))
    (h : ∀ ch ∈ D, Encoding ch)
    (hh : ∀ x, D.head? = some x → f (DecodeRuneInString x).1 = false)
    (hl : ∀ x, D.getLast? = some x → f (DecodeRuneInString x).1 = false) :
    TrimFunc f D.flatten = D.flatten := by
  unfold TrimFunc
  rw [trimLeftFunc_flatten f D h]
  have e1 : D.dropWhile (fun ch => f (DecodeRuneInString ch).1) = D := by
    cases D with
    | nil => rfl
    | cons y ys =>
      have := hh y rfl
      simp [List.dropWhile_cons, this]
  rw [e1]
  rcases List.eq_nil_or_concat D with e | ⟨A, x, e⟩
  · subst e
    exact trimRightFunc_none f [] (by simp) (by simp)
  · rw [List.concat_eq_append] at e
    subst e
    have hx := hl x (by simp)
    have := trimRightFunc_some f A x (h x (by simp)) hx [] (by simp) (by simp)
    exact this

theorem Encoding.filter_newline {ch : List Char} (h : Encoding ch) :
    ch.filter (fun c => c != '\n') = if ch = ['\n'] then [] else ch := by
  rcases h.bytes with ⟨c, hc, _, _⟩ | hge
  · subst hc
    by_cases e : c = '\n'
    · subst e; rfl
    · simp [e]
  · have hne : ch ≠ ['\n'] := by
      intro e
      have := hge '\n' (by rw [e]; simp)
      exact absurd this (by decide)
    rw [if_neg hne]
    apply List.filter_eq_self.2
    intro x hx
    simp only [bne_iff_ne, ne_eq]
    intro e
    subst e
    exact absurd (hge _ hx) (by decide)

/-- Deleting the newlines of a sequence of encodings leaves out the encodings
of the newline. -/
theorem filter_newline_flatten : ∀ chs : List (List Char), (∀ ch ∈ chs, Encoding ch) →
    chs.flatten.filter (fun c => c != '\n') =
      (chs.filter (fun ch => ch != ['\n'])).flatten := by
  intro chs
  induction chs with
  | nil => intro _; rfl
  | cons ch rest ih =>
    intro h
    rw [List.flatten_cons, List.filter_append, ih (fun x hx => h x (List.mem_cons_of_mem _ hx)),
      Encoding.filter_newline (h ch (List.mem_cons_self _ _))]
    by_cases e : ch = ['\n']
    · subst e
      rfl
    · rw [if_neg e]
      have : (ch != ['\n']) = true := by simpa using e
      simp [List.filter_cons, this]

theorem filter_head? {α : Type} (q : α → Bool) (l : List α)
    (h : ∀ c, l.head? = some c → q c = true) : (l.filter q).head? = l.head? := by
  cases l with
  | nil => rfl
  | cons a r =>
    have ha : q a = true := h a rfl
    simp [List.filter, ha]

theorem filter_getLast? {α : Type} (q : α → Bool) (l : List α)
    (h : ∀ c, l.getLast? = some c → q c = true) : (l.filter q).getLast? = l.getLast? := by
  rw [List.getLast?_eq_head?_reverse, ← List.filter_reverse, filter_head? q l.reverse,
    List.head?_reverse]
  intro c hc
  rw [List.head?_reverse] at hc
  exact h c hc

theorem decode_flatten (f : Nat → Bool) (hf : f RuneError = false) (D : List (List Char))
    (h : ∀ ch ∈ D, Encoding ch)
    (hh : ∀ x, D.head? = some x → f (DecodeRuneInString x).1 = false) :
    f (DecodeRuneInString D.flatten).1 = false := by
  cases D with
  | nil => exact hf
  | cons x rest =>
    rw [List.flatten_cons, (decode_append x (h x (List.mem_cons_self _ _)) _).1]
    exact hh x rfl

theorem decodeLast_flatten (f : Nat → Bool) (hf : f RuneError = false) (D : List (List Char))
    (h : ∀ ch ∈ D, Encoding ch)
    (hl : ∀ x, D.getLast? = some x → f (DecodeRuneInString x).1 = false) :
    f (DecodeLastRuneInString D.flatten).1 = false := by
  rcases List.eq_nil_or_concat D with e | ⟨A, x, e⟩
  · subst e
    exact hf
  · rw [List.concat_eq_append] at e
    subst e
    rw [List.flatten_append, List.flatten_cons, List.flatten_nil, List.append_nil,
      decodeLast_append x (h x (by simp))]
    exact hl x (by simp)

/-- What follows a byte below `RuneSelf` in a sequence of encodings is a
sequence of encodings. -/
theorem encodings_after : ∀ (chs : List (List Char)), (∀ ch ∈ chs, Encoding ch) →
    ∀ (pre post : List Char) (c : Char), c.toNat < RuneSelf → chs.flatten = pre ++ c :: post →
    ∃ chs2 : List (List Char), (∀ ch ∈ chs2, Encoding ch) ∧ post = chs2.flatten := by
  intro chs
  induction chs with
  | nil => intro _ pre post c _ e; simp at e
  | cons ch rest ih =>
    intro h pre post c hc e
    have hrest : ∀ x ∈ rest, Encoding x := fun x hx => h x (List.mem_cons_of_mem _ hx)
    have hch := h ch (List.mem_cons_self _ _)
    rw [List.flatten_cons] at e
    rcases List.append_eq_append_iff.1 e with ⟨a', e1, e2⟩ | ⟨c', e1, e2⟩
    · exact ih hrest a' post c hc e2
    · cases c' with
      | nil =>
        exact ih hrest [] post c hc (by simpa using e2.symm)
      | cons y c'' =>
        simp only [List.cons_append, List.cons.injEq] at e2
        obtain ⟨e3, e4⟩ := e2
        subst e3
        cases pre with
        | nil =>
          have hone := Encoding.ascii_head hch c (by rw [e1]; rfl) hc
          rw [e1] at hone
          simp only [List.nil_append, List.cons.injEq, true_and] at hone
          subst hone
          exact ⟨rest, hrest, by simpa using e4⟩
        | cons z pre' =>
          have hcont := Encoding.tail_cont hch c (by rw [e1]; simp)
          exact absurd (isCont_ge _ hcont) (Nat.not_le.2 hc)

/-- The function `Replace` of the source's two calls leaves no newline. -/
theorem replace_no_newline (s : String) : '\n' ∉ (Replace s "\n" "" (-1)).data := by
  rw [replace_newline]
  simp [List.mem_filter]

/-- Trimming a sequence of encodings, then deleting the newlines: neither the
first nor the last rune of the result is white space, and `TrimSpace` leaves
the result as it is. -/
theorem replace_trim_normal (s : String) (chs : List (List Char))
    (h : ∀ ch ∈ chs, Encoding ch) (hs : s.data = chs.flatten) :
    unicode.IsSpace (DecodeRuneInString (Replace (TrimSpace s) "\n" "" (-1)).data).1 = false ∧
      unicode.IsSpace
        (DecodeLastRuneInString (Replace (TrimSpace s) "\n" "" (-1)).data).1 = false ∧
      TrimSpace (Replace (TrimSpace s) "\n" "" (-1)) = Replace (TrimSpace s) "\n" "" (-1) := by
  obtain ⟨D, hD, hDe, hDh, hDl⟩ := trimFunc_encodings unicode.IsSpace chs h
  have hq : ∀ x : List Char, unicode.IsSpace (DecodeRuneInString x).1 = false →
      (x != ['\n']) = true := by
    intro x hx
    simp only [bne_iff_ne, ne_eq]
    intro e
    subst e
    exact absurd hx (by decide)
  have hdata : (Replace (TrimSpace s) "\n" "" (-1)).data =
      (D.filter (fun ch => ch != ['\n'])).flatten := by
    rw [replace_newline]
    show (TrimFunc unicode.IsSpace s.data).filter (fun c => c != '\n') = _
    rw [hs, hDe, filter_newline_flatten D hD]
  have hE : ∀ ch ∈ D.filter (fun ch => ch != ['\n']), Encoding ch :=
    fun ch hch => hD ch (List.mem_filter.1 hch).1
  have hh : ∀ x, (D.filter (fun ch => ch != ['\n'])).head? = some x →
      unicode.IsSpace (DecodeRuneInString x).1 = false := by
    intro x hx
    rw [filter_head? _ D (fun c hc => hq c (hDh c hc))] at hx
    exact hDh x hx
  have hl : ∀ x, (D.filter (fun ch => ch != ['\n'])).getLast? = some x →
      unicode.IsSpace (DecodeRuneInString x).1 = false := by
    intro x hx
    rw [filter_getLast? _ D (fun c hc => hq c (hDl c hc))] at hx
    exact hDl x hx
  refine ⟨?_, ?_, ?_⟩
  · rw [hdata]
    exact decode_flatten unicode.IsSpace (by decide) _ hE hh
  · rw [hdata]
    exact decodeLast_flatten unicode.IsSpace (by decide) _ hE hl
  · apply String.ext
    show TrimFunc unicode.IsSpace (Replace (TrimSpace s) "\n" "" (-1)).data = _
    rw [hdata]
    exact trimFunc_of_ends unicode.IsSpace _ hE hh hl

/-- The second piece of a sequence of encodings split on `"-"` is a sequence
of encodings. -/
theorem splitN_dash_encodings (s d : String) (chs : List (List Char))
    (h : ∀ ch ∈ chs, Encoding ch) (hs : s.data = chs.flatten)
    (hd : (SplitN s "-" 2)[1]? = some d) :
    ∃ chs2 : List (List Char), (∀ ch ∈ chs2, Encoding ch) ∧ d.data = chs2.flatten := by
  by_cases hm : '-' ∈ s.data
  · obtain ⟨p, r, h1, _, h3⟩ := splitN_two_single s '-' hm
    have h1' : SplitN s "-" 2 = [p, r] := h1
    rw [h1'] at hd
    simp only [List.getElem?_cons_succ, List.getElem?_cons_zero, Option.some.injEq] at hd
    subst hd
    have e : chs.flatten = p.data ++ '-' :: r.data := by
      rw [← hs, ← h3]
      simp
    exact encodings_after chs h p.data r.data '-' (by decide) e
  · have h1 : SplitN s "-" 2 = [s] := splitN_two_none s '-' hm
    rw [h1] at hd
    simp at hd

end strings

/-! ## Lemmas on the scraper -/

namespace scraping

open html cascadia goquery

theorem newScraper_eq {β : Type} (get : Fetch β) (docType name : String) :
    NewScraper get docType name =
      (TfScraper.convertDocURL get { Name := name, DocType := docType, URL := "" }) := by
  unfold NewScraper
  dsimp only
  split <;> rename_i h <;> rw [h]

theorem newScraper_provider {β : Type} (get : Fetch β) (name : String) :
    NewScraper get "provider" name =
      afterBuild get "provider" name
        ("https://www.terraform.io/docs/providers/" ++ name ++ "/index.html") := by
  rw [newScraper_eq]
  simp only [TfScraper.convertDocURL, afterBuild, if_true]

theorem newScraper_resource {β : Type} (get : Fetch β) (name : String)
    (h : '_' ∈ name.data) :
    ∃ p r : String, p ++ "_" ++ r = name ∧ '_' ∉ p.data ∧
      NewScraper get "resource" name =
        afterBuild get "resource" name
          ("https://www.terraform.io/docs/providers/" ++ p ++ "/r/" ++ r ++ ".html") := by
  obtain ⟨p, r, hs, hp, hpr⟩ := strings.splitN_two_single name '_' h
  have hc : strings.Contains name "_" = true := (strings.contains_single name '_').2 h
  refine ⟨p, r, hpr, hp, ?_⟩
  rw [newScraper_eq]
  have hs' : strings.SplitN name "_" 2 = [p, r] := hs
  have hne : ¬ ("resource" = "provider") := by decide
  simp only [TfScraper.convertDocURL, afterBuild, hne, if_false, if_true, hc, hs']
  rfl

theorem appendArgs_eq (items : Selection) : ∀ ret : TfResource,
    appendArgs ret items =
      match parseItems items with
      | .error e => .error e
      | .ok as => .ok { ret with Args := ret.Args ++ as } := by
  induction items with
  | nil => intro ret; cases ret; simp [appendArgs, parseItems]
  | cons li lis ih =>
    intro ret
    simp only [appendArgs, parseItems]
    cases h : scrapingResourceList li with
    | error e => rfl
    | ok a =>
      simp only [ih]
      cases parseItems lis with
      | error e => rfl
      | ok as => simp

theorem appendNested_eq (items : Selection) : ∀ arg : tfResourceArg,
    appendNested arg items =
      match parseItems items with
      | .error e => .error e
      | .ok as => .ok { arg with NestedField := arg.NestedField ++ as } := by
  induction items with
  | nil => intro arg; cases arg; simp [appendNested, parseItems]
  | cons li lis ih =>
    intro arg
    simp only [appendNested, parseItems]
    cases h : scrapingResourceList li with
    | error e => rfl
    | ok a =>
      simp only [ih]
      cases parseItems lis with
      | error e => rfl
      | ok as => simp

theorem parseItems_append (xs ys : Selection) :
    parseItems (xs ++ ys) =
      match parseItems xs with
      | .error e => .error e
      | .ok as =>
        match parseItems ys with
        | .error e => .error e
        | .ok bs => .ok (as ++ bs) := by
  induction xs with
  | nil => simp only [List.nil_append, parseItems]; cases parseItems ys <;> rfl
  | cons li lis ih =>
    show parseItems (li :: (lis ++ ys)) = _
    cases h1 : scrapingResourceList li with
    | error e => simp only [parseItems, h1]
    | ok a =>
      cases h2 : parseItems lis with
      | error e => simp only [parseItems, h1, ih, h2]
      | ok as =>
        cases h3 : parseItems ys with
        | error e => simp only [parseItems, h1, ih, h2, h3]
        | ok bs => simp only [parseItems, h1, ih, h2, h3, List.cons_append]

theorem parseItems_forall₂ : ∀ (items : Selection) (as : List tfResourceArg),
    parseItems items = .ok as →
      List.Forall₂ (fun a li => scrapingResourceList li = .ok a) as items := by
  intro items
  induction items with
  | nil => intro as h; simp [parseItems] at h; subst h; exact List.Forall₂.nil
  | cons li lis ih =>
    intro as h
    simp only [parseItems] at h
    cases h1 : scrapingResourceList li with
    | error e => simp [h1] at h
    | ok a =>
      cases h2 : parseItems lis with
      | error e => simp [h1, h2] at h
      | ok bs =>
        simp [h1, h2] at h
        subst h
        exact List.Forall₂.cons h1 (ih bs h2)

theorem scrapingResourceList_nested (li : Loc) (a : tfResourceArg)
    (h : scrapingResourceList li = .ok a) : a.NestedField = [] := by
  unfold scrapingResourceList at h
  dsimp only at h
  split at h
  · simp at h
  · split at h
    · simp at h
    · simp at h
      subst h
      rfl

theorem children_cons (l : Loc) (ls : Selection) :
    Selection.Children (l :: ls) = Selection.Children [l] ++ Selection.Children ls := by
  simp [Selection.Children]

theorem rangeArgs_ok (f : String) (items : Selection) :
    ∀ args args' : List tfResourceArg, rangeArgs f items args = .ok args' →
      List.Forall₂ (Ranged f items) args' args := by
  intro args
  induction args with
  | nil => intro args' h; simp [rangeArgs] at h; subst h; exact List.Forall₂.nil
  | cons a rest ih =>
    intro args' h
    simp only [rangeArgs] at h
    by_cases hn : a.Name = f
    · rw [if_pos hn, appendNested_eq] at h
      cases h1 : parseItems items with
      | error e => simp [h1] at h
      | ok as =>
        cases h2 : rangeArgs f items rest with
        | error e => simp [h1, h2] at h
        | ok rest' =>
          simp [h1, h2] at h
          subst h
          refine List.Forall₂.cons ?_ (ih rest' h2)
          unfold Ranged
          rw [if_pos hn]
          exact ⟨as, h1, rfl⟩
    · rw [if_neg hn] at h
      cases h2 : rangeArgs f items rest with
      | error e => simp [h2] at h
      | ok rest' =>
        simp [h2] at h
        subst h
        refine List.Forall₂.cons ?_ (ih rest' h2)
        unfold Ranged
        rw [if_neg hn]

theorem nested_cons (l : Loc) (ls : Selection) (args2 args1 : List tfResourceArg)
    (hf : List.Forall₂ (Nested ls) args2 args1) :
    ∀ args0 : List tfResourceArg,
      List.Forall₂ (Ranged (ownerText l) (Selection.Children [l])) args1 args0 →
      List.Forall₂ (Nested (l :: ls)) args2 args0 := by
  induction hf with
  | nil => intro args0 hr; cases hr; exact List.Forall₂.nil
  | @cons a2 a1 l2 l1 hab _ ih2 =>
    intro args0 hr
    cases hr with
    | @cons _ a0 _ l0 hbc hr' =>
      refine List.Forall₂.cons ?_ (ih2 l0 hr')
      obtain ⟨e1, e2, e3, ns, e4, e5⟩ := hab
      unfold Ranged at hbc
      by_cases hm : a0.Name = ownerText l
      · rw [if_pos hm] at hbc
        obtain ⟨as, p1, p2⟩ := hbc
        subst p2
        refine ⟨e1, e2, e3, as ++ ns, ?_, ?_⟩
        · have hfl : (l :: ls).filter (fun x => ownerText x = a0.Name) =
              l :: ls.filter (fun x => ownerText x = a0.Name) := by
            simp [List.filter, hm]
          rw [hfl, children_cons, parseItems_append, p1]
          have e4' : parseItems (Selection.Children
              (ls.filter (fun x => ownerText x = a0.Name))) = .ok ns := e4
          rw [e4']
        · rw [e5]
          simp only [List.append_assoc]
      · rw [if_neg hm] at hbc
        subst hbc
        refine ⟨e1, e2, e3, ns, ?_, e5⟩
        have hfl : (l :: ls).filter (fun x => ownerText x = a1.Name) =
            ls.filter (fun x => ownerText x = a1.Name) := by
          simp [List.filter, Ne.symm hm]
        rw [hfl]
        exact e4

theorem eachUls_later (later : Selection) : ∀ (ret ret' : TfResource) (i : Nat),
    eachUls ret (i + 1) later = .ok ret' →
      ret'.Name = ret.Name ∧ ret'.Description = ret.Description ∧
        List.Forall₂ (Nested later) ret'.Args ret.Args := by
  induction later with
  | nil =>
    intro ret ret' i h
    simp [eachUls] at h
    subst h
    refine ⟨rfl, rfl, ?_⟩
    apply List.forall₂_same.2
    intro a _
    exact ⟨rfl, rfl, rfl, [], rfl, by simp⟩
  | cons l ls ih =>
    intro ret ret' i h
    simp only [eachUls] at h
    cases h1 : eachUl ret (i + 1) l with
    | error e => simp [h1] at h
    | ok ret1 =>
      simp only [h1] at h
      obtain ⟨hn, hd, hf⟩ := ih ret1 ret' (i + 1) h
      simp only [eachUl, Nat.succ_ne_zero, if_false] at h1
      cases h2 : rangeArgs (((Selection.Prev [l]).Find codeStrong).Text)
          (Selection.Children [l]) ret.Args with
      | error e => simp [h2] at h1
      | ok args1 =>
        simp [h2] at h1
        subst h1
        exact ⟨hn, hd, nested_cons l ls _ _ hf _ (rangeArgs_ok _ _ _ _ h2)⟩

theorem newScraper_built {β : Type} (get : Fetch β) (docType name url : String)
    (hurl : (NewScraper get docType name).2 = [url]) :
    NewScraper get docType name = afterBuild get docType name url := by
  have hlog : ∀ u : String, (afterBuild get docType name u).2 = [u] := by
    intro u
    unfold afterBuild
    split
    · rfl
    · split <;> rfl
  by_cases hp : docType = "provider"
  · subst hp
    rw [newScraper_provider] at hurl ⊢
    rw [hlog] at hurl
    rw [List.singleton_inj.1 hurl]
  · by_cases hr : docType = "resource"
    · subst hr
      by_cases hu : '_' ∈ name.data
      · obtain ⟨p, r, _, _, hn⟩ := newScraper_resource get name hu
        rw [hn] at hurl ⊢
        rw [hlog] at hurl
        rw [List.singleton_inj.1 hurl]
      · have hc : strings.Contains name "_" = false := by
          cases hcc : strings.Contains name "_" with
          | false => rfl
          | true => exact absurd ((strings.contains_single name '_').1 hcc) hu
        rw [newScraper_eq] at hurl
        simp [TfScraper.convertDocURL, hc] at hurl
    · rw [newScraper_eq] at hurl
      simp [TfScraper.convertDocURL, hp, hr] at hurl

theorem scrape_sample :
    scrapeTfResource (parseTo samplePage) "aws_instance" response200 = .ok sampleRecord := by
  rfl

theorem scrapeTfResource_ok {β : Type} (parse : β → Except String Node) (name : String)
    (res : Response β) (root : Node) (ret : TfResource)
    (hp : parse res.Body = .ok root) (h : scrapeTfResource parse name res = .ok ret) :
    ∃ tops, parseItems ((document root).Find innerUl).First.Children = .ok tops ∧
      List.Forall₂ (Nested (((document root).Find innerUl).drop 1)) ret.Args tops := by
  unfold scrapeTfResource at h
  rw [hp] at h
  dsimp only at h
  change eachUls _ 0 ((document root).Find innerUl) = .ok ret at h
  cases hl : (document root).Find innerUl with
  | nil =>
    rw [hl] at h
    simp [eachUls] at h
    subst h
    exact ⟨[], rfl, List.Forall₂.nil⟩
  | cons first later =>
    rw [hl] at h
    simp only [eachUls, eachUl, if_true, appendArgs_eq] at h
    have hc : Selection.Children (Selection.First (first :: later)) =
        Selection.Children [first] := rfl
    rw [hc]
    cases h1 : parseItems (Selection.Children [first]) with
    | error e => simp [h1] at h
    | ok tops =>
      simp only [h1, List.nil_append] at h
      obtain ⟨_, _, hf⟩ := eachUls_later later _ ret 0 h
      exact ⟨tops, rfl, hf⟩

theorem children_append (xs ys : Selection) :
    Selection.Children (xs ++ ys) = Selection.Children xs ++ Selection.Children ys := by
  simp [Selection.Children]

theorem parseItems_append_ok (xs ys : Selection) (ns : List tfResourceArg)
    (h : parseItems (xs ++ ys) = .ok ns) :
    ∃ as bs, parseItems xs = .ok as ∧ parseItems ys = .ok bs ∧ ns = as ++ bs := by
  rw [parseItems_append] at h
  cases h1 : parseItems xs with
  | error e => simp [h1] at h
  | ok as =>
    cases h2 : parseItems ys with
    | error e => simp [h1, h2] at h
    | ok bs =>
      simp [h1, h2] at h
      exact ⟨as, bs, rfl, rfl, h.symm⟩

theorem parseItems_nested : ∀ (items : Selection) (as : List tfResourceArg),
    parseItems items = .ok as → ∀ a ∈ as, a.NestedField = [] := by
  intro items as h
  have hf := parseItems_forall₂ items as h
  clear h
  induction hf with
  | nil => intro a ha; simp at ha
  | @cons b li bs lis hb _ ih =>
    intro a ha
    rcases List.mem_cons.1 ha with e | e
    · subst e; exact scrapingResourceList_nested li a hb
    · exact ih a e

theorem nestedField_ok {β : Type} (parse : β → Except String Node) (name : String)
    (res : Response β) (root : Node) (ret : TfResource)
    (hp : parse res.Body = .ok root) (h : scrapeTfResource parse name res = .ok ret) :
    ∀ a ∈ ret.Args,
      parseItems (Selection.Children ((((document root).Find innerUl).drop 1).filter
        (fun l => ownerText l = a.Name))) = .ok a.NestedField := by
  obtain ⟨tops, ht, hf⟩ := scrapeTfResource_ok parse name res root ret hp h
  have hn := parseItems_nested _ _ ht
  clear ht
  generalize ret.Args = args at hf
  induction hf with
  | nil => intro a ha; simp at ha
  | @cons b t bs ts hbt _ ih =>
    intro a ha
    rcases List.mem_cons.1 ha with e | e
    · subst e
      obtain ⟨e1, _, _, ns, e4, e5⟩ := hbt
      rw [hn t (by simp), List.nil_append] at e5
      rw [e1, e5]
      exact e4
    · exact ih (fun x hx => hn x (by simp [hx])) a e

theorem match_child_id_tag (tg : String) (anc : List Node) (n : Node) :
    (Selector.child (.id "inner") (.tag tg)).Match anc n = (isTag tg n && insideOf anc) := by
  cases anc with
  | nil => simp [Selector.Match, insideOf, isTag]
  | cons p rest => simp [Selector.Match, insideOf, isTag, isRegion]

mutual
theorem matchAll_view (tg : String) (anc before : List Node) :
    ∀ n : Node, (matchAll (.child (.id "inner") (.tag tg)) anc before n).map view =
      scan (isTag tg) (insideOf anc) (prevNode before) n
  | .mk t d a cs => by
    have ih := matchAllList_view tg (.mk t d a cs :: anc) [] cs
    simp only [matchAll, scan, List.map_append, ih, match_child_id_tag]
    congr 1
    split <;> rfl
theorem matchAllList_view (tg : String) (anc before : List Node) :
    ∀ cs : List Node, (matchAllList (.child (.id "inner") (.tag tg)) anc before cs).map view =
      scanList (isTag tg) false (insideOf anc) (prevNode before) cs
  | [] => rfl
  | c :: cs => by
    have h1 := matchAll_view tg anc before c
    have h2 := matchAllList_view tg anc (c :: before) cs
    simp only [matchAllList, scanList, List.map_append, h1, h2, prevNode]
    simp [visited]
end

theorem findChildren_view (tg : String) (anc : List Node) :
    ∀ (cs before : List Node),
      (findChildren (.child (.id "inner") (.tag tg)) anc before cs).map view =
        scanList (isTag tg) true (insideOf anc) (prevNode before) cs := by
  intro cs
  induction cs with
  | nil => intro before; rfl
  | cons c cs ih =>
    intro before
    simp only [findChildren, scanList, List.map_append, ih, prevNode]
    by_cases hc : c.type = NodeType.ElementNode
    · simp [hc, matchAll_view, visited]
    · simp [hc, visited]

theorem find_document_view (tg : String) (root : Node) :
    ((document root).Find (.child (.id "inner") (.tag tg))).map view =
      scanList (isTag tg) true (isRegion root) none root.children := by
  simp only [document, Selection.Find, List.flatMap_cons, List.flatMap_nil, List.append_nil]
  exact findChildren_view tg [root] root.children []

theorem isTag_element (tg : String) (n : Node) (h : isTag tg n = true) :
    n.type = NodeType.ElementNode := by
  simp [isTag] at h
  exact h.1

theorem isTag_of_not_element (tg : String) (n : Node) (h : ¬ n.type = NodeType.ElementNode) :
    isTag tg n = false := by
  cases h' : isTag tg n with
  | false => rfl
  | true => exact absurd (isTag_element tg n h') h

theorem visited_element (top : Bool) (c : Node) (h : c.type = NodeType.ElementNode) :
    visited top c = true := by
  simp [visited, h]

theorem scan_eq (tg : String) (inside : Bool) (prev : Option Node) (n : Node) :
    scan (isTag tg) inside prev n =
      (if isTag tg n && inside then [(prev, n)] else []) ++
        scanList (isTag tg) false (isRegion n) none n.children := by
  cases n with
  | mk t d a cs => simp [scan, Node.children]

theorem scanList_cons (tg : String) (top inside : Bool) (p : Option Node) (c : Node)
    (cs : List Node) :
    scanList (isTag tg) top inside p (c :: cs) =
      (if visited top c then scan (isTag tg) inside p c else []) ++
        scanList (isTag tg) top inside
          (if c.type = NodeType.ElementNode then some c else p) cs := by
  simp only [scanList]

theorem prevNode_reverse (cs : List Node) : ∀ b : List Node,
    prevNode (cs.reverse ++ b) = prevAfter (prevNode b) cs := by
  induction cs with
  | nil => intro b; rfl
  | cons c cs ih =>
    intro b
    rw [List.reverse_cons, List.append_assoc, List.singleton_append, ih]
    rfl

theorem scanList_append (tg : String) (top inside : Bool) (xs ys : List Node) :
    ∀ p : Option Node, scanList (isTag tg) top inside p (xs ++ ys) =
      scanList (isTag tg) top inside p xs ++
        scanList (isTag tg) top inside (prevAfter p xs) ys := by
  induction xs with
  | nil => intro p; simp [scanList, prevAfter]
  | cons c cs ih =>
    intro p
    rw [List.cons_append, scanList_cons, scanList_cons, ih, prevAfter, List.append_assoc]

/-- Changing the element before the first sibling changes no node of the
views. -/
theorem scanList_nodes (tg : String) (top inside : Bool) (cs : List Node) :
    ∀ p1 p2 : Option Node,
      (scanList (isTag tg) top inside p1 cs).map Prod.snd =
        (scanList (isTag tg) top inside p2 cs).map Prod.snd := by
  induction cs with
  | nil => intro p1 p2; rfl
  | cons c cs ih =>
    intro p1 p2
    rw [scanList_cons, scanList_cons, List.map_append, List.map_append]
    by_cases hc : c.type = NodeType.ElementNode
    · rw [if_pos hc, if_pos hc]
      congr 1
      cases visited top c with
      | false => rfl
      | true =>
        simp only [if_true, scan_eq, List.map_append]
        congr 1
        cases (isTag tg c && inside) <;> rfl
    · rw [if_neg hc, if_neg hc, ih p1 p2]
      congr 1
      cases visited top c with
      | false => rfl
      | true =>
        simp [scan_eq, isTag_of_not_element tg c hc]

/-- Outside a content region the element before the first sibling plays no
part. -/
theorem scanList_outside (tg : String) (top : Bool) (cs : List Node) :
    ∀ p1 p2 : Option Node,
      scanList (isTag tg) top false p1 cs = scanList (isTag tg) top false p2 cs := by
  induction cs with
  | nil => intro p1 p2; rfl
  | cons c cs ih =>
    intro p1 p2
    rw [scanList_cons, scanList_cons]
    simp only [scan_eq, Bool.and_false]
    by_cases hc : c.type = NodeType.ElementNode
    · rw [if_pos hc, if_pos hc]
      simp
    · rw [if_neg hc, if_neg hc, ih p1 p2]
      simp

/-- When the first element among the siblings has not the tag, the element
before the first sibling plays no part. -/
theorem scanList_next (tg : String) (top inside : Bool) (cs : List Node) :
    ∀ p1 p2 : Option Node, (∀ n ∈ nextNode cs, isTag tg n = false) →
      scanList (isTag tg) top inside p1 cs = scanList (isTag tg) top inside p2 cs := by
  induction cs with
  | nil => intro p1 p2 _; rfl
  | cons c cs ih =>
    intro p1 p2 h
    rw [scanList_cons, scanList_cons]
    by_cases hc : c.type = NodeType.ElementNode
    · have hn : isTag tg c = false := h c (by simp [nextNode, hc])
      rw [if_pos hc, if_pos hc]
      simp [scan_eq, hn]
    · rw [if_neg hc, if_neg hc]
      rw [ih p1 p2 (fun n hn => h n (by simpa [nextNode, hc] using hn))]
      simp [scan_eq, isTag_of_not_element tg c hc]

mutual
theorem scan_noRegion (tg : String) (p : Option Node) :
    ∀ n : Node, hasRegion n = false → scan (isTag tg) false p n = []
  | .mk t d a cs => by
    intro h
    simp only [hasRegion, Bool.or_eq_false_iff] at h
    simp only [scan, Bool.and_false, h.1]
    exact scanList_noRegion tg none cs h.2
theorem scanList_noRegion (tg : String) (p : Option Node) :
    ∀ cs : List Node, hasRegionList cs = false → scanList (isTag tg) false false p cs = []
  | [] => fun _ => rfl
  | c :: cs => by
    intro h
    simp only [hasRegionList, Bool.or_eq_false_iff] at h
    rw [scanList_cons, scan_noRegion tg p c h.1, scanList_noRegion tg _ cs h.2]
    simp
end

theorem Dropped.same (tg : String) (L : Loc) (next : Option Node)
    (X ys : List (Option Node × Node)) : Dropped tg L next X (X ++ ys) (X ++ ys) :=
  ⟨[], ys, by simp, Or.inl rfl, rfl, fun _ => rfl⟩

theorem Dropped.frame (tg : String) (L : Loc) (next : Option Node)
    (A B X V V' : List (Option Node × Node)) (h : Dropped tg L next X V V') :
    Dropped tg L next (A ++ X) (A ++ V ++ B) (A ++ V' ++ B) := by
  obtain ⟨m, ys, h1, h2, h3, h4⟩ := h
  refine ⟨m, ys ++ B, ?_, h2, ?_, ?_⟩
  · rw [h1]; simp only [List.append_assoc]
  · simp only [List.map_append, List.append_assoc] at h3 ⊢
    rw [h3]
    simp only [List.append_assoc]
  · intro hv
    rw [h4 hv]
    simp only [List.append_assoc]

theorem locAt_anc : ∀ (path : List Nat) (anc : List Node) (n : Node) (L : Loc),
    locAt path anc n = some L → ∃ chain, L.anc = chain ++ n :: anc := by
  intro path
  induction path with
  | nil => intro anc n L h; simp [locAt] at h
  | cons j rest ih =>
    intro anc n L h
    simp only [locAt] at h
    split at h
    · simp at h
    · rename_i c post hd
      split at h
      · simp at h
        subst h
        exact ⟨[], rfl⟩
      · obtain ⟨chain, hc⟩ := ih (n :: anc) c L h
        exact ⟨chain ++ [c], by rw [hc]; simp⟩

theorem dropAt_header : ∀ (path : List Nat) (t : NodeType) (d : String) (a : List Attribute)
    (cs : List Node), ∃ cs', dropAt path (.mk t d a cs) = .mk t d a cs' := by
  intro path t d a cs
  cases path with
  | nil => exact ⟨cs, rfl⟩
  | cons j rest =>
    simp only [dropAt]
    split
    · exact ⟨_, rfl⟩
    · split <;> exact ⟨_, rfl⟩

theorem dropAt_type (path : List Nat) (n : Node) : (dropAt path n).type = n.type := by
  cases n with
  | mk t d a cs =>
    obtain ⟨cs', h⟩ := dropAt_header path t d a cs
    rw [h]
    rfl

theorem dropAt_isRegion (path : List Nat) (n : Node) :
    isRegion (dropAt path n) = isRegion n := by
  cases n with
  | mk t d a cs =>
    obtain ⟨cs', h⟩ := dropAt_header path t d a cs
    rw [h]
    rfl

theorem dropAt_isTag (tg : String) (path : List Nat) (n : Node) :
    isTag tg (dropAt path n) = isTag tg n := by
  cases n with
  | mk t d a cs =>
    obtain ⟨cs', h⟩ := dropAt_header path t d a cs
    rw [h]
    rfl

theorem dropAt_visited (top : Bool) (path : List Nat) (n : Node) :
    visited top (dropAt path n) = visited top n := by
  simp only [visited, dropAt_type]

theorem takeAt_header : ∀ (path : List Nat) (t : NodeType) (d : String) (a : List Attribute)
    (cs : List Node), ∃ cs', takeAt path (.mk t d a cs) = .mk t d a cs' := by
  intro path t d a cs
  cases path with
  | nil => exact ⟨cs, rfl⟩
  | cons j rest =>
    simp only [takeAt]
    split
    · exact ⟨_, rfl⟩
    · split <;> exact ⟨_, rfl⟩

theorem takeAt_type (path : List Nat) (n : Node) : (takeAt path n).type = n.type := by
  cases n with
  | mk t d a cs =>
    obtain ⟨cs', h⟩ := takeAt_header path t d a cs
    rw [h]
    rfl

theorem takeAt_isRegion (path : List Nat) (n : Node) :
    isRegion (takeAt path n) = isRegion n := by
  cases n with
  | mk t d a cs =>
    obtain ⟨cs', h⟩ := takeAt_header path t d a cs
    rw [h]
    rfl

theorem takeAt_isTag (tg : String) (path : List Nat) (n : Node) :
    isTag tg (takeAt path n) = isTag tg n := by
  cases n with
  | mk t d a cs =>
    obtain ⟨cs', h⟩ := takeAt_header path t d a cs
    rw [h]
    rfl

theorem takeAt_visited (top : Bool) (path : List Nat) (n : Node) :
    visited top (takeAt path n) = visited top n := by
  simp only [visited, takeAt_type]

theorem hasRegion_false (n : Node) (h : hasRegion n = false) :
    isRegion n = false ∧ hasRegionList n.children = false := by
  cases n with
  | mk t d a cs =>
    simp only [hasRegion, Bool.or_eq_false_iff] at h
    exact h

theorem scanList_dropAt (tg : String) : ∀ (path : List Nat) (top : Bool) (n : Node)
    (anc : List Node) (L : Loc),
    locAt path anc n = some L → insideOf L.anc = true →
    (∀ a ∈ L.anc.tail, isRegion a = false) → hasRegion L.node = false →
    Dropped tg L (nextNode (afterAt path n))
      (scanList (isTag tg) top (isRegion n) none (takeAt path n).children)
      (scanList (isTag tg) top (isRegion n) none n.children)
      (scanList (isTag tg) top (isRegion n) none (dropAt path n).children) := by
  intro path
  induction path with
  | nil => intro top n anc L h; simp [locAt] at h
  | cons j rest ih =>
    intro top n anc L h hin hanc hno
    cases n with
    | mk t d a cs =>
      simp only [locAt, Node.children] at h
      simp only [dropAt, takeAt, afterAt, Node.children]
      split at h
      · simp at h
      · rename_i c post hd
        have hcs : cs = cs.take j ++ c :: post := by
          rw [← hd, List.take_append_drop]
        generalize hpre : cs.take j = pre at h hcs ⊢
        subst hcs
        clear hd hpre
        cases rest with
        | nil =>
          -- the node to drop is the child `c`
          simp at h
          subst h
          simp only [insideOf] at hin
          simp only [Node.children]
          rw [hin, scanList_append, scanList_append, scanList_cons]
          by_cases hv : visited top c = true
          · rw [if_pos hv, scan_eq]
            obtain ⟨hr, hl⟩ := hasRegion_false c hno
            rw [hr, scanList_noRegion tg none c.children hl, List.append_nil]
            have hview : view ⟨.mk t d a (pre ++ c :: post) :: anc, pre.reverse, c⟩ =
                (prevAfter none pre, c) := by
              have hp := prevNode_reverse pre []
              rw [List.append_nil] at hp
              simp only [view, hp]
              rfl
            refine ⟨(if (isTag tg c && true) = true then [(prevAfter none pre, c)] else []),
              scanList (isTag tg) top true
                (if c.type = NodeType.ElementNode then some c else prevAfter none pre) post,
              by simp only [List.append_assoc], ?_, ?_, ?_⟩
            · by_cases hg : isTag tg c = true
              · right
                refine ⟨?_, hg⟩
                simp only [hg, Bool.and_true, if_true, hview]
              · left
                simp [hg]
            · simp only [List.map_append]
              rw [scanList_nodes tg top true post (prevAfter none pre)
                (if c.type = NodeType.ElementNode then some c else prevAfter none pre)]
            · intro hall
              rw [scanList_next tg top true post (prevAfter none pre)
                (if c.type = NodeType.ElementNode then some c else prevAfter none pre) hall]
          · rw [if_neg (by simpa using hv)]
            have hc : ¬ c.type = NodeType.ElementNode := by
              intro hc
              exact hv (visited_element top c hc)
            rw [if_neg hc]
            simp only [List.nil_append]
            exact Dropped.same tg _ _ _ _
        | cons j' rest' =>
          -- the node to drop lies in the child `c`
          simp only at h
          obtain ⟨chain, hch⟩ := locAt_anc _ _ _ _ h
          have hn : isRegion (.mk t d a (pre ++ c :: post)) = false := by
            apply hanc
            rw [hch]
            cases chain with
            | nil => simp
            | cons x xs => simp
          simp only [Node.children]
          rw [hn]
          rw [scanList_append, scanList_append, scanList_append, scanList_cons, scanList_cons,
            scanList_cons, dropAt_visited, dropAt_type, takeAt_visited, takeAt_type]
          rw [scanList_outside tg top post
            (if c.type = NodeType.ElementNode then some (dropAt (j' :: rest') c)
              else prevAfter none pre)
            (if c.type = NodeType.ElementNode then some c else prevAfter none pre)]
          simp only [scanList, List.append_nil]
          rw [← List.append_assoc, ← List.append_assoc]
          apply Dropped.frame
          by_cases hv : visited top c = true
          · rw [if_pos hv, if_pos hv, if_pos hv, scan_eq, scan_eq, scan_eq, dropAt_isTag,
              dropAt_isRegion, takeAt_isTag, takeAt_isRegion]
            simp only [Bool.and_false, Bool.false_eq_true, if_false, List.nil_append]
            exact ih false c (.mk t d a (pre ++ c :: post) :: anc) L h hin hanc hno
          · rw [if_neg hv, if_neg hv, if_neg hv]
            exact Dropped.same tg _ _ [] []

mutual
theorem matchAll_nodes (sel : Selector)
    (hs : ∀ p r1 r2 n, sel.Match (p :: r1) n = sel.Match (p :: r2) n)
    (p : Node) (r1 r2 b1 b2 : List Node) :
    ∀ n : Node, nodes (matchAll sel (p :: r1) b1 n) = nodes (matchAll sel (p :: r2) b2 n)
  | .mk t d a cs => by
    have ih := matchAllList_nodes sel hs (.mk t d a cs) (p :: r1) (p :: r2) [] [] cs
    simp only [matchAll, nodes, List.map_append] at ih ⊢
    rw [ih, hs p r1 r2]
    split <;> rfl
theorem matchAllList_nodes (sel : Selector)
    (hs : ∀ p r1 r2 n, sel.Match (p :: r1) n = sel.Match (p :: r2) n)
    (p : Node) (r1 r2 b1 b2 : List Node) :
    ∀ cs : List Node,
      nodes (matchAllList sel (p :: r1) b1 cs) = nodes (matchAllList sel (p :: r2) b2 cs)
  | [] => rfl
  | c :: cs => by
    have h1 := matchAll_nodes sel hs p r1 r2 b1 b2 c
    have h2 := matchAllList_nodes sel hs p r1 r2 (c :: b1) (c :: b2) cs
    simp only [matchAllList, nodes, List.map_append] at h1 h2 ⊢
    rw [h1, h2]
end

theorem findChildren_nodes (sel : Selector)
    (hs : ∀ p r1 r2 n, sel.Match (p :: r1) n = sel.Match (p :: r2) n)
    (p : Node) (r1 r2 : List Node) (cs : List Node) :
    ∀ b1 b2 : List Node,
      nodes (findChildren sel (p :: r1) b1 cs) = nodes (findChildren sel (p :: r2) b2 cs) := by
  induction cs with
  | nil => intro b1 b2; rfl
  | cons c cs ih =>
    intro b1 b2
    have h1 := matchAll_nodes sel hs p r1 r2 b1 b2 c
    have h2 := ih (c :: b1) (c :: b2)
    simp only [findChildren, nodes, List.map_append] at h1 h2 ⊢
    rw [h2]
    split
    · rw [h1]
    · rfl

theorem find_nodes (sel : Selector)
    (hs : ∀ p r1 r2 n, sel.Match (p :: r1) n = sel.Match (p :: r2) n) :
    ∀ s1 s2 : Selection, nodes s1 = nodes s2 → nodes (s1.Find sel) = nodes (s2.Find sel) := by
  intro s1
  induction s1 with
  | nil =>
    intro s2 h
    cases s2 with
    | nil => rfl
    | cons l ls => simp [nodes] at h
  | cons l1 ls1 ih =>
    intro s2 h
    cases s2 with
    | nil => simp [nodes] at h
    | cons l2 ls2 =>
      simp only [nodes, List.map_cons, List.cons.injEq] at h
      have h2 := ih ls2 h.2
      simp only [Selection.Find, nodes, List.flatMap_cons, List.map_append] at h2 ⊢
      rw [h2, h.1]
      congr 1
      exact findChildren_nodes sel hs l2.node l1.anc l2.anc l2.node.children [] []

theorem text_nodes : ∀ s1 s2 : Selection, nodes s1 = nodes s2 → s1.Text = s2.Text := by
  intro s1
  induction s1 with
  | nil =>
    intro s2 h
    cases s2 with
    | nil => rfl
    | cons l ls => simp [nodes] at h
  | cons l1 ls1 ih =>
    intro s2 h
    cases s2 with
    | nil => simp [nodes] at h
    | cons l2 ls2 =>
      simp only [nodes, List.map_cons, List.cons.injEq] at h
      simp only [Selection.Text, h.1, ih ls2 h.2]

theorem aCode_shallow (p : Node) (r1 r2 : List Node) (n : Node) :
    aCode.Match (p :: r1) n = aCode.Match (p :: r2) n := by
  simp [aCode, Selector.Match]

theorem codeStrong_shallow (p : Node) (r1 r2 : List Node) (n : Node) :
    codeStrong.Match (p :: r1) n = codeStrong.Match (p :: r2) n := by
  simp [codeStrong, Selector.Match]

theorem scrapingResourceList_node (l1 l2 : Loc) (h : l1.node = l2.node) :
    scrapingResourceList l1 = scrapingResourceList l2 := by
  have hn : nodes [l1] = nodes [l2] := by simp [nodes, h]
  unfold scrapingResourceList
  rw [text_nodes _ _ (find_nodes aCode aCode_shallow _ _ hn), text_nodes _ _ hn]

theorem parseItems_nodes : ∀ s1 s2 : Selection, nodes s1 = nodes s2 →
    parseItems s1 = parseItems s2 := by
  intro s1
  induction s1 with
  | nil =>
    intro s2 h
    cases s2 with
    | nil => rfl
    | cons l ls => simp [nodes] at h
  | cons l1 ls1 ih =>
    intro s2 h
    cases s2 with
    | nil => simp [nodes] at h
    | cons l2 ls2 =>
      simp only [nodes, List.map_cons, List.cons.injEq] at h
      simp only [parseItems, scrapingResourceList_node l1 l2 h.1, ih ls2 h.2]

theorem childElements_nodes (cs : List Node) : ∀ anc1 anc2 b1 b2 : List Node,
    nodes (childElements anc1 b1 cs) = nodes (childElements anc2 b2 cs) := by
  induction cs with
  | nil => intro _ _ _ _; rfl
  | cons c cs ih =>
    intro anc1 anc2 b1 b2
    have h := ih anc1 anc2 (c :: b1) (c :: b2)
    simp only [childElements, nodes, List.map_append] at h ⊢
    rw [h]
    split <;> rfl

theorem children_nodes (l1 l2 : Loc) (h : l1.node = l2.node) :
    nodes (Selection.Children [l1]) = nodes (Selection.Children [l2]) := by
  simp only [Selection.Children, List.flatMap_cons, List.flatMap_nil, List.append_nil, h]
  exact childElements_nodes _ _ _ _ _

theorem prevElement_nodes (anc : List Node) (b : List Node) :
    nodes (prevElement anc b) = (prevNode b).toList := by
  induction b with
  | nil => rfl
  | cons c cs ih =>
    simp only [prevElement, prevNode]
    split
    · rfl
    · exact ih

theorem ownerText_view (l1 l2 : Loc) (h : prevNode l1.before = prevNode l2.before) :
    ownerText l1 = ownerText l2 := by
  unfold ownerText
  apply text_nodes
  apply find_nodes codeStrong codeStrong_shallow
  simp only [Selection.Prev, List.flatMap_cons, List.flatMap_nil, List.append_nil,
    prevElement_nodes, h]

theorem rangeArgs_nodes (f : String) (s1 s2 : Selection) (h : nodes s1 = nodes s2) :
    ∀ args : List tfResourceArg, rangeArgs f s1 args = rangeArgs f s2 args := by
  intro args
  induction args with
  | nil => rfl
  | cons a rest ih =>
    simp only [rangeArgs, appendNested_eq, parseItems_nodes s1 s2 h, ih]

theorem rangeArgs_unmatched (f : String) (items : Selection) :
    ∀ args : List tfResourceArg, (∀ a ∈ args, a.Name ≠ f) → rangeArgs f items args = .ok args := by
  intro args
  induction args with
  | nil => intro _; rfl
  | cons a rest ih =>
    intro h
    have ha : ¬ a.Name = f := h a (by simp)
    simp only [rangeArgs, if_neg ha, ih (fun x hx => h x (by simp [hx]))]

theorem eachUl_view (ret : TfResource) (i : Nat) (l1 l2 : Loc) (h : view l1 = view l2) :
    eachUl ret i l1 = eachUl ret i l2 := by
  simp only [view, Prod.mk.injEq] at h
  have ho : ownerText l1 = ownerText l2 := ownerText_view l1 l2 h.1
  unfold ownerText at ho
  simp only [eachUl, appendArgs_eq, parseItems_nodes _ _ (children_nodes l1 l2 h.2), ho,
    rangeArgs_nodes _ _ _ (children_nodes l1 l2 h.2)]

theorem eachUls_view : ∀ (ls1 ls2 : Selection) (ret : TfResource) (i : Nat),
    ls1.map view = ls2.map view → eachUls ret i ls1 = eachUls ret i ls2 := by
  intro ls1
  induction ls1 with
  | nil =>
    intro ls2 ret i h
    cases ls2 with
    | nil => rfl
    | cons l ls => simp at h
  | cons l1 ls1 ih =>
    intro ls2 ret i h
    cases ls2 with
    | nil => simp at h
    | cons l2 ls2 =>
      simp only [List.map_cons, List.cons.injEq] at h
      simp only [eachUls, eachUl_view ret i l1 l2 h.1]
      cases eachUl ret i l2 with
      | error e => rfl
      | ok r => exact ih ls2 r (i + 1) h.2

theorem eachUls_append (xs ys : Selection) : ∀ (ret : TfResource) (i : Nat),
    eachUls ret i (xs ++ ys) =
      match eachUls ret i xs with
      | .error e => .error e
      | .ok r => eachUls r (i + xs.length) ys := by
  induction xs with
  | nil => intro ret i; rfl
  | cons l ls ih =>
    intro ret i
    rw [List.cons_append]
    simp only [eachUls]
    cases eachUl ret i l with
    | error e => rfl
    | ok r =>
      simp only [ih r (i + 1), List.length_cons]
      have : i + 1 + ls.length = i + (ls.length + 1) := by omega
      rw [this]

theorem eachUl_later_index (ret : TfResource) (i j : Nat) (l : Loc) :
    eachUl ret (i + 1) l = eachUl ret (j + 1) l := by
  simp only [eachUl, Nat.succ_ne_zero, if_false]

theorem eachUls_later_index (ls : Selection) : ∀ (ret : TfResource) (i j : Nat),
    eachUls ret (i + 1) ls = eachUls ret (j + 1) ls := by
  induction ls with
  | nil => intro ret i j; rfl
  | cons l ls ih =>
    intro ret i j
    simp only [eachUls, eachUl_later_index ret i j l]
    cases eachUl ret (j + 1) l with
    | error e => rfl
    | ok r => exact ih r (i + 1) (j + 1)

theorem eachUl_unmatched (ret : TfResource) (i : Nat) (l : Loc)
    (h : ∀ a ∈ ret.Args, a.Name ≠ ownerText l) : eachUl ret (i + 1) l = .ok ret := by
  simp only [eachUl, Nat.succ_ne_zero, if_false]
  have := rangeArgs_unmatched (ownerText l) (Selection.Children [l]) ret.Args h
  unfold ownerText at this
  rw [this]

theorem scrapingResourceList_name (li : Loc) (a : tfResourceArg)
    (h : scrapingResourceList li = .ok a) : a.Name = (Selection.Find [li] aCode).Text := by
  unfold scrapingResourceList at h
  dsimp only at h
  split at h
  · simp at h
  · split at h
    · simp at h
    · simp at h
      subst h
      rfl

theorem forall₂_mem_left {α β : Type} {R : α → β → Prop} {l1 : List α} {l2 : List β}
    (h : List.Forall₂ R l1 l2) : ∀ a ∈ l1, ∃ b ∈ l2, R a b := by
  induction h with
  | nil => intro a ha; simp at ha
  | @cons x y xs ys hxy _ ih =>
    intro a ha
    rcases List.mem_cons.1 ha with e | e
    · subst e; exact ⟨y, by simp, hxy⟩
    · obtain ⟨b, hb, hr⟩ := ih a e
      exact ⟨b, by simp [hb], hr⟩

/-- After the first list and any lists that follow it, every argument has the
name read from an item of the first list. -/
theorem eachUls_names (first : Loc) (later : Selection) (ret0 r : TfResource)
    (hnil : ret0.Args = []) (h : eachUls ret0 0 (first :: later) = .ok r) :
    ∀ a ∈ r.Args, ∃ li ∈ Selection.Children [first],
      a.Name = (Selection.Find [li] aCode).Text := by
  simp only [eachUls, eachUl, if_true, appendArgs_eq] at h
  cases h1 : parseItems (Selection.Children [first]) with
  | error e => simp [h1] at h
  | ok tops =>
    simp only [h1, hnil, List.nil_append] at h
    obtain ⟨_, _, hf⟩ := eachUls_later later _ r 0 h
    intro a ha
    obtain ⟨t, ht, hn⟩ := forall₂_mem_left hf a ha
    obtain ⟨li, hli, hr⟩ := forall₂_mem_left (parseItems_forall₂ _ _ h1) t ht
    exact ⟨li, hli, by rw [hn.1, scrapingResourceList_name li t hr]⟩

/-- A list after the first whose preceding text is the name of no item of the
first list can be left out of the lists that `Each` visits. -/
theorem eachUls_skip (xs ys : Selection) (l : Loc) (ret0 : TfResource)
    (hnil : ret0.Args = []) (hx : xs ≠ [])
    (hun : ∀ li ∈ Selection.Children (xs.take 1),
      (Selection.Find [li] aCode).Text ≠ ownerText l) :
    eachUls ret0 0 (xs ++ l :: ys) = eachUls ret0 0 (xs ++ ys) := by
  cases xs with
  | nil => exact absurd rfl hx
  | cons first later =>
    rw [eachUls_append, eachUls_append]
    cases h : eachUls ret0 0 (first :: later) with
    | error e => rfl
    | ok r =>
      have hnames := eachUls_names first later ret0 r hnil h
      have hu : ∀ a ∈ r.Args, a.Name ≠ ownerText l := by
        intro a ha
        obtain ⟨li, hli, hn⟩ := hnames a ha
        rw [hn]
        exact hun li hli
      simp only [List.length_cons, Nat.zero_add]
      simp only [eachUls, eachUl_unmatched r later.length l hu]
      exact eachUls_later_index ys r _ _

theorem map_eq_append_cons {α β : Type} (f : α → β) :
    ∀ (ls : List α) (xs : List β) (v : β) (ys : List β), ls.map f = xs ++ v :: ys →
      ∃ l1 l l2, ls = l1 ++ l :: l2 ∧ l1.map f = xs ∧ f l = v ∧ l2.map f = ys := by
  intro ls xs
  induction xs generalizing ls with
  | nil =>
    intro v ys h
    cases ls with
    | nil => simp at h
    | cons l ls =>
      simp only [List.map_cons, List.nil_append, List.cons.injEq] at h
      exact ⟨[], l, ls, rfl, rfl, h.1, h.2⟩
  | cons x xs ih =>
    intro v ys h
    cases ls with
    | nil => simp at h
    | cons l ls =>
      simp only [List.map_cons, List.cons_append, List.cons.injEq] at h
      obtain ⟨l1, m, l2, e1, e2, e3, e4⟩ := ih ls v ys h.2
      exact ⟨l :: l1, m, l2, by rw [e1]; rfl, by simp [h.1, e2], e3, e4⟩

/-- The lists of the page without `L` give the same record as the lists of the
page, when their views are those of the page with the view of `L` left out. -/
theorem eachUls_dropped (ls ls' : Selection) (L : Loc) (next : Option Node)
    (X : List (Option Node × Node)) (ret0 : TfResource)
    (hnil : ret0.Args = [])
    (hd : Dropped "ul" L next X (ls.map view) (ls'.map view))
    (hX : X ≠ [])
    (hun : ∀ li ∈ Selection.Children (ls.take 1),
      (Selection.Find [li] aCode).Text ≠ ownerText L)
    (hnext : ∀ n ∈ next, isTag "ul" n = false) :
    eachUls ret0 0 ls' = eachUls ret0 0 ls := by
  obtain ⟨m, ys, h1, h2, _, h4⟩ := hd
  have h5 := h4 hnext
  rcases h2 with hm | ⟨hm, _⟩
  · subst hm
    apply eachUls_view
    rw [h5, h1]
    simp
  · subst hm
    rw [List.append_assoc, List.singleton_append] at h1
    obtain ⟨l1, l, l2, e1, e2, e3, e4⟩ := map_eq_append_cons view ls X (view L) ys h1
    subst e1
    have hx : l1 ≠ [] := by
      intro hl
      subst hl
      exact hX e2.symm
    have htake : (l1 ++ l :: l2).take 1 = l1.take 1 := by
      cases l1 with
      | nil => exact absurd rfl hx
      | cons a as => rfl
    rw [htake] at hun
    have ho : ownerText l = ownerText L := ownerText_view l L (congrArg Prod.fst e3)
    rw [eachUls_skip l1 l2 l ret0 hnil hx (by rw [ho]; exact hun)]
    apply eachUls_view
    rw [h5, List.map_append, e2, e4]

theorem scrapeTfResource_eq {β : Type} (parse : β → Except String Node) (name : String)
    (res : Response β) (root : Node) (hp : parse res.Body = .ok root) :
    scrapeTfResource parse name res =
      eachUls
        { Name := name,
          Description :=
            strings.Replace (strings.TrimSpace (((document root).Find innerP).First.Text))
              "\n" "" (-1),
          Args := [] } 0 ((document root).Find innerUl) := by
  unfold scrapeTfResource
  rw [hp]
  rfl

theorem nodes_eq_view (s : Selection) : nodes s = (s.map view).map Prod.snd := by
  simp [nodes, view]

theorem first_text_nodes (s1 s2 : Selection) (h : nodes s1 = nodes s2) :
    s1.First.Text = s2.First.Text := by
  apply text_nodes
  simp only [Selection.First, nodes, List.map_take] at h ⊢
  rw [h]

theorem isTag_ul_not_p (n : Node) (h : isTag "ul" n = true) : isTag "p" n = false := by
  simp only [isTag, Bool.and_eq_true, decide_eq_true_eq] at h
  simp [isTag, h.2]

/-- The scraper reads the same from a page and from the page without the
subtree `L`, a list that is not the first, that no item of the first list
names, that no other list directly follows, and that lies in a content region
which neither holds nor is held by another content region. -/
theorem scrape_dropAt {β : Type} (parse : β → Except String Node) (name : String)
    (res res' : Response β) (root : Node) (path : List Nat) (L : Loc)
    (hp : parse res.Body = .ok root) (hp' : parse res'.Body = .ok (dropAt path root))
    (hL : locAt path [] root = some L)
    (hul : innerUl.Match L.anc L.node = true)
    (hfirst : (document (takeAt path root)).Find innerUl ≠ [])
    (hun : ∀ li ∈ ((document root).Find innerUl).First.Children,
      (Selection.Find [li] aCode).Text ≠ ownerText L)
    (hnext : ∀ n ∈ nextNode (afterAt path root), isTag "ul" n = false)
    (houter : ∀ a ∈ L.anc.tail, isRegion a = false)
    (hinner : hasRegion L.node = false) :
    scrapeTfResource parse name res' = scrapeTfResource parse name res := by
  rw [scrapeTfResource_eq parse name res root hp,
    scrapeTfResource_eq parse name res' (dropAt path root) hp']
  have hm := match_child_id_tag "ul" L.anc L.node
  have hul' : (Selector.child (.id "inner") (.tag "ul")).Match L.anc L.node = true := hul
  rw [hm, Bool.and_eq_true] at hul'
  obtain ⟨htag, hin⟩ := hul'
  -- the paragraphs
  have hP : Dropped "p" L (nextNode (afterAt path root))
      (scanList (isTag "p") true (isRegion root) none (takeAt path root).children)
      (((document root).Find innerP).map view)
      (((document (dropAt path root)).Find innerP).map view) := by
    have h := scanList_dropAt "p" path true root [] L hL hin houter hinner
    have e1 := find_document_view "p" root
    have e2 := find_document_view "p" (dropAt path root)
    rw [dropAt_isRegion] at e2
    show Dropped "p" L _ _ (((document root).Find (.child (.id "inner") (.tag "p"))).map view)
      (((document (dropAt path root)).Find (.child (.id "inner") (.tag "p"))).map view)
    rw [e1, e2]
    exact h
  have hdesc : ((document (dropAt path root)).Find innerP).First.Text =
      ((document root).Find innerP).First.Text := by
    apply first_text_nodes
    obtain ⟨m, ys, h1, h2, h3, _⟩ := hP
    rw [nodes_eq_view, nodes_eq_view]
    rcases h2 with hm | ⟨_, hm⟩
    · subst hm
      rw [h3, h1]
      simp
    · rw [isTag_ul_not_p L.node htag] at hm
      exact absurd hm (by simp)
  rw [hdesc]
  -- the lists
  have hU : Dropped "ul" L (nextNode (afterAt path root))
      (((document (takeAt path root)).Find innerUl).map view)
      (((document root).Find innerUl).map view)
      (((document (dropAt path root)).Find innerUl).map view) := by
    have h := scanList_dropAt "ul" path true root [] L hL hin houter hinner
    have e0 := find_document_view "ul" (takeAt path root)
    have e1 := find_document_view "ul" root
    have e2 := find_document_view "ul" (dropAt path root)
    rw [dropAt_isRegion] at e2
    rw [takeAt_isRegion] at e0
    show Dropped "ul" L _
      (((document (takeAt path root)).Find (.child (.id "inner") (.tag "ul"))).map view)
      (((document root).Find (.child (.id "inner") (.tag "ul"))).map view)
      (((document (dropAt path root)).Find (.child (.id "inner") (.tag "ul"))).map view)
    rw [e0, e1, e2]
    exact h
  exact eachUls_dropped ((document root).Find innerUl)
    ((document (dropAt path root)).Find innerUl) L _ _ _ rfl hU
    (by simpa using hfirst) hun hnext

/-- The text of a list item has no third piece, when split on `" "` into four
pieces at most, exactly when it has fewer than two spaces. -/
theorem spaced_none (s : String) :
    (strings.SplitN s " " 4)[2]? = none ↔ s.data.count ' ' < 2 := by
  have hl : (strings.SplitN s " " 4).length = min 3 (s.data.count ' ') + 1 :=
    strings.splitN_single_length s ' ' 4 (by decide)
  rw [List.getElem?_eq_none_iff, hl]
  omega

/-- The text of a list item has no second piece, when split on `"-"` into two
pieces at most, exactly when it has no dash. -/
theorem dashed_none (s : String) :
    (strings.SplitN s "-" 2)[1]? = none ↔ '-' ∉ s.data := by
  have hl : (strings.SplitN s "-" 2).length = min 1 (s.data.count '-') + 1 :=
    strings.splitN_single_length s '-' 2 (by decide)
  rw [List.getElem?_eq_none_iff, hl]
  constructor
  · intro h hc
    have : 0 < s.data.count '-' := List.count_pos_iff.2 hc
    omega
  · intro h
    rw [List.count_eq_zero.2 h]
    simp

/-- The item rule either fails on one of its two indexings or yields the
record built from the pieces. -/
theorem scrapingResourceList_cases (li : Loc) :
    (∃ d t, (strings.SplitN (Selection.Text [li]) "-" 2)[1]? = some d ∧
        (strings.SplitN (Selection.Text [li]) " " 4)[2]? = some t ∧
        scrapingResourceList li =
          .ok { Name := (Selection.Find [li] aCode).Text,
                Description := strings.Replace (strings.TrimSpace d) "\n" "" (-1),
                Required := strings.Contains t "Required", NestedField := [] }) ∨
      (((strings.SplitN (Selection.Text [li]) "-" 2)[1]? = none ∨
          (strings.SplitN (Selection.Text [li]) " " 4)[2]? = none) ∧
        ∃ e, IsPanic e ∧ scrapingResourceList li = .error e) := by
  unfold scrapingResourceList
  dsimp only
  cases hd : (strings.SplitN (Selection.Text [li]) "-" 2)[1]? with
  | none => exact Or.inr ⟨Or.inl rfl, _, ⟨1, _, rfl⟩, rfl⟩
  | some d =>
    cases ht : (strings.SplitN (Selection.Text [li]) " " 4)[2]? with
    | none => exact Or.inr ⟨Or.inr rfl, _, ⟨2, _, rfl⟩, rfl⟩
    | some t => exact Or.inl ⟨d, t, rfl, rfl, rfl⟩

mutual
theorem matchAll_match (sel : Selector) (anc before : List Node) :
    ∀ n : Node, ∀ l ∈ matchAll sel anc before n, sel.Match l.anc l.node = true
  | .mk t d a cs => by
    intro l hl
    simp only [matchAll, List.mem_append] at hl
    rcases hl with hl | hl
    · split at hl
      · rename_i hm
        simp only [List.mem_singleton] at hl
        subst hl
        exact hm
      · simp at hl
    · exact matchAllList_match sel (.mk t d a cs :: anc) [] cs l hl
theorem matchAllList_match (sel : Selector) (anc before : List Node) :
    ∀ cs : List Node, ∀ l ∈ matchAllList sel anc before cs, sel.Match l.anc l.node = true
  | [] => by intro l hl; simp [matchAllList] at hl
  | c :: cs => by
    intro l hl
    simp only [matchAllList, List.mem_append] at hl
    rcases hl with hl | hl
    · exact matchAll_match sel anc before c l hl
    · exact matchAllList_match sel anc (c :: before) cs l hl
end

theorem findChildren_match (sel : Selector) (anc : List Node) (cs : List Node) :
    ∀ before : List Node, ∀ l ∈ findChildren sel anc before cs,
      sel.Match l.anc l.node = true := by
  induction cs with
  | nil => intro before l hl; simp [findChildren] at hl
  | cons c cs ih =>
    intro before l hl
    simp only [findChildren, List.mem_append] at hl
    rcases hl with hl | hl
    · split at hl
      · exact matchAll_match sel anc before c l hl
      · simp at hl
    · exact ih (c :: before) l hl

/-- Every node that `Find` returns is matched by the selector. -/
theorem find_match (sel : Selector) (s : Selection) :
    ∀ l ∈ s.Find sel, sel.Match l.anc l.node = true := by
  intro l hl
  simp only [Selection.Find, List.mem_flatMap] at hl
  obtain ⟨x, _, hx⟩ := hl
  exact findChildren_match sel _ _ _ l hx

/-- What `a > code` matches: a `code` element whose parent is an `a`
element. -/
theorem aCode_match (anc : List Node) (n : Node) (h : aCode.Match anc n = true) :
    isTag "code" n = true ∧ ∃ p rest, anc = p :: rest ∧ isTag "a" p = true := by
  cases anc with
  | nil => simp [aCode, Selector.Match] at h
  | cons p rest =>
    simp only [aCode, Selector.Match, Bool.and_eq_true] at h
    exact ⟨by simpa [isTag] using h.1, p, rest, rfl, by simpa [isTag] using h.2⟩

theorem appendResources_eq (items : Selection) : ∀ ret : TfProvider,
    appendResources ret items =
      TfProvider.mk ret.Name
        (ret.ResourceList ++ items.map (fun li => strings.TrimSpace (Selection.Text [li]))) := by
  induction items with
  | nil => intro ret; cases ret; simp [appendResources]
  | cons li lis ih =>
    intro ret
    simp only [appendResources, ih, List.map_cons, List.append_assoc, List.singleton_append]

/-- The sections of the sidebar, one after the other: a section whose text has
none of the three markers adds the trimmed texts of its items. -/
theorem foldl_eachSection (secs : Selection) : ∀ ret : TfProvider,
    secs.foldl eachSection ret =
      TfProvider.mk ret.Name
        (ret.ResourceList ++
          (secs.filter (fun c =>
            !(strings.Contains (Selection.Text [c]) "Guides" ||
              strings.Contains (Selection.Text [c]) "Data Sources" ||
              strings.Contains (Selection.Text [c]) "Provider"))).flatMap
            (fun c => (Selection.Find [c] navVisibleLi).map
              (fun li => strings.TrimSpace (Selection.Text [li])))) := by
  induction secs with
  | nil => intro ret; cases ret; simp
  | cons c cs ih =>
    intro ret
    simp only [List.foldl_cons, ih, eachSection]
    by_cases hk : (!(strings.Contains (Selection.Text [c]) "Guides" ||
        strings.Contains (Selection.Text [c]) "Data Sources" ||
        strings.Contains (Selection.Text [c]) "Provider")) = true
    · simp only [hk, if_true, appendResources_eq, List.filter_cons_of_pos, List.flatMap_cons,
        List.append_assoc]
    · simp only [hk, if_false, List.filter_cons_of_neg, not_false_eq_true]
      simp [List.filter, hk]

mutual
theorem matchAll_noSidenav (anc before : List Node) :
    ∀ n : Node, hasSidenav n = false → matchAll docsSidenav anc before n = []
  | .mk t d a cs => by
    intro h
    simp only [hasSidenav, Bool.or_eq_false_iff] at h
    have hm : docsSidenav.Match anc (.mk t d a cs) = false := h.1
    simp only [matchAll, hm, Bool.false_eq_true, if_false, List.nil_append]
    exact matchAllList_noSidenav _ _ cs h.2
theorem matchAllList_noSidenav (anc before : List Node) :
    ∀ cs : List Node, hasSidenavList cs = false → matchAllList docsSidenav anc before cs = []
  | [] => fun _ => rfl
  | c :: cs => by
    intro h
    simp only [hasSidenavList, Bool.or_eq_false_iff] at h
    simp only [matchAllList, matchAll_noSidenav anc before c h.1,
      matchAllList_noSidenav anc (c :: before) cs h.2, List.append_nil]
end

theorem findChildren_noSidenav (anc : List Node) (cs : List Node) :
    ∀ before : List Node, hasSidenavList cs = false →
      findChildren docsSidenav anc before cs = [] := by
  induction cs with
  | nil => intro _ _; rfl
  | cons c cs ih =>
    intro before h
    simp only [hasSidenavList, Bool.or_eq_false_iff] at h
    simp only [findChildren, matchAll_noSidenav anc before c h.1, ih (c :: before) h.2]
    simp

theorem find_noSidenav (root : Node) (h : hasSidenav root = false) :
    (document root).Find docsSidenav = [] := by
  cases root with
  | mk t d a cs =>
    simp only [hasSidenav, Bool.or_eq_false_iff] at h
    simp only [document, Selection.Find, List.flatMap_cons, List.flatMap_nil, List.append_nil]
    exact findChildren_noSidenav _ cs [] h.2

theorem scanList_top_noRegion (tg : String) (cs : List Node) :
    ∀ p : Option Node, hasRegionList cs = false → scanList (isTag tg) true false p cs = [] := by
  induction cs with
  | nil => intro _ _; rfl
  | cons c cs ih =>
    intro p h
    simp only [hasRegionList, Bool.or_eq_false_iff] at h
    rw [scanList_cons, scan_noRegion tg p c h.1, ih _ h.2]
    simp

theorem find_noRegion (tg : String) (root : Node) (h : hasRegion root = false) :
    (document root).Find (.child (.id "inner") (.tag tg)) = [] := by
  have hv := find_document_view tg root
  obtain ⟨hr, hl⟩ := hasRegion_false root h
  rw [hr, scanList_top_noRegion tg _ none hl] at hv
  exact List.map_eq_nil_iff.1 hv

theorem forall₂_mem_right {α β : Type} {R : α → β → Prop} {l1 : List α} {l2 : List β}
    (h : List.Forall₂ R l1 l2) : ∀ b ∈ l2, ∃ a ∈ l1, R a b := by
  induction h with
  | nil => intro b hb; simp at hb
  | @cons x y xs ys hxy _ ih =>
    intro b hb
    rcases List.mem_cons.1 hb with e | e
    · subst e; exact ⟨x, by simp, hxy⟩
    · obtain ⟨a, ha, hr⟩ := ih b e
      exact ⟨a, by simp [ha], hr⟩

/-- The record after the lists has the name and the description of the record
before them. -/
theorem eachUls_frame (ls : Selection) (ret0 ret : TfResource)
    (h : eachUls ret0 0 ls = .ok ret) :
    ret.Name = ret0.Name ∧ ret.Description = ret0.Description := by
  cases ls with
  | nil =>
    simp only [eachUls, Except.ok.injEq] at h
    subst h
    exact ⟨rfl, rfl⟩
  | cons first later =>
    simp only [eachUls, eachUl, if_true, appendArgs_eq] at h
    cases h1 : parseItems (Selection.Children [first]) with
    | error e => simp [h1] at h
    | ok tops =>
      simp only [h1] at h
      obtain ⟨hn, hd, _⟩ := eachUls_later later _ ret 0 h
      exact ⟨hn, hd⟩

theorem scrapingResourceList_error (li : Loc) (e : Failure)
    (h : scrapingResourceList li = .error e) : IsPanic e := by
  rcases scrapingResourceList_cases li with ⟨d, t, _, _, hr⟩ | ⟨_, e', he, hr⟩
  · rw [hr] at h
    simp at h
  · rw [hr] at h
    simp only [Except.error.injEq] at h
    subst h
    exact he

theorem parseItems_error (items : Selection) (e : Failure)
    (h : parseItems items = .error e) : IsPanic e := by
  induction items with
  | nil => simp [parseItems] at h
  | cons li lis ih =>
    simp only [parseItems] at h
    cases h1 : scrapingResourceList li with
    | error e1 =>
      simp only [h1, Except.error.injEq] at h
      subst h
      exact scrapingResourceList_error li e1 h1
    | ok a =>
      cases h2 : parseItems lis with
      | error e2 =>
        simp only [h1, h2, Except.error.injEq] at h
        subst h
        exact ih h2
      | ok as => simp [h1, h2] at h

/-- An item that the rule cannot parse makes the parsing of the items fail. -/
theorem parseItems_of_failing (items : Selection) (li : Loc) (hli : li ∈ items)
    (hf : ¬ ∃ a, scrapingResourceList li = .ok a) :
    ∃ e, IsPanic e ∧ parseItems items = .error e := by
  cases h : parseItems items with
  | error e => exact ⟨e, parseItems_error items e h, rfl⟩
  | ok as =>
    obtain ⟨a, _, ha⟩ := forall₂_mem_right (parseItems_forall₂ items as h) li hli
    exact absurd ⟨a, ha⟩ hf

theorem rangeArgs_error (f : String) (items : Selection) :
    ∀ (args : List tfResourceArg) (e : Failure), rangeArgs f items args = .error e →
      IsPanic e := by
  intro args
  induction args with
  | nil => intro e h; simp [rangeArgs] at h
  | cons a rest ih =>
    intro e h
    simp only [rangeArgs, appendNested_eq] at h
    cases h1 : parseItems items with
    | error e1 =>
      have hp := parseItems_error items e1 h1
      cases h2 : rangeArgs f items rest with
      | error e2 =>
        have hp2 := ih e2 h2
        split at h
        · simp only [h1, Except.error.injEq] at h
          subst h
          exact hp
        · simp only [h2, Except.error.injEq] at h
          subst h
          exact hp2
      | ok rest' =>
        split at h
        · simp only [h1, Except.error.injEq] at h
          subst h
          exact hp
        · simp [h2] at h
    | ok as =>
      cases h2 : rangeArgs f items rest with
      | error e2 =>
        have hp2 := ih e2 h2
        split at h
        · simp only [h1, h2, Except.error.injEq] at h
          subst h
          exact hp2
        · simp only [h2, Except.error.injEq] at h
          subst h
          exact hp2
      | ok rest' =>
        split at h
        · simp [h1, h2] at h
        · simp [h2] at h

theorem eachUl_error (ret : TfResource) (i : Nat) (l : Loc) (e : Failure)
    (h : eachUl ret i l = .error e) : IsPanic e := by
  unfold eachUl at h
  split at h
  · rw [appendArgs_eq] at h
    cases h1 : parseItems (Selection.Children [l]) with
    | error e1 =>
      simp only [h1, Except.error.injEq] at h
      subst h
      exact parseItems_error _ e1 h1
    | ok as => simp [h1] at h
  · dsimp only at h
    cases h1 : rangeArgs ((Selection.Prev [l]).Find codeStrong).Text
        (Selection.Children [l]) ret.Args with
    | error e1 =>
      simp only [h1, Except.error.injEq] at h
      subst h
      exact rangeArgs_error _ _ _ e1 h1
    | ok args => simp [h1] at h

/-- The only error of the loop over the lists is the panic of the item rule. -/
theorem eachUls_error (ls : Selection) : ∀ (ret : TfResource) (i : Nat) (e : Failure),
    eachUls ret i ls = .error e → IsPanic e := by
  induction ls with
  | nil => intro ret i e h; simp [eachUls] at h
  | cons l ls ih =>
    intro ret i e h
    simp only [eachUls] at h
    cases h1 : eachUl ret i l with
    | error e1 =>
      simp only [h1, Except.error.injEq] at h
      subst h
      exact eachUl_error ret i l e1 h1
    | ok r =>
      simp only [h1] at h
      exact ih r (i + 1) e h

/-- When the parser succeeds, an extraction without record ended in the panic
of the item rule. -/
theorem scrapeTfResource_panic {β : Type} (parse : β → Except String Node) (name : String)
    (res : Response β) (root : Node) (hp : parse res.Body = .ok root)
    (h : ¬ ∃ ret, scrapeTfResource parse name res = .ok ret) :
    ∃ e, IsPanic e ∧ scrapeTfResource parse name res = .error e := by
  cases hs : scrapeTfResource parse name res with
  | ok ret => exact absurd ⟨ret, hs⟩ h
  | error e =>
    refine ⟨e, ?_, rfl⟩
    rw [scrapeTfResource_eq parse name res root hp] at hs
    exact eachUls_error _ _ _ e hs

/-- An item of the first list, or of a later list whose preceding text is read
as the name of an item of the first list, is parsed by every extraction that
returns a record. -/
theorem scrapeTfResource_parses {β : Type} (parse : β → Except String Node) (name : String)
    (res : Response β) (root : Node) (ret : TfResource) (li : Loc)
    (hp : parse res.Body = .ok root) (h : scrapeTfResource parse name res = .ok ret)
    (hli : li ∈ ((document root).Find innerUl).First.Children ∨
      ∃ l ∈ ((document root).Find innerUl).drop 1, li ∈ Selection.Children [l] ∧
        ∃ top ∈ ((document root).Find innerUl).First.Children,
          (Selection.Find [top] aCode).Text = ownerText l) :
    ∃ a, scrapingResourceList li = .ok a := by
  obtain ⟨tops, ht, hf⟩ := scrapeTfResource_ok parse name res root ret hp h
  have hft := parseItems_forall₂ _ _ ht
  rcases hli with hli | ⟨l, hl, hmem, top, htop, hname⟩
  · obtain ⟨a, _, ha⟩ := forall₂_mem_right hft li hli
    exact ⟨a, ha⟩
  · obtain ⟨t, htm, hrt⟩ := forall₂_mem_right hft top htop
    obtain ⟨a, _, _, _, _, ns, hns, _⟩ := forall₂_mem_right hf t htm
    have htn : t.Name = ownerText l := by
      rw [scrapingResourceList_name top t hrt, hname]
    have hlf : l ∈ (((document root).Find innerUl).drop 1).filter
        (fun x => ownerText x = t.Name) :=
      List.mem_filter.2 ⟨hl, by simp [htn]⟩
    have hin : li ∈ Selection.Children ((((document root).Find innerUl).drop 1).filter
        (fun x => ownerText x = t.Name)) := by
      simp only [Selection.Children, List.mem_flatMap] at hmem ⊢
      obtain ⟨x, hx, hxl⟩ := hmem
      simp only [List.mem_singleton] at hx
      subst hx
      exact ⟨x, hlf, hxl⟩
    obtain ⟨n, _, hn⟩ := forall₂_mem_right (parseItems_forall₂ _ _ hns) li hin
    exact ⟨n, hn⟩

theorem scrapingResourceList_no_newline (li : Loc) (a : tfResourceArg)
    (h : scrapingResourceList li = .ok a) : '\n' ∉ a.Description.data := by
  rcases scrapingResourceList_cases li with ⟨d, t, _, _, hr⟩ | ⟨_, e, _, hr⟩
  · rw [hr] at h
    simp only [Except.ok.injEq] at h
    subst h
    exact strings.replace_no_newline _
  · rw [hr] at h
    simp at h

/-- The description of an item whose text is valid UTF-8 is normalised. -/
theorem scrapingResourceList_normalised (li : Loc) (a : tfResourceArg)
    (h : scrapingResourceList li = .ok a)
    (hv : utf8.ValidString (Selection.Text [li]).data = true) :
    Normalised a.Description ∧ strings.TrimSpace a.Description = a.Description := by
  obtain ⟨chs, hE, hs⟩ := utf8.validString_encodings _ _ (Nat.le_refl _) hv
  rcases scrapingResourceList_cases li with ⟨d, t, hd, _, hr⟩ | ⟨_, e, _, hr⟩
  · rw [hr] at h
    simp only [Except.ok.injEq] at h
    subst h
    obtain ⟨chs2, hE2, hs2⟩ := strings.splitN_dash_encodings _ d chs hE hs hd
    obtain ⟨h1, h2, h3⟩ := strings.replace_trim_normal d chs2 hE2 hs2
    exact ⟨⟨strings.replace_no_newline _, h1, h2⟩, h3⟩
  · rw [hr] at h
    simp at h

theorem parseItems_no_newline (items : Selection) (as : List tfResourceArg)
    (h : parseItems items = .ok as) : ∀ a ∈ as, '\n' ∉ a.Description.data := by
  intro a ha
  obtain ⟨li, _, hr⟩ := forall₂_mem_left (parseItems_forall₂ items as h) a ha
  exact scrapingResourceList_no_newline li a hr

theorem parseItems_normalised (items : Selection) (as : List tfResourceArg)
    (h : parseItems items = .ok as)
    (hv : ∀ li ∈ items, utf8.ValidString (Selection.Text [li]).data = true) :
    ∀ a ∈ as, Normalised a.Description ∧ strings.TrimSpace a.Description = a.Description := by
  intro a ha
  obtain ⟨li, hli, hr⟩ := forall₂_mem_left (parseItems_forall₂ items as h) a ha
  exact scrapingResourceList_normalised li a hr (hv li hli)

theorem mem_children (s : Selection) (li : Loc) (h : li ∈ Selection.Children s) :
    ∃ l ∈ s, li ∈ Selection.Children [l] := by
  simp only [Selection.Children, List.mem_flatMap] at h ⊢
  obtain ⟨l, hl, hli⟩ := h
  exact ⟨l, hl, l, by simp, hli⟩

/-! ## The claims -/

/-- C1: for a resource name with at least one `_`, the URL that `NewScraper`
builds (the one it requests, and the one the returned scraper carries) is
`https://www.terraform.io/docs/providers/<p>/r/<r>.html`, where `p` is the
part of the name before its first `_` (`p` has no `_`) and `r` all that
follows it (`p ++ "_" ++ r` is the name). -/
theorem C1_resource_url {β : Type} (get : Fetch β) (name : String)
    (h : '_' ∈ name.data) :
    ∃ p r : String, p ++ "_" ++ r = name ∧ '_' ∉ p.data ∧
      (NewScraper get "resource" name).2 =
        ["https://www.terraform.io/docs/providers/" ++ p ++ "/r/" ++ r ++ ".html"] ∧
      ∀ s, (NewScraper get "resource" name).1 = .ok s →
        s.URL = "https://www.terraform.io/docs/providers/" ++ p ++ "/r/" ++ r ++ ".html" := by
  obtain ⟨p, r, hpr, hp, hn⟩ := newScraper_resource get name h
  refine ⟨p, r, hpr, hp, ?_, ?_⟩
  · rw [hn]
    unfold afterBuild
    split
    · rfl
    · split <;> rfl
  · intro s hs
    rw [hn] at hs
    unfold afterBuild at hs
    split at hs
    · simp at hs
    · split at hs
      · simp at hs
      · simp at hs
        rw [← hs]

/-- C1 at the name `aws_lambda_function`. -/
theorem C1_resource_url_witness :
    '_' ∈ "aws_lambda_function".data ∧
    ∃ p r : String, p ++ "_" ++ r = "aws_lambda_function" ∧ '_' ∉ p.data ∧
      (NewScraper fetchOk "resource" "aws_lambda_function").2 =
        ["https://www.terraform.io/docs/providers/" ++ p ++ "/r/" ++ r ++ ".html"] ∧
      ∀ s, (NewScraper fetchOk "resource" "aws_lambda_function").1 = .ok s →
        s.URL = "https://www.terraform.io/docs/providers/" ++ p ++ "/r/" ++ r ++ ".html" :=
  ⟨by decide, C1_resource_url fetchOk "aws_lambda_function" (by decide)⟩

/-- The example of the specification: `aws_lambda_function` splits into `aws`
and `lambda_function`. -/
theorem newScraper_aws_lambda_function :
    NewScraper fetchOk "resource" "aws_lambda_function" =
      (.ok ⟨"aws_lambda_function", "resource",
          "https://www.terraform.io/docs/providers/aws/r/lambda_function.html"⟩,
        ["https://www.terraform.io/docs/providers/aws/r/lambda_function.html"]) := by
  rfl

/-- C2: for a name without `_`, `NewScraper "resource"` fails with the error
`resource "<name>" is invalid` and requests nothing, whatever the fetch
capability is. -/
theorem C2_resource_invalid_name {β : Type} (get : Fetch β) (name : String)
    (h : '_' ∉ name.data) :
    NewScraper get "resource" name =
      (.error (.error ("resource \"" ++ name ++ "\" is invalid")), []) := by
  have hc : strings.Contains name "_" = false := by
    cases hcc : strings.Contains name "_" with
    | false => rfl
    | true => exact absurd ((strings.contains_single name '_').1 hcc) h
  rw [newScraper_eq]
  have hne : ¬ ("resource" = "provider") := by decide
  simp only [TfScraper.convertDocURL, hne, if_false, if_true, hc]
  rfl

/-- C2 at the name `aws`, with a fetch capability that would answer 200. -/
theorem C2_resource_invalid_name_witness :
    '_' ∉ "aws".data ∧
    NewScraper fetchOk "resource" "aws" =
      (.error (.error ("resource \"" ++ "aws" ++ "\" is invalid")), []) :=
  ⟨by decide, C2_resource_invalid_name fetchOk "aws" (by decide)⟩

/-- C3: for kind `provider` and every name, with or without `_`, the URL
built is `https://www.terraform.io/docs/providers/<name>/index.html`: it is
the one URL requested, the scraper is returned with it exactly when the answer
has status 200, and the only error is the not-found one (the name is not
validated). -/
theorem C3_provider_url {β : Type} (get : Fetch β) (name : String) :
    (NewScraper get "provider" name).2 =
        ["https://www.terraform.io/docs/providers/" ++ name ++ "/index.html"] ∧
      ((NewScraper get "provider" name).1 =
          .ok ⟨name, "provider",
            "https://www.terraform.io/docs/providers/" ++ name ++ "/index.html"⟩ ↔
        ∃ resp, get ("https://www.terraform.io/docs/providers/" ++ name ++ "/index.html") =
          .ok resp ∧ resp.StatusCode = 200) ∧
      ((NewScraper get "provider" name).1 =
          .ok ⟨name, "provider",
            "https://www.terraform.io/docs/providers/" ++ name ++ "/index.html"⟩ ∨
        (NewScraper get "provider" name).1 =
          .error (.error ("provider \"" ++ name ++ "\" is not found"))) := by
  rw [newScraper_provider]
  unfold afterBuild
  cases hg : get ("https://www.terraform.io/docs/providers/" ++ name ++ "/index.html") with
  | error e => simp
  | ok resp =>
    by_cases hs : resp.StatusCode = 200
    · simp [hs]
    · simp [hs]

/-- C4: for a kind other than `provider` and `resource`, `NewScraper` fails
with the invalid-kind error and requests nothing. -/
theorem C4_invalid_kind {β : Type} (get : Fetch β) (kind name : String)
    (hp : kind ≠ "provider") (hr : kind ≠ "resource") :
    NewScraper get kind name =
      (.error (.error "DocType must be provider or resource"), []) := by
  rw [newScraper_eq]
  simp only [TfScraper.convertDocURL, hp, hr, if_false]

/-- C4 at the kind `Provider` (the comparison is case-sensitive). -/
theorem C4_invalid_kind_witness :
    "Provider" ≠ "provider" ∧ "Provider" ≠ "resource" ∧
    NewScraper fetchOk "Provider" "aws" =
      (.error (.error "DocType must be provider or resource"), []) :=
  ⟨by decide, by decide, C4_invalid_kind fetchOk "Provider" "aws" (by decide) (by decide)⟩

/-- C5: when `NewScraper` builds the URL `url` (it requests exactly `url`), it
succeeds if and only if the fetch of `url` returns without transport error and
with status 200; on success the scraper has the given name and kind and the
URL `url`; otherwise the error is `<kind> "<name>" is not found`. -/
theorem C5_existence_check {β : Type} (get : Fetch β) (docType name url : String)
    (hurl : (NewScraper get docType name).2 = [url]) :
    ((∃ s, (NewScraper get docType name).1 = .ok s) ↔
        ∃ resp, get url = .ok resp ∧ resp.StatusCode = 200) ∧
      (∀ s, (NewScraper get docType name).1 = .ok s →
        s = ⟨name, docType, url⟩) ∧
      ((¬ ∃ resp, get url = .ok resp ∧ resp.StatusCode = 200) →
        (NewScraper get docType name).1 =
          .error (.error (docType ++ " \"" ++ name ++ "\" is not found"))) := by
  rw [newScraper_built get docType name url hurl]
  unfold afterBuild
  cases hg : get url with
  | error e => simp
  | ok resp =>
    by_cases hs : resp.StatusCode = 200
    · simp [hs]
    · simp [hs]

/-- C5 at the resource `aws_instance`, with a fetch capability that answers
404. -/
theorem C5_existence_check_witness :
    (NewScraper fetchNotFound "resource" "aws_instance").2 =
        ["https://www.terraform.io/docs/providers/aws/r/instance.html"] ∧
    (((∃ s, (NewScraper fetchNotFound "resource" "aws_instance").1 = .ok s) ↔
        ∃ resp, fetchNotFound "https://www.terraform.io/docs/providers/aws/r/instance.html" =
          .ok resp ∧ resp.StatusCode = 200) ∧
      (∀ s, (NewScraper fetchNotFound "resource" "aws_instance").1 = .ok s →
        s = ⟨"aws_instance", "resource",
          "https://www.terraform.io/docs/providers/aws/r/instance.html"⟩) ∧
      ((¬ ∃ resp, fetchNotFound "https://www.terraform.io/docs/providers/aws/r/instance.html" =
          .ok resp ∧ resp.StatusCode = 200) →
        (NewScraper fetchNotFound "resource" "aws_instance").1 =
          .error (.error ("resource" ++ " \"" ++ "aws_instance" ++ "\" is not found")))) :=
  ⟨rfl, C5_existence_check fetchNotFound "resource" "aws_instance"
    "https://www.terraform.io/docs/providers/aws/r/instance.html" rfl⟩

/-- C6: when the content fetch of the scraper's URL fails in transport or
returns a status other than 200, `Scrape` returns an error and the nil
`TfObject`; the failure does not depend on the parser, which is not run. -/
theorem C6_scrape_fetch_failure {β : Type} (get : Fetch β) (s : TfScraper)
    (h : (∃ err, get s.URL = .error err) ∨
      ∃ res, get s.URL = .ok res ∧ res.StatusCode ≠ 200) :
    ∃ msg, ∀ parse : β → Except String Node,
      s.Scrape get parse = (.error (.error msg), [s.URL]) := by
  rcases h with ⟨err, he⟩ | ⟨res, hr, hs⟩
  · exact ⟨"URL Query error : " ++ err, fun parse => by simp only [TfScraper.Scrape, he]⟩
  · exact ⟨"Status code error : " ++ toString res.StatusCode ++ " " ++ res.Status,
      fun parse => by simp only [TfScraper.Scrape, hr, hs, ne_eq, not_false_eq_true, if_true]⟩

/-- C6 at a scraper of `aws_instance` whose content fetch answers 404. -/
theorem C6_scrape_fetch_failure_witness :
    ((∃ err, fetchNotFound (TfScraper.mk "aws_instance" "resource"
          "https://www.terraform.io/docs/providers/aws/r/instance.html").URL = .error err) ∨
      ∃ res, fetchNotFound (TfScraper.mk "aws_instance" "resource"
          "https://www.terraform.io/docs/providers/aws/r/instance.html").URL = .ok res ∧
        res.StatusCode ≠ 200) ∧
    ∃ msg, ∀ parse : Unit → Except String Node,
      (TfScraper.mk "aws_instance" "resource"
          "https://www.terraform.io/docs/providers/aws/r/instance.html").Scrape
        fetchNotFound parse =
        (.error (.error msg),
          [(TfScraper.mk "aws_instance" "resource"
            "https://www.terraform.io/docs/providers/aws/r/instance.html").URL]) :=
  ⟨Or.inr ⟨⟨404, "404 Not Found", ()⟩, rfl, by decide⟩,
    C6_scrape_fetch_failure fetchNotFound _ (Or.inr ⟨⟨404, "404 Not Found", ()⟩, rfl, by decide⟩)⟩

/-- C7: the args of the extracted record are the item rule mapped over the
children of the first list found by `#inner > ul`, in item order (name,
description and required flag of each argument are those of the parsed item;
its nested fields come from the later lists): the number of args is the number
of items of the first list, whatever lists follow. -/
theorem C7_args_first_list {β : Type} (parse : β → Except String Node) (name : String)
    (res : Response β) (root : Node) (ret : TfResource)
    (hp : parse res.Body = .ok root) (h : scrapeTfResource parse name res = .ok ret) :
    List.Forall₂
        (fun a li => ∃ b, scrapingResourceList li = .ok b ∧ a.Name = b.Name ∧
          a.Description = b.Description ∧ a.Required = b.Required)
        ret.Args ((document root).Find innerUl).First.Children ∧
      ret.Args.length = ((document root).Find innerUl).First.Children.length := by
  obtain ⟨tops, ht, hf⟩ := scrapeTfResource_ok parse name res root ret hp h
  have h1 := parseItems_forall₂ _ _ ht
  have key : List.Forall₂
      (fun a li => ∃ b, scrapingResourceList li = .ok b ∧ a.Name = b.Name ∧
        a.Description = b.Description ∧ a.Required = b.Required)
      ret.Args ((document root).Find innerUl).First.Children := by
    generalize ((document root).Find innerUl).First.Children = items at h1
    generalize ret.Args = args at hf
    clear ht h hp
    induction hf generalizing items with
    | nil => cases h1; exact List.Forall₂.nil
    | @cons a t as ts hat _ ih =>
      cases h1 with
      | @cons _ li _ lis hli hrest =>
        exact List.Forall₂.cons ⟨t, hli, hat.1, hat.2.1, hat.2.2.1⟩ (ih lis hrest)
  exact ⟨key, key.length_eq⟩

/-- C7 at `samplePage`: two args, although three lists follow one another. -/
theorem C7_args_first_list_witness :
    parseTo samplePage response200.Body = .ok samplePage ∧
    scrapeTfResource (parseTo samplePage) "aws_instance" response200 = .ok sampleRecord ∧
    (List.Forall₂
        (fun a li => ∃ b, scrapingResourceList li = .ok b ∧ a.Name = b.Name ∧
          a.Description = b.Description ∧ a.Required = b.Required)
        sampleRecord.Args ((document samplePage).Find innerUl).First.Children ∧
      sampleRecord.Args.length = ((document samplePage).Find innerUl).First.Children.length) :=
  ⟨rfl, rfl, C7_args_first_list (parseTo samplePage) "aws_instance" response200
    samplePage sampleRecord rfl rfl⟩

/-- C8: for a list `l` after the first whose preceding emphasized text is the
name of the top-level argument `a`, the nested fields of `a` are the parsed
items of the earlier lists with that text, then every item of `l` parsed with
the item rule, in item order, then the parsed items of the later lists with
that text. -/
theorem C8_nested_append {β : Type} (parse : β → Except String Node) (name : String)
    (res : Response β) (root : Node) (ret : TfResource)
    (hp : parse res.Body = .ok root) (h : scrapeTfResource parse name res = .ok ret)
    (a : tfResourceArg) (ha : a ∈ ret.Args) (earlier later : Selection) (l : Loc)
    (hl : ((document root).Find innerUl).drop 1 = earlier ++ l :: later)
    (ho : ownerText l = a.Name) :
    ∃ before items after, a.NestedField = before ++ items ++ after ∧
      List.Forall₂ (fun n li => scrapingResourceList li = .ok n) before
        (Selection.Children (earlier.filter (fun x => ownerText x = a.Name))) ∧
      List.Forall₂ (fun n li => scrapingResourceList li = .ok n) items
        (Selection.Children [l]) ∧
      List.Forall₂ (fun n li => scrapingResourceList li = .ok n) after
        (Selection.Children (later.filter (fun x => ownerText x = a.Name))) := by
  have hk := nestedField_ok parse name res root ret hp h a ha
  rw [hl] at hk
  have hfl : (earlier ++ l :: later).filter (fun x => ownerText x = a.Name) =
      earlier.filter (fun x => ownerText x = a.Name) ++
        ([l] ++ later.filter (fun x => ownerText x = a.Name)) := by
    simp [List.filter_append, List.filter, ho]
  rw [hfl, children_append, children_append] at hk
  obtain ⟨b, rest, h1, h2, h3⟩ := parseItems_append_ok _ _ _ hk
  obtain ⟨m, c, h4, h5, h6⟩ := parseItems_append_ok _ _ _ h2
  refine ⟨b, m, c, ?_, parseItems_forall₂ _ _ h1, parseItems_forall₂ _ _ h4,
    parseItems_forall₂ _ _ h5⟩
  rw [h3, h6, List.append_assoc]

/-- C8 at `samplePage`: the second list is the one of `ebs`. -/
theorem C8_nested_append_witness :
    parseTo samplePage response200.Body = .ok samplePage ∧
    scrapeTfResource (parseTo samplePage) "aws_instance" response200 = .ok sampleRecord ∧
    sampleEbs ∈ sampleRecord.Args ∧
    ((document samplePage).Find innerUl).drop 1 =
      [] ++ regionChild sampleInner 3 :: [regionChild sampleInner 5] ∧
    ownerText (regionChild sampleInner 3) = sampleEbs.Name ∧
    ∃ before items after, sampleEbs.NestedField = before ++ items ++ after ∧
      List.Forall₂ (fun n li => scrapingResourceList li = .ok n) before
        (Selection.Children
          (([] : Selection).filter (fun x => ownerText x = sampleEbs.Name))) ∧
      List.Forall₂ (fun n li => scrapingResourceList li = .ok n) items
        (Selection.Children [regionChild sampleInner 3]) ∧
      List.Forall₂ (fun n li => scrapingResourceList li = .ok n) after
        (Selection.Children
          ([regionChild sampleInner 5].filter (fun x => ownerText x = sampleEbs.Name))) :=
  ⟨rfl, rfl, List.Mem.tail _ (List.Mem.head _), rfl, rfl,
    C8_nested_append (parseTo samplePage) "aws_instance" response200 samplePage sampleRecord
      rfl rfl sampleEbs (List.Mem.tail _ (List.Mem.head _)) [] [regionChild sampleInner 5]
      (regionChild sampleInner 3) rfl rfl⟩

/-- C9 (amended): a list after the first whose preceding emphasized text is
the name of no top-level argument is dropped silently: its step leaves the
record as it is and raises no error.  The record of the page is the record of
the same page without that list, provided that the element after the list, if
there is one, is no list (so that no list has the removed one as the element
before it), that the list holds no content region and that no ancestor of its
parent is a content region.  Here `L` is the list, reached along `path`; it is
not the first list: `takeAt path root`, the page cut off before `L`, has a
list; `dropAt path root` is the page without `L`. -/
theorem C9_unmatched_list_dropped {β : Type} (parse : β → Except String Node) (name : String)
    (res res' : Response β) (root : Node) (path : List Nat) (L : Loc)
    (hp : parse res.Body = .ok root) (hp' : parse res'.Body = .ok (dropAt path root))
    (hL : locAt path [] root = some L)
    (hul : innerUl.Match L.anc L.node = true)
    (hfirst : (document (takeAt path root)).Find innerUl ≠ [])
    (hun : ∀ li ∈ ((document root).Find innerUl).First.Children,
      (Selection.Find [li] aCode).Text ≠ ownerText L)
    (hnext : ∀ n ∈ nextNode (afterAt path root), isTag "ul" n = false)
    (houter : ∀ a ∈ L.anc.tail, isRegion a = false)
    (hinner : hasRegion L.node = false) :
    (∀ (ret : TfResource) (i : Nat), (∀ a ∈ ret.Args, a.Name ≠ ownerText L) →
        eachUl ret (i + 1) L = .ok ret) ∧
      scrapeTfResource parse name res' = scrapeTfResource parse name res :=
  ⟨fun ret i h => eachUl_unmatched ret i L h,
    scrape_dropAt parse name res res' root path L hp hp' hL hul hfirst hun hnext houter hinner⟩

/-- C9 at `repeatedPage`: the list of `timeouts`, the last child of the
content region, is dropped; it is equal to the first list node for node, and
is told from it by its place. -/
theorem C9_unmatched_list_dropped_witness :
    parseId (Response.mk 200 "200 OK" repeatedPage).Body = .ok repeatedPage ∧
    parseId (Response.mk 200 "200 OK" (page (repeatedInner.eraseIdx 3))).Body =
      .ok (dropAt [0, 1, 0, 3] repeatedPage) ∧
    locAt [0, 1, 0, 3] [] repeatedPage = some (regionChild repeatedInner 3) ∧
    innerUl.Match (regionChild repeatedInner 3).anc (regionChild repeatedInner 3).node = true ∧
    nodes ((document repeatedPage).Find innerUl) =
      [(regionChild repeatedInner 3).node, (regionChild repeatedInner 3).node] ∧
    nodes ((document (takeAt [0, 1, 0, 3] repeatedPage)).Find innerUl) =
      [(regionChild repeatedInner 1).node] ∧
    (∀ li ∈ ((document repeatedPage).Find innerUl).First.Children,
      (Selection.Find [li] aCode).Text ≠ ownerText (regionChild repeatedInner 3)) ∧
    nextNode (afterAt [0, 1, 0, 3] repeatedPage) = none ∧
    (∀ a ∈ (regionChild repeatedInner 3).anc.tail, isRegion a = false) ∧
    hasRegion (regionChild repeatedInner 3).node = false ∧
    scrapeTfResource parseId "aws_instance" (Response.mk 200 "200 OK" repeatedPage) =
      .ok ⟨"aws_instance", "Provides an instance.", [sampleAmi]⟩ ∧
    ((∀ (ret : TfResource) (i : Nat),
        (∀ a ∈ ret.Args, a.Name ≠ ownerText (regionChild repeatedInner 3)) →
        eachUl ret (i + 1) (regionChild repeatedInner 3) = .ok ret) ∧
      scrapeTfResource parseId "aws_instance"
          (Response.mk 200 "200 OK" (page (repeatedInner.eraseIdx 3))) =
        scrapeTfResource parseId "aws_instance" (Response.mk 200 "200 OK" repeatedPage)) :=
  ⟨rfl, rfl, rfl, rfl, rfl, rfl, by decide, rfl, by decide, rfl, rfl,
    C9_unmatched_list_dropped parseId "aws_instance" (Response.mk 200 "200 OK" repeatedPage)
      (Response.mk 200 "200 OK" (page (repeatedInner.eraseIdx 3))) repeatedPage [0, 1, 0, 3]
      (regionChild repeatedInner 3) rfl rfl rfl rfl
      (List.ne_nil_of_length_pos (by decide)) (by decide) (by decide) (by decide) rfl⟩

/-- C9 as stated fails: on `adjacentPage` the second list has the preceding
text `timeouts`, the name of no top-level argument, and yet the page without
that list gives another record: the list that followed it loses the owner
`ebs`, which it read from the items of the removed list. -/
theorem C9_counterexample :
    ((document adjacentPage).Find innerUl)[1]? = some (regionChild adjacentInner 3) ∧
    (∀ li ∈ ((document adjacentPage).Find innerUl).First.Children,
      (Selection.Find [li] aCode).Text ≠ ownerText (regionChild adjacentInner 3)) ∧
    dropAt [0, 1, 0, 3] adjacentPage = page (adjacentInner.eraseIdx 3) ∧
    nestedCounts (scrapeTfResource parseId "aws_instance"
      (Response.mk 200 "200 OK" adjacentPage)) = [0, 1] ∧
    nestedCounts (scrapeTfResource parseId "aws_instance"
      (Response.mk 200 "200 OK" (page (adjacentInner.eraseIdx 3)))) = [0, 0] ∧
    scrapeTfResource parseId "aws_instance"
        (Response.mk 200 "200 OK" (page (adjacentInner.eraseIdx 3))) ≠
      scrapeTfResource parseId "aws_instance" (Response.mk 200 "200 OK" adjacentPage) :=
  ⟨rfl, by decide, rfl, rfl, rfl,
    fun h => absurd (congrArg nestedCounts h) (by decide)⟩

/-- The condition of C9 on a content region inside the dropped list is needed:
on `innerRegionPage` the list of `timeouts` meets the other conditions, and the
page without it gives another record, because the list of `ebs` inside it is
gone too. -/
theorem dropAt_inner_region_differs :
    locAt [0, 1, 0, 3] [] innerRegionPage = some (regionChild innerRegionInner 3) ∧
    innerUl.Match (regionChild innerRegionInner 3).anc (regionChild innerRegionInner 3).node
      = true ∧
    ((document (takeAt [0, 1, 0, 3] innerRegionPage)).Find innerUl).length = 1 ∧
    (∀ li ∈ ((document innerRegionPage).Find innerUl).First.Children,
      (Selection.Find [li] aCode).Text ≠ ownerText (regionChild innerRegionInner 3)) ∧
    nextNode (afterAt [0, 1, 0, 3] innerRegionPage) = none ∧
    (∀ a ∈ (regionChild innerRegionInner 3).anc.tail, isRegion a = false) ∧
    hasRegion (regionChild innerRegionInner 3).node = true ∧
    nestedCounts (scrapeTfResource parseId "aws_instance"
      (Response.mk 200 "200 OK" innerRegionPage)) = [0, 1] ∧
    nestedCounts (scrapeTfResource parseId "aws_instance"
      (Response.mk 200 "200 OK" (dropAt [0, 1, 0, 3] innerRegionPage))) = [0, 0] :=
  ⟨rfl, rfl, rfl, by decide, rfl, by decide, rfl, rfl, rfl⟩

/-- The condition of C9 on a content region around the one of the dropped list
is needed: on `outerRegionPage` the list of `timeouts` meets the other
conditions, and the page without it gives another record, because the list
lies in an item of the first list, whose text it is part of. -/
theorem dropAt_outer_region_differs :
    (locAt [0, 1, 0, 1, 1, 2, 2] [] outerRegionPage).map (fun l => l.node) =
      some (elem "ul" [] [item "create" " - (Optional) How long"]) ∧
    (∀ L ∈ locAt [0, 1, 0, 1, 1, 2, 2] [] outerRegionPage,
      innerUl.Match L.anc L.node = true ∧
      (∀ li ∈ ((document outerRegionPage).Find innerUl).First.Children,
        (Selection.Find [li] aCode).Text ≠ ownerText L) ∧
      hasRegion L.node = false ∧
      (L.anc.tail.map isRegion) = [false, false, true, false, false, false]) ∧
    ((document (takeAt [0, 1, 0, 1, 1, 2, 2] outerRegionPage)).Find innerUl).length = 2 ∧
    nextNode (afterAt [0, 1, 0, 1, 1, 2, 2] outerRegionPage) = none ∧
    argNames (scrapeTfResource parseId "aws_instance"
      (Response.mk 200 "200 OK" outerRegionPage)) = ["ami", "ebskindcreate"] ∧
    argNames (scrapeTfResource parseId "aws_instance"
      (Response.mk 200 "200 OK" (dropAt [0, 1, 0, 1, 1, 2, 2] outerRegionPage))) =
        ["ami", "ebskind"] :=
  ⟨rfl, by decide, rfl, rfl, rfl, rfl⟩

/-- C10: a top-level argument whose name is the preceding emphasized text of
no list after the first has no nested fields. -/
theorem C10_no_owner_no_nested {β : Type} (parse : β → Except String Node) (name : String)
    (res : Response β) (root : Node) (ret : TfResource)
    (hp : parse res.Body = .ok root) (h : scrapeTfResource parse name res = .ok ret)
    (a : tfResourceArg) (ha : a ∈ ret.Args)
    (hno : ∀ l ∈ ((document root).Find innerUl).drop 1, ownerText l ≠ a.Name) :
    a.NestedField = [] := by
  have hk := nestedField_ok parse name res root ret hp h a ha
  have hfl : (((document root).Find innerUl).drop 1).filter (fun l => ownerText l = a.Name) =
      [] := by
    apply List.filter_eq_nil_iff.2
    intro l hl
    simpa using hno l hl
  rw [hfl] at hk
  simp [Selection.Children, parseItems] at hk
  exact hk

/-- C10 at `samplePage`: no list is preceded by the text `ami`. -/
theorem C10_no_owner_no_nested_witness :
    parseTo samplePage response200.Body = .ok samplePage ∧
    scrapeTfResource (parseTo samplePage) "aws_instance" response200 = .ok sampleRecord ∧
    sampleAmi ∈ sampleRecord.Args ∧
    (∀ l ∈ ((document samplePage).Find innerUl).drop 1, ownerText l ≠ sampleAmi.Name) ∧
    sampleAmi.NestedField = [] :=
  ⟨rfl, rfl, List.Mem.head _, by decide,
    C10_no_owner_no_nested (parseTo samplePage) "aws_instance" response200 samplePage
      sampleRecord rfl rfl sampleAmi (List.Mem.head _) (by decide)⟩

/-- What the item rule does for the field `Required`: a record it yields has
`Required` true exactly when the third piece of the text, split on single
spaces into four pieces at most, contains `Required`; with a dash and a third
piece in the text the rule yields a record, and without a third piece it
stops with the panic of an index out of range. -/
theorem scrapingResourceList_required (li : Loc) :
    (∀ a, scrapingResourceList li = .ok a →
        ∃ t, (strings.SplitN (Selection.Text [li]) " " 4)[2]? = some t ∧
          (a.Required = true ↔ strings.Contains t "Required" = true)) ∧
      ((strings.SplitN (Selection.Text [li]) " " 4)[2]? = none →
        ∃ e, IsPanic e ∧ scrapingResourceList li = .error e) ∧
      (∀ t, (strings.SplitN (Selection.Text [li]) " " 4)[2]? = some t →
        '-' ∈ (Selection.Text [li]).data →
        ∃ a, scrapingResourceList li = .ok a ∧
          a.Required = strings.Contains t "Required") := by
  rcases scrapingResourceList_cases li with ⟨d, t, hd, ht, hr⟩ | ⟨hn, e, he, hr⟩
  · refine ⟨?_, ?_, ?_⟩
    · intro a ha
      rw [hr] at ha
      simp only [Except.ok.injEq] at ha
      subst ha
      exact ⟨t, ht, Iff.rfl⟩
    · intro h
      rw [ht] at h
      simp at h
    · intro t' ht' _
      rw [ht] at ht'
      simp only [Option.some.injEq] at ht'
      subst ht'
      exact ⟨_, hr, rfl⟩
  · refine ⟨?_, ?_, ?_⟩
    · intro a ha
      rw [hr] at ha
      simp at ha
    · intro _
      exact ⟨e, he, hr⟩
    · intro t ht hdash
      rcases hn with hn | hn
      · exact absurd hdash ((dashed_none _).1 hn)
      · rw [hn] at ht
        simp at ht

/-- The field `Required` at the first item of `samplePage`,
`ami - (Required) The AMI`. -/
theorem scrapingResourceList_required_ami :
    scrapingResourceList (loose (item "ami" " - (Required) The AMI")) = .ok sampleAmi ∧
    (strings.SplitN (Selection.Text [loose (item "ami" " - (Required) The AMI")]) " " 4)[2]? =
      some "(Required)" ∧
    ∃ t, (strings.SplitN (Selection.Text [loose (item "ami" " - (Required) The AMI")])
        " " 4)[2]? = some t ∧
      (sampleAmi.Required = true ↔ strings.Contains t "Required" = true) :=
  ⟨rfl, rfl,
    (scrapingResourceList_required (loose (item "ami" " - (Required) The AMI"))).1 sampleAmi rfl⟩

/-- C11 fails on the code: the text `id -Identifier` of `shortItem` has a dash
and, split on single spaces, two pieces only; where the claim gives a record
with required false, the rule indexes the third piece and stops with the
panic `index out of range [2] with length 2`.  Nothing recovers the panic:
the extraction of `shortPage`, whose first list holds the item, and the call
of `Scrape` that fetches the page end with it, without a record and without a
returned error. -/
theorem C11_absent_third_token :
    '-' ∈ (Selection.Text [loose shortItem]).data ∧
    strings.SplitN (Selection.Text [loose shortItem]) " " 4 = ["id", "-Identifier"] ∧
    (strings.SplitN (Selection.Text [loose shortItem]) " " 4)[2]? = none ∧
    scrapingResourceList (loose shortItem) = .error (.indexOutOfRange 2 2) ∧
    nodes ((document shortPage).Find innerUl).First.Children =
      [item "ami" " - (Required) The AMI", shortItem] ∧
    scrapeTfResource parseId "aws_instance" (Response.mk 200 "200 OK" shortPage) =
      .error (.indexOutOfRange 2 2) ∧
    (TfScraper.Scrape (fun _ => .ok (Response.mk 200 "200 OK" shortPage)) parseId
        ⟨"aws_instance", "resource",
          "https://www.terraform.io/docs/providers/aws/r/instance.html"⟩).1 =
      .error (.indexOutOfRange 2 2) :=
  ⟨by decide, rfl, rfl, rfl, rfl, rfl, rfl⟩

/-- C12: for an item that the rule parses, the description is the text after
the first `-` of the item's text (`pre` has no `-`), trimmed and then with
every newline deleted. -/
theorem C12_description_after_first_dash (li : Loc) (a : tfResourceArg)
    (h : scrapingResourceList li = .ok a) (hd : '-' ∈ (Selection.Text [li]).data) :
    ∃ pre post : String, pre ++ "-" ++ post = Selection.Text [li] ∧ '-' ∉ pre.data ∧
      a.Description = strings.Replace (strings.TrimSpace post) "\n" "" (-1) ∧
      a.Description.data = (strings.TrimSpace post).data.filter (fun c => c != '\n') := by
  obtain ⟨pre, post, hs, hp, hpp⟩ := strings.splitN_two_single (Selection.Text [li]) '-' hd
  have hs' : strings.SplitN (Selection.Text [li]) "-" 2 = [pre, post] := hs
  refine ⟨pre, post, hpp, hp, ?_⟩
  rcases scrapingResourceList_cases li with ⟨d, t, hd', _, hr⟩ | ⟨_, e, _, hr⟩
  · rw [hs'] at hd'
    simp only [List.getElem?_cons_succ, List.getElem?_cons_zero, Option.some.injEq] at hd'
    subst hd'
    rw [hr] at h
    simp only [Except.ok.injEq] at h
    subst h
    exact ⟨rfl, by rw [strings.replace_newline]⟩
  · rw [hr] at h
    simp at h

/-- C12 at `dashedItem`: the first dash is the one inside the name
`instance-type`. -/
theorem C12_description_after_first_dash_witness :
    scrapingResourceList (loose dashedItem) =
      .ok ⟨"instance-type", "type - (Optional) The type - see the list", false, []⟩ ∧
    '-' ∈ (Selection.Text [loose dashedItem]).data ∧
    ∃ pre post : String, pre ++ "-" ++ post = Selection.Text [loose dashedItem] ∧
      '-' ∉ pre.data ∧
      (tfResourceArg.mk "instance-type" "type - (Optional) The type - see the list" false
        []).Description = strings.Replace (strings.TrimSpace post) "\n" "" (-1) ∧
      (tfResourceArg.mk "instance-type" "type - (Optional) The type - see the list" false
        []).Description.data = (strings.TrimSpace post).data.filter (fun c => c != '\n') :=
  ⟨rfl, by decide, C12_description_after_first_dash (loose dashedItem) _ rfl (by decide)⟩

/-- C13 (amended): for an item that the rule parses and in which `a > code`
finds one element at most, the name is the text of the first element that
`a > code` finds in the item, a `code` element whose parent is an `a`
element, and it is empty when there is none.  A `code` element that is not
wrapped in a link and a `strong` element are not among the elements
found. -/
theorem C13_name_linked_code (li : Loc) (a : tfResourceArg)
    (h : scrapingResourceList li = .ok a)
    (hone : (Selection.Find [li] aCode).length ≤ 1) :
    a.Name = (Selection.Find [li] aCode).First.Text ∧
      (∀ c ∈ Selection.Find [li] aCode,
        isTag "code" c.node = true ∧ ∃ p rest, c.anc = p :: rest ∧ isTag "a" p = true) ∧
      (∀ c, (Selection.Find [li] aCode).First = [c] → a.Name = nodeText c.node) ∧
      ((Selection.Find [li] aCode).First = [] → a.Name = "") := by
  have hn := scrapingResourceList_name li a h
  have hf : (Selection.Find [li] aCode).First = Selection.Find [li] aCode := by
    unfold Selection.First
    exact List.take_of_length_le hone
  rw [hf]
  refine ⟨hn, ?_, ?_, ?_⟩
  · intro c hc
    exact aCode_match c.anc c.node (find_match aCode [li] c hc)
  · intro c hc
    rw [hn, hc]
    simp [Selection.Text]
  · intro hc
    rw [hn, hc]
    rfl

/-- C13 at the first item of `samplePage`. -/
theorem C13_name_linked_code_witness :
    scrapingResourceList (loose (item "ami" " - (Required) The AMI")) = .ok sampleAmi ∧
    (Selection.Find [loose (item "ami" " - (Required) The AMI")] aCode).length = 1 ∧
    (sampleAmi.Name =
        (Selection.Find [loose (item "ami" " - (Required) The AMI")] aCode).First.Text ∧
      (∀ c ∈ Selection.Find [loose (item "ami" " - (Required) The AMI")] aCode,
        isTag "code" c.node = true ∧ ∃ p rest, c.anc = p :: rest ∧ isTag "a" p = true) ∧
      (∀ c, (Selection.Find [loose (item "ami" " - (Required) The AMI")] aCode).First = [c] →
        sampleAmi.Name = nodeText c.node) ∧
      ((Selection.Find [loose (item "ami" " - (Required) The AMI")] aCode).First = [] →
        sampleAmi.Name = "")) :=
  ⟨rfl, rfl,
    C13_name_linked_code (loose (item "ami" " - (Required) The AMI")) sampleAmi rfl
      (by decide)⟩

/-- C13 as stated fails: the first code-styled element of `plainCodeItem` has
the text `device_name` and is not wrapped in a link; the rule yields the empty
name, also in the extraction of `plainCodePage`, whose list holds the item. -/
theorem C13_counterexample :
    ((Selection.Find [loose plainCodeItem] codeStrong).First).Text = "device_name" ∧
    scrapingResourceList (loose plainCodeItem) =
      .ok ⟨"", "(Optional) The name", false, []⟩ ∧
    (tfResourceArg.mk "" "(Optional) The name" false []).Name ≠
      ((Selection.Find [loose plainCodeItem] codeStrong).First).Text ∧
    nodes ((document plainCodePage).Find innerUl).First.Children = [plainCodeItem] ∧
    argNames (scrapeTfResource parseId "aws_instance"
      (Response.mk 200 "200 OK" plainCodePage)) = [""] :=
  ⟨rfl, rfl, by decide, rfl, rfl⟩

/-- The call `li.Find("a > code")` is not followed by `First()`: in
`twoCodesItem`, where `a > code` finds two elements, the rule yields the
texts of both, one after the other. -/
theorem scrapingResourceList_twoCodes :
    nodes (Selection.Find [loose twoCodesItem] aCode) =
      [elem "code" [] [text "ami"], elem "code" [] [text "image_id"]] ∧
    ((Selection.Find [loose twoCodesItem] aCode).First).Text = "ami" ∧
    scrapingResourceList (loose twoCodesItem) =
      .ok ⟨"amiimage_id", "(Required) The AMI, see image_id", true, []⟩ :=
  ⟨rfl, rfl, rfl⟩

/-- C14: the resource names of a provider page are, for the children of the
elements that `.docs-sidenav` finds, in document order, and among them for
those whose text holds none of `Guides`, `Data Sources` and `Provider`, the
trimmed texts of the items that `.nav-visible > li` finds in the child, in
order and with duplicates; the other children add nothing. -/
theorem C14_provider_resource_names {β : Type} (parse : β → Except String Node)
    (name : String) (res : Response β) (root : Node) (hp : parse res.Body = .ok root) :
    scrapeTfProvider parse name res =
      .ok (TfProvider.mk name
        ((((document root).Find docsSidenav).Children.filter (fun c =>
            !(strings.Contains (Selection.Text [c]) "Guides" ||
              strings.Contains (Selection.Text [c]) "Data Sources" ||
              strings.Contains (Selection.Text [c]) "Provider"))).flatMap
          (fun c => (Selection.Find [c] navVisibleLi).map
            (fun li => strings.TrimSpace (Selection.Text [li]))))) := by
  unfold scrapeTfProvider
  rw [hp]
  simp only [foldl_eachSection, List.nil_append]
  rfl

/-- C14 at `providerPage`, with the sections `Guides`, `AWS Provider`,
`Data Sources` and `Resources`: only the items of `Resources` appear, trimmed
and with the duplicate. -/
theorem C14_provider_resource_names_witness :
    parseId (Response.mk 200 "200 OK" providerPage).Body = .ok providerPage ∧
    ((((document providerPage).Find docsSidenav).Children.filter (fun c =>
        !(strings.Contains (Selection.Text [c]) "Guides" ||
          strings.Contains (Selection.Text [c]) "Data Sources" ||
          strings.Contains (Selection.Text [c]) "Provider"))).flatMap
      (fun c => (Selection.Find [c] navVisibleLi).map
        (fun li => strings.TrimSpace (Selection.Text [li])))) =
      ["aws_instance", "aws_vpc", "aws_vpc"] ∧
    scrapeTfProvider parseId "aws" (Response.mk 200 "200 OK" providerPage) =
      .ok (TfProvider.mk "aws"
        ((((document providerPage).Find docsSidenav).Children.filter (fun c =>
            !(strings.Contains (Selection.Text [c]) "Guides" ||
              strings.Contains (Selection.Text [c]) "Data Sources" ||
              strings.Contains (Selection.Text [c]) "Provider"))).flatMap
          (fun c => (Selection.Find [c] navVisibleLi).map
            (fun li => strings.TrimSpace (Selection.Text [li]))))) :=
  ⟨rfl, rfl,
    C14_provider_resource_names parseId "aws" (Response.mk 200 "200 OK" providerPage)
      providerPage rfl⟩

/-- C15: for a parsed document without content region (no element with the id
`inner`) the resource extraction returns the record with the given name, the
empty description and no args; for a parsed document without sidebar region
(no element of the class `docs-sidenav`) the provider extraction returns the
record with the given name and no resource names. -/
theorem C15_absent_region {β : Type} (parse : β → Except String Node) (name : String)
    (res : Response β) (root : Node) (hp : parse res.Body = .ok root) :
    (hasRegion root = false →
        scrapeTfResource parse name res = .ok (TfResource.mk name "" [])) ∧
      (hasSidenav root = false →
        scrapeTfProvider parse name res = .ok (TfProvider.mk name [])) := by
  constructor
  · intro h
    rw [scrapeTfResource_eq parse name res root hp]
    have h1 : (document root).Find innerP = [] := find_noRegion "p" root h
    have h2 : (document root).Find innerUl = [] := find_noRegion "ul" root h
    rw [h1, h2]
    rfl
  · intro h
    unfold scrapeTfProvider
    rw [hp]
    dsimp only
    have h1 : Selection.Find [⟨[], [], root⟩] docsSidenav = [] := find_noSidenav root h
    rw [h1]
    rfl

/-- C15 at the parsed empty body. -/
theorem C15_absent_region_witness :
    parseId (Response.mk 200 "200 OK" emptyPage).Body = .ok emptyPage ∧
    hasRegion emptyPage = false ∧ hasSidenav emptyPage = false ∧
    ((hasRegion emptyPage = false →
        scrapeTfResource parseId "aws_instance" (Response.mk 200 "200 OK" emptyPage) =
          .ok (TfResource.mk "aws_instance" "" [])) ∧
      (hasSidenav emptyPage = false →
        scrapeTfProvider parseId "aws_instance" (Response.mk 200 "200 OK" emptyPage) =
          .ok (TfProvider.mk "aws_instance" []))) :=
  ⟨rfl, rfl, rfl,
    C15_absent_region parseId "aws_instance" (Response.mk 200 "200 OK" emptyPage) emptyPage rfl⟩

/-- C16: in the extracted record every argument that occurs in the nested
fields of a top-level argument has no nested fields itself. -/
theorem C16_two_levels {β : Type} (parse : β → Except String Node) (name : String)
    (res : Response β) (root : Node) (ret : TfResource)
    (hp : parse res.Body = .ok root) (h : scrapeTfResource parse name res = .ok ret) :
    ∀ a ∈ ret.Args, ∀ n ∈ a.NestedField, n.NestedField = [] := by
  intro a ha n hn
  exact parseItems_nested _ _ (nestedField_ok parse name res root ret hp h a ha) n hn

/-- C16 at `deepPage`: the last list is preceded by the text `size`, the name
of a nested argument of `ebs`, and `size` gets no nested fields. -/
theorem C16_two_levels_witness :
    parseId (Response.mk 200 "200 OK" deepPage).Body = .ok deepPage ∧
    scrapeTfResource parseId "aws_instance" (Response.mk 200 "200 OK" deepPage) =
      .ok sampleRecord ∧
    ownerText (regionChild deepInner 5) = "size" ∧
    ∀ a ∈ sampleRecord.Args, ∀ n ∈ a.NestedField, n.NestedField = [] :=
  ⟨rfl, rfl, rfl,
    C16_two_levels parseId "aws_instance" (Response.mk 200 "200 OK" deepPage) deepPage
      sampleRecord rfl rfl⟩

/-- C17: the record has the name passed in, and its description is the text
of the first element that `#inner > p` finds, a `p` element whose parent is a
content region, trimmed and then with every newline deleted; it is empty when
there is no such element. -/
theorem C17_resource_description {β : Type} (parse : β → Except String Node)
    (name : String) (res : Response β) (root : Node) (ret : TfResource)
    (hp : parse res.Body = .ok root) (h : scrapeTfResource parse name res = .ok ret) :
    ret.Name = name ∧
      ret.Description =
        strings.Replace (strings.TrimSpace ((document root).Find innerP).First.Text)
          "\n" "" (-1) ∧
      ret.Description.data =
        (strings.TrimSpace ((document root).Find innerP).First.Text).data.filter
          (fun c => c != '\n') ∧
      (∀ p rest, (document root).Find innerP = p :: rest →
        ((document root).Find innerP).First.Text = nodeText p.node) ∧
      ((document root).Find innerP = [] → ret.Description = "") ∧
      (∀ p ∈ (document root).Find innerP,
        isTag "p" p.node = true ∧ ∃ r rest, p.anc = r :: rest ∧ isRegion r = true) := by
  rw [scrapeTfResource_eq parse name res root hp] at h
  obtain ⟨hn, hd⟩ := eachUls_frame _ _ ret h
  refine ⟨hn, hd, ?_, ?_, ?_, ?_⟩
  · rw [hd, strings.replace_newline]
  · intro p rest hpr
    rw [hpr]
    simp [Selection.First, Selection.Text]
  · intro he
    rw [hd, he]
    rfl
  · intro p hpm
    have hm : (Selector.child (.id "inner") (.tag "p")).Match p.anc p.node = true :=
      find_match innerP _ p hpm
    rw [match_child_id_tag, Bool.and_eq_true] at hm
    refine ⟨hm.1, ?_⟩
    cases hanc : p.anc with
    | nil => rw [hanc] at hm; simp [insideOf] at hm
    | cons r rest =>
      rw [hanc] at hm
      exact ⟨r, rest, rfl, hm.2⟩

/-- C17 at `paragraphsPage`: the paragraph nested deeper and the later
paragraphs do not contribute. -/
theorem C17_resource_description_witness :
    parseId (Response.mk 200 "200 OK" paragraphsPage).Body = .ok paragraphsPage ∧
    scrapeTfResource parseId "aws_instance" (Response.mk 200 "200 OK" paragraphsPage) =
      .ok ⟨"aws_instance", "Provides aninstance.",
        [⟨"ami", "(Required)  The AMI", true, [⟨"owner", "(Optional) Theowner", false, []⟩]⟩]⟩ ∧
    nodes ((document paragraphsPage).Find innerP) =
      [elem "p" [] [text "\n  Provides an\ninstance.  "],
        elem "p" [] [text "Second paragraph."], blockIntro "ami"] ∧
    (TfResource.mk "aws_instance" "Provides aninstance."
        [⟨"ami", "(Required)  The AMI", true,
          [⟨"owner", "(Optional) Theowner", false, []⟩]⟩]).Description =
      strings.Replace (strings.TrimSpace ((document paragraphsPage).Find innerP).First.Text)
        "\n" "" (-1) :=
  ⟨rfl, rfl, rfl,
    (C17_resource_description parseId "aws_instance"
      (Response.mk 200 "200 OK" paragraphsPage) paragraphsPage _ rfl rfl).2.1⟩

/-- C18: the item rule yields a record exactly when the item's text has a `-`
and two spaces; for every other text it fails with the panic of an index out
of range, and when the item belongs to the first list, or to a later list
whose preceding text is read as the name of an item of the first list, the
whole extraction of the page fails with that panic and returns no record. -/
theorem C18_rule_fails_and_aborts {β : Type} (parse : β → Except String Node) (name : String)
    (res : Response β) (root : Node) (li : Loc) (hp : parse res.Body = .ok root) :
    ((∃ a, scrapingResourceList li = .ok a) ↔
        ('-' ∈ (Selection.Text [li]).data ∧ 2 ≤ (Selection.Text [li]).data.count ' ')) ∧
      ((¬ ∃ a, scrapingResourceList li = .ok a) →
        (∃ e, IsPanic e ∧ scrapingResourceList li = .error e) ∧
        ((li ∈ ((document root).Find innerUl).First.Children ∨
            ∃ l ∈ ((document root).Find innerUl).drop 1, li ∈ Selection.Children [l] ∧
              ∃ top ∈ ((document root).Find innerUl).First.Children,
                (Selection.Find [top] aCode).Text = ownerText l) →
          ∃ e, IsPanic e ∧ scrapeTfResource parse name res = .error e)) := by
  constructor
  · rcases scrapingResourceList_cases li with ⟨d, t, hd, ht, hr⟩ | ⟨hn, e, _, hr⟩
    · constructor
      · intro _
        constructor
        · by_contra hc
          rw [(dashed_none _).2 hc] at hd
          simp at hd
        · by_contra hc
          rw [(spaced_none _).2 (by omega)] at ht
          simp at ht
      · intro _
        exact ⟨_, hr⟩
    · constructor
      · rintro ⟨a, ha⟩
        rw [hr] at ha
        simp at ha
      · rintro ⟨h1, h2⟩
        rcases hn with hn | hn
        · exact absurd h1 ((dashed_none _).1 hn)
        · have := (spaced_none _).1 hn
          omega
  · intro hf
    constructor
    · cases h : scrapingResourceList li with
      | ok a => exact absurd ⟨a, h⟩ hf
      | error e => exact ⟨e, scrapingResourceList_error li e h, rfl⟩
    · intro hli
      apply scrapeTfResource_panic parse name res root hp
      rintro ⟨ret, hret⟩
      exact hf (scrapeTfResource_parses parse name res root ret li hp hret hli)

/-- C18 at `nestedShortPage`: the list of `ebs` holds the item with the text
`id -Identifier`, which has one space, and the extraction fails. -/
theorem C18_rule_fails_and_aborts_witness :
    parseId (Response.mk 200 "200 OK" nestedShortPage).Body = .ok nestedShortPage ∧
    (Selection.Text [listItem nestedShortInner 3 0]) = "id -Identifier" ∧
    (¬ ∃ a, scrapingResourceList (listItem nestedShortInner 3 0) = .ok a) ∧
    regionChild nestedShortInner 3 ∈ ((document nestedShortPage).Find innerUl).drop 1 ∧
    listItem nestedShortInner 3 0 ∈ Selection.Children [regionChild nestedShortInner 3] ∧
    listItem nestedShortInner 1 1 ∈ ((document nestedShortPage).Find innerUl).First.Children ∧
    (Selection.Find [listItem nestedShortInner 1 1] aCode).Text =
      ownerText (regionChild nestedShortInner 3) ∧
    scrapeTfResource parseId "aws_instance" (Response.mk 200 "200 OK" nestedShortPage) =
      .error (.indexOutOfRange 2 2) ∧
    ((∃ e, IsPanic e ∧ scrapingResourceList (listItem nestedShortInner 3 0) = .error e) ∧
      ((listItem nestedShortInner 3 0 ∈
            ((document nestedShortPage).Find innerUl).First.Children ∨
          ∃ l ∈ ((document nestedShortPage).Find innerUl).drop 1,
            listItem nestedShortInner 3 0 ∈ Selection.Children [l] ∧
            ∃ top ∈ ((document nestedShortPage).Find innerUl).First.Children,
              (Selection.Find [top] aCode).Text = ownerText l) →
        ∃ e, IsPanic e ∧
          scrapeTfResource parseId "aws_instance"
            (Response.mk 200 "200 OK" nestedShortPage) = .error e)) :=
  have hf : ¬ ∃ a, scrapingResourceList (listItem nestedShortInner 3 0) = .ok a :=
    fun ⟨_, ha⟩ => by cases ha
  ⟨rfl, rfl, hf, List.Mem.head _, List.Mem.head _,
    List.Mem.tail _ (List.Mem.head _), rfl, rfl,
    (C18_rule_fails_and_aborts parseId "aws_instance"
      (Response.mk 200 "200 OK" nestedShortPage) nestedShortPage
      (listItem nestedShortInner 3 0) rfl).2 hf⟩

/-- C19 (amended): in the extracted record no description has a newline; the
description of the resource is normalised, with neither its first nor its last
rune white space, when the text of the first paragraph is valid UTF-8, and the
description of every top-level and of every nested argument is normalised when
the text of every list item is valid UTF-8.  `TrimSpace` leaves a normalised
description as it is. -/
theorem C19_descriptions_normalised {β : Type} (parse : β → Except String Node)
    (name : String) (res : Response β) (root : Node) (ret : TfResource)
    (hp : parse res.Body = .ok root) (h : scrapeTfResource parse name res = .ok ret) :
    ('\n' ∉ ret.Description.data ∧
      ∀ a ∈ ret.Args, '\n' ∉ a.Description.data ∧
        ∀ n ∈ a.NestedField, '\n' ∉ n.Description.data) ∧
    (utf8.ValidString ((document root).Find innerP).First.Text.data = true →
      Normalised ret.Description ∧ strings.TrimSpace ret.Description = ret.Description) ∧
    ((∀ l ∈ (document root).Find innerUl, ∀ li ∈ Selection.Children [l],
        utf8.ValidString (Selection.Text [li]).data = true) →
      ∀ a ∈ ret.Args,
        (Normalised a.Description ∧ strings.TrimSpace a.Description = a.Description) ∧
        ∀ n ∈ a.NestedField,
          Normalised n.Description ∧ strings.TrimSpace n.Description = n.Description) := by
  have hdesc : ret.Description =
      strings.Replace (strings.TrimSpace ((document root).Find innerP).First.Text)
        "\n" "" (-1) := by
    have h' := h
    rw [scrapeTfResource_eq parse name res root hp] at h'
    rw [(eachUls_frame _ _ ret h').2]
  obtain ⟨tops, ht, hf⟩ := scrapeTfResource_ok parse name res root ret hp h
  refine ⟨⟨?_, ?_⟩, ?_, ?_⟩
  · rw [hdesc]
    exact strings.replace_no_newline _
  · intro a ha
    obtain ⟨t, htm, _, hd, _⟩ := forall₂_mem_left hf a ha
    refine ⟨?_, ?_⟩
    · rw [hd]
      exact parseItems_no_newline _ tops ht t htm
    · intro n hn
      exact parseItems_no_newline _ _ (nestedField_ok parse name res root ret hp h a ha) n hn
  · intro hv
    obtain ⟨chs, hE, hs⟩ := utf8.validString_encodings _ _ (Nat.le_refl _) hv
    obtain ⟨h1, h2, h3⟩ := strings.replace_trim_normal _ chs hE hs
    rw [hdesc]
    exact ⟨⟨strings.replace_no_newline _, h1, h2⟩, h3⟩
  · intro hv a ha
    obtain ⟨t, htm, _, hd, _⟩ := forall₂_mem_left hf a ha
    refine ⟨?_, ?_⟩
    · rw [hd]
      apply parseItems_normalised _ tops ht _ t htm
      intro li hli
      obtain ⟨l, hl, hll⟩ := mem_children _ li hli
      exact hv l (List.mem_of_mem_take hl) li hll
    · intro n hn
      apply parseItems_normalised _ _ (nestedField_ok parse name res root ret hp h a ha) _ n hn
      intro li hli
      obtain ⟨l, hl, hll⟩ := mem_children _ li hli
      exact hv l (List.mem_of_mem_drop (List.mem_filter.1 hl).1) li hll

/-- C19 at `accentsPage`, whose texts are valid UTF-8 with characters of
several bytes, white space of several bytes around them and newlines in
them. -/
theorem C19_descriptions_normalised_witness :
    parseId (Response.mk 200 "200 OK" accentsPage).Body = .ok accentsPage ∧
    scrapeTfResource parseId "aws_instance" (Response.mk 200 "200 OK" accentsPage) =
      .ok ⟨"aws_instance", utf8.bytes "Crée uneinstance.",
        [⟨"nom", utf8.bytes "(Optional)\u2003Le nom affiché", false,
          [⟨utf8.bytes "clé", utf8.bytes "(Required) La clé", true, []⟩]⟩]⟩ ∧
    utf8.ValidString ((document accentsPage).Find innerP).First.Text.data = true ∧
    (∀ l ∈ (document accentsPage).Find innerUl, ∀ li ∈ Selection.Children [l],
      utf8.ValidString (Selection.Text [li]).data = true) ∧
    (Normalised (utf8.bytes "Crée uneinstance.") ∧
      strings.TrimSpace (utf8.bytes "Crée uneinstance.") = utf8.bytes "Crée uneinstance.") ∧
    (∀ a ∈ [tfResourceArg.mk "nom" (utf8.bytes "(Optional)\u2003Le nom affiché") false
          [⟨utf8.bytes "clé", utf8.bytes "(Required) La clé", true, []⟩]],
      (Normalised a.Description ∧ strings.TrimSpace a.Description = a.Description) ∧
      ∀ n ∈ a.NestedField,
        Normalised n.Description ∧ strings.TrimSpace n.Description = n.Description) :=
  have hv : utf8.ValidString ((document accentsPage).Find innerP).First.Text.data = true := by
    decide
  have hvs : ∀ l ∈ (document accentsPage).Find innerUl, ∀ li ∈ Selection.Children [l],
      utf8.ValidString (Selection.Text [li]).data = true := by
    decide
  have hc := C19_descriptions_normalised parseId "aws_instance"
    (Response.mk 200 "200 OK" accentsPage) accentsPage _ rfl rfl
  ⟨rfl, rfl, hv, hvs, hc.2.1 hv, hc.2.2 hvs⟩

/-- C19 as stated fails: in the text of the item of `splitRunePage` a newline
stands between the bytes C2 and A0, at either end of the description.  The
trimming takes each of the two bytes for a byte that is part of no encoding,
and the deletion of the newline joins them to the encoding of U+00A0, which is
white space: the extracted description begins and ends with white space. -/
theorem C19_counterexample :
    scrapeTfResource parseId "aws_instance" (Response.mk 200 "200 OK" splitRunePage) =
      .ok ⟨"aws_instance", "Provides an instance.",
        [⟨"name", "\xC2\xA0(Optional) Name\xC2\xA0", false, []⟩]⟩ ∧
    utf8.DecodeRuneInString "\xC2\xA0(Optional) Name\xC2\xA0".data = (0xA0, 2) ∧
    utf8.DecodeLastRuneInString "\xC2\xA0(Optional) Name\xC2\xA0".data = (0xA0, 2) ∧
    unicode.IsSpace 0xA0 = true ∧
    strings.TrimSpace "\xC2\xA0(Optional) Name\xC2\xA0" = "(Optional) Name" ∧
    ¬ Normalised "\xC2\xA0(Optional) Name\xC2\xA0" :=
  ⟨rfl, by decide, by decide, by decide, by decide,
    fun h => absurd h.2.1 (by decide)⟩

/-- The strings of the embedding hold bytes: in the Go string `éé_x` the
separator is at the byte offset 4, and `TrimSpace` removes the white space
U+00A0 and U+3000 of several bytes. -/
theorem bytes_examples :
    utf8.bytes "éé_x" = "\xC3\xA9\xC3\xA9_x" ∧
    strings.Index (utf8.bytes "éé_x") "_" = some 4 ∧
    strings.TrimSpace (utf8.bytes "\u00A0 été\u3000") = utf8.bytes "été" ∧
    utf8.ValidString (utf8.bytes "\u00A0 été\u3000 \u2003𝔘").data = true ∧
    utf8.ValidString "\xC2\n\xA0".data = false :=
  ⟨by decide, by decide, by decide, by decide, by decide⟩

/-- C20: top-level arguments of the same name end with the same nested
fields: each of them gets the parsed items of every later list whose preceding
text is that name, list after list and in item order. -/
theorem C20_every_owner {β : Type} (parse : β → Except String Node) (name : String)
    (res : Response β) (root : Node) (ret : TfResource)
    (hp : parse res.Body = .ok root) (h : scrapeTfResource parse name res = .ok ret)
    (a b : tfResourceArg) (ha : a ∈ ret.Args) (hb : b ∈ ret.Args) (hab : a.Name = b.Name) :
    a.NestedField = b.NestedField ∧
      List.Forall₂ (fun n li => scrapingResourceList li = .ok n) a.NestedField
        (Selection.Children ((((document root).Find innerUl).drop 1).filter
          (fun l => ownerText l = a.Name))) ∧
      List.Forall₂ (fun n li => scrapingResourceList li = .ok n) b.NestedField
        (Selection.Children ((((document root).Find innerUl).drop 1).filter
          (fun l => ownerText l = a.Name))) := by
  have h1 := nestedField_ok parse name res root ret hp h a ha
  have h2 := nestedField_ok parse name res root ret hp h b hb
  rw [← hab] at h2
  have he : a.NestedField = b.NestedField := by
    rw [h1] at h2
    simpa using h2
  exact ⟨he, parseItems_forall₂ _ _ h1, parseItems_forall₂ _ _ h2⟩

/-- C20 at `duplicatePage`: the first and the third argument are both named
`ebs`, and both get the two items of the list of `ebs`. -/
theorem C20_every_owner_witness :
    parseId (Response.mk 200 "200 OK" duplicatePage).Body = .ok duplicatePage ∧
    scrapeTfResource parseId "aws_instance" (Response.mk 200 "200 OK" duplicatePage) =
      .ok ⟨"aws_instance", "Provides an instance.",
        [⟨"ebs", "(Optional) Block devices", false, sampleEbs.NestedField⟩, sampleAmi,
          ⟨"ebs", "(Optional) More block devices", false, sampleEbs.NestedField⟩]⟩ ∧
    (tfResourceArg.mk "ebs" "(Optional) Block devices" false sampleEbs.NestedField).Name =
      (tfResourceArg.mk "ebs" "(Optional) More block devices" false
        sampleEbs.NestedField).Name ∧
    ((tfResourceArg.mk "ebs" "(Optional) Block devices" false sampleEbs.NestedField).NestedField
        = (tfResourceArg.mk "ebs" "(Optional) More block devices" false
          sampleEbs.NestedField).NestedField ∧
      List.Forall₂ (fun n li => scrapingResourceList li = .ok n)
        (tfResourceArg.mk "ebs" "(Optional) Block devices" false
          sampleEbs.NestedField).NestedField
        (Selection.Children ((((document duplicatePage).Find innerUl).drop 1).filter
          (fun l => ownerText l =
            (tfResourceArg.mk "ebs" "(Optional) Block devices" false
              sampleEbs.NestedField).Name))) ∧
      List.Forall₂ (fun n li => scrapingResourceList li = .ok n)
        (tfResourceArg.mk "ebs" "(Optional) More block devices" false
          sampleEbs.NestedField).NestedField
        (Selection.Children ((((document duplicatePage).Find innerUl).drop 1).filter
          (fun l => ownerText l =
            (tfResourceArg.mk "ebs" "(Optional) Block devices" false
              sampleEbs.NestedField).Name)))) :=
  ⟨rfl, rfl, rfl,
    C20_every_owner parseId "aws_instance" (Response.mk 200 "200 OK" duplicatePage)
      duplicatePage _ rfl rfl _ _ (List.Mem.head _)
      (List.Mem.tail _ (List.Mem.tail _ (List.Mem.head _))) rfl⟩

end scraping
